import Mathlib

/-!
The key codec and the playlist extractor of m3u-json

A shallow embedding of `src/m3u-json.go`.

A Go `string` is a finite sequence of bytes; it is modelled as `List Nat`
(each element a byte value).  String literals of the source are written with
`bytes "..."`, which produces the UTF-8 bytes of the literal.

The Go standard library functions the program calls (`encoding/base64`,
`encoding/hex`, `strings`, `regexp`, `unicode/utf8`) are not part of the
repository; they are modelled here after the behaviour of the Go
implementation, on byte sequences.
-/

namespace M3U

/-- A Go string: its bytes. -/
abbrev GoString := List Nat

/-- UTF-8 bytes of a literal. -/
def bytes (s : String) : GoString := s.toUTF8.data.toList.map UInt8.toNat

/-! ## encoding/base64, StdEncoding -/

/-- The error type of `encoding/base64` (the offset it carries is not modelled). -/
inductive CorruptInputError where
  | corrupt
  deriving DecidableEq, Repr

/-- Alphabet of `base64.StdEncoding`:
`ABCDEFGHIJKLMNOPQRSTUVWXYZabcdefghijklmnopqrstuvwxyz0123456789+/`,
as the function from a 6-bit value to its character. -/
def encodeStd (v : Nat) : Nat :=
  if v < 26 then 65 + v
  else if v < 52 then 97 + (v - 26)
  else if v < 62 then 48 + (v - 52)
  else if v = 62 then 43
  else 47

/-- The table `enc.decodeMap` of `base64.StdEncoding`: the 6-bit value of an
alphabet character, `0xff` for every other byte. -/
def decodeMap (c : Nat) : Nat :=
  if 65 ≤ c ∧ c ≤ 90 then c - 65
  else if 97 ≤ c ∧ c ≤ 122 then c - 97 + 26
  else if 48 ≤ c ∧ c ≤ 57 then c - 48 + 52
  else if c = 43 then 62
  else if c = 47 then 63
  else 0xff

/-- The padding character `'='` of `base64.StdEncoding`. -/
def padChar : Nat := 61

/-- Skip of `'\n'` and `'\r'` in `decodeQuantum`
(`for si < len(src) && (src[si] == '\n' || src[si] == '\r')`). -/
def skipNewlines : GoString → GoString
  | [] => []
  | c :: cs => if c = 10 ∨ c = 13 then skipNewlines cs else c :: cs

/-- The bytes a quantum of `dlen` characters decodes to, from `decodeQuantum`:
`val := dbuf[0]<<18 | dbuf[1]<<12 | dbuf[2]<<6 | dbuf[3]`, of which the top
`dlen - 1` bytes are written (`dbuf` entries never filled are zero; the
encoding is not strict, so left-over bits are not checked). -/
def quantumBytes (dbuf : List Nat) (dlen : Nat) : List Nat :=
  let val := (dbuf.getD 0 0 <<< 18) ||| (dbuf.getD 1 0 <<< 12)
    ||| (dbuf.getD 2 0 <<< 6) ||| dbuf.getD 3 0
  ([(val >>> 16) % 256, (val >>> 8) % 256, (val >>> 0) % 256]).take (dlen - 1)

/-- The loop of `(*Encoding).Decode` over `decodeQuantum`, as one pass over
the input.  `j` is the number of characters already read into the current
quantum `dbuf`.

* end of input: fine between quanta (`j = 0`), otherwise an error (the
  encoding has padding, so a short final quantum is corrupt);
* an alphabet character is stored; the fourth completes the quantum;
* `'\n'` and `'\r'` are ignored;
* any other byte but `'='` is an error;
* `'='` with `j < 2` is an error; with `j = 2` a second `'='` must follow
  (newlines skipped); after the padding only newlines may follow. -/
def decodeLoop : Nat → List Nat → GoString → Except CorruptInputError (List Nat)
  | j, _, [] => if j = 0 then .ok [] else .error .corrupt
  | j, dbuf, c :: cs =>
    if decodeMap c ≠ 0xff then
      if j = 3 then
        match decodeLoop 0 [] cs with
        | .ok out => .ok (quantumBytes (dbuf ++ [decodeMap c]) 4 ++ out)
        | .error e => .error e
      else decodeLoop (j + 1) (dbuf ++ [decodeMap c]) cs
    else if c = 10 ∨ c = 13 then decodeLoop j dbuf cs
    else if c ≠ padChar then .error .corrupt
    else if j = 0 ∨ j = 1 then .error .corrupt
    else if j = 2 then
      match skipNewlines cs with
      | [] => .error .corrupt
      | c2 :: cs2 =>
        if c2 ≠ padChar then .error .corrupt
        else if skipNewlines cs2 ≠ [] then .error .corrupt
        else .ok (quantumBytes dbuf 2)
    else
      if skipNewlines cs ≠ [] then .error .corrupt
      else .ok (quantumBytes dbuf 3)

/-- Result of `base64.StdEncoding.DecodeString(s)`: the decoded bytes, or the error. -/
def base64.DecodeString (s : GoString) : Except CorruptInputError (List Nat) :=
  decodeLoop 0 [] s

/-- Go's `base64.StdEncoding.EncodeToString` without its padding
(`RawStdEncoding`): three bytes give four characters, a final group of one
byte gives two characters and of two bytes gives three. -/
def base64.RawEncodeToString : List Nat → GoString
  | [] => []
  | [a] => [encodeStd (a / 4), encodeStd (a % 4 * 16)]
  | [a, b] => [encodeStd (a / 4), encodeStd (a % 4 * 16 + b / 16), encodeStd (b % 16 * 4)]
  | a :: b :: c :: rest =>
    encodeStd (a / 4) :: encodeStd (a % 4 * 16 + b / 16) :: encodeStd (b % 16 * 4 + c / 64)
      :: encodeStd (c % 64) :: base64.RawEncodeToString rest

/-- Go's `base64.StdEncoding.EncodeToString`: as `base64.RawEncodeToString`, the
final group filled up to four characters with `'='`. -/
def base64.EncodeToString : List Nat → GoString
  | [] => []
  | [a] => [encodeStd (a / 4), encodeStd (a % 4 * 16), padChar, padChar]
  | [a, b] =>
    [encodeStd (a / 4), encodeStd (a % 4 * 16 + b / 16), encodeStd (b % 16 * 4), padChar]
  | a :: b :: c :: rest =>
    encodeStd (a / 4) :: encodeStd (a % 4 * 16 + b / 16) :: encodeStd (b % 16 * 4 + c / 64)
      :: encodeStd (c % 64) :: base64.EncodeToString rest

/-! ## encoding/hex -/

/-- The table `hextable = "0123456789abcdef"`. -/
def hextable (v : Nat) : Nat := if v < 10 then 48 + v else 97 + (v - 10)

/-- Go's `hex.EncodeToString`: `hextable[v>>4]`, `hextable[v&0x0f]` for every byte. -/
def hex.EncodeToString : List Nat → GoString
  | [] => []
  | v :: vs => hextable (v >>> 4) :: hextable (v &&& 0x0f) :: hex.EncodeToString vs

/-! ## base64ToHex -/

/-- Go's `strings.Repeat`. -/
def strings.Repeat (s : GoString) (count : Nat) : GoString := (List.replicate count s).flatten

/-- The input of `base64ToHex` after its padding step
(`input += strings.Repeat("=", 4-missingPadding)` when `len(input) % 4 > 0`). -/
def padInput (input : GoString) : GoString :=
  let missingPadding := input.length % 4
  if missingPadding > 0 then input ++ strings.Repeat (bytes "=") (4 - missingPadding) else input

/-- The function `base64ToHex` of the source; the pair is Go's `(string, error)`,
`none` being the `nil` error. -/
def base64ToHex (input : GoString) : GoString × Option CorruptInputError :=
  match base64.DecodeString (padInput input) with
  | .error err => ([], some err)
  | .ok decoded => (hex.EncodeToString decoded, none)

/-! ## Vocabulary of the statements about the key codec -/

/-- A text with all its trailing `'='` characters removed. -/
def stripPadding (s : GoString) : GoString :=
  (s.reverse.dropWhile (fun c => c == padChar)).reverse

/-- Membership in the standard base64 alphabet: `A`-`Z`, `a`-`z`, `0`-`9`, `+`, `/`. -/
def isStdAlphabet (c : Nat) : Bool :=
  (65 ≤ c && c ≤ 90) || (97 ≤ c && c ≤ 122) || (48 ≤ c && c ≤ 57) || c == 43 || c == 47

/-- A text is standard base64 text: characters of the alphabet only, followed by
at most two `'='` of padding, of a length that is a multiple of four. -/
def isStdText (t : GoString) : Bool :=
  (stripPadding t).all isStdAlphabet
    && decide (t.length - (stripPadding t).length ≤ 2)
    && t.length % 4 == 0

/-- A text without its `'\n'` and `'\r'` bytes. -/
def stripNewlines (t : GoString) : GoString :=
  t.filter (fun c => !(c == 10 || c == 13))

/-! ## strings.Split -/

/-- The scan of `strings.Split(s, sep)` for a non-empty `sep`: `cur` is the
fragment read so far, `skip` the number of bytes of a separator still to pass. -/
def splitLoop (sep : GoString) : Nat → GoString → GoString → List GoString
  | _, cur, [] => [cur]
  | skip + 1, cur, _ :: cs => splitLoop sep skip cur cs
  | 0, cur, c :: cs =>
    if sep.isPrefixOf (c :: cs) then cur :: splitLoop sep (sep.length - 1) [] cs
    else splitLoop sep 0 (cur ++ [c]) cs

/-- Go's `strings.Split(s, sep)` for a non-empty `sep`: the fragments of `s`
between the successive, non-overlapping occurrences of `sep`, leftmost first. -/
def strings.Split (s sep : GoString) : List GoString := splitLoop sep 0 [] s

/-! ## regexp

The four patterns of the program are sequences of literal bytes, optional
literal bytes, greedy repetitions of a byte class and capture groups.  They are
all ASCII patterns whose classes are complements of ASCII sets, so matching
them on bytes is the same as matching them on the runes of the text. -/

/-- One item of a pattern. -/
inductive Atom where
  /-- a literal byte -/
  | lit (c : Nat)
  /-- an optional literal byte `c?`, greedy -/
  | opt (c : Nat)
  /-- a repetition `[class]*`, greedy -/
  | star (p : Nat → Bool)
  /-- a repetition `[class]+`, greedy -/
  | plus (p : Nat → Bool)
  /-- the start `(` of a group -/
  | groupOpen
  /-- the end `)` of a group -/
  | groupClose

/-- A compiled pattern. -/
abbrev Regexp := List Atom

/-- The literal bytes of a text as pattern items. -/
def lits (s : String) : Regexp := (bytes s).map Atom.lit

/-- The class `\s` of Go's regexp syntax: `[\t\n\f\r ]`. -/
def isReSpace (c : Nat) : Bool := c == 9 || c == 10 || c == 12 || c == 13 || c == 32

/-- The class `[^\s]`. -/
def notReSpace (c : Nat) : Bool := !isReSpace c

/-- The class `[^"]`. -/
def notQuote (c : Nat) : Bool := !(c == 34)

/-- Greedy repetition of a class followed by the rest `k` of the pattern: the
longest repetition is tried first, then shorter ones. -/
def starLoop {α : Type} (p : Nat → Bool) (k : Nat → GoString → Option α) :
    Nat → GoString → Option α
  | pos, [] => k pos []
  | pos, c :: cs =>
    if p c then
      match starLoop p k (pos + 1) cs with
      | some r => some r
      | none => k pos (c :: cs)
    else k pos (c :: cs)

/-- Match of a pattern at the start of a text, in the leftmost-first order of
Go's `regexp` (that of a backtracking matcher).  `pos` is the number of bytes
matched so far, `opens` the start offsets of the groups now open, `caps` the
offsets of the groups closed so far.  The result is the end offset of the match
and the offsets of its groups. -/
def matchAtoms : Regexp → Nat → List Nat → List (Nat × Nat) → GoString →
    Option (Nat × List (Nat × Nat))
  | [], pos, _, caps, _ => some (pos, caps)
  | .lit c :: as, pos, opens, caps, s =>
    match s with
    | [] => none
    | x :: xs => if x = c then matchAtoms as (pos + 1) opens caps xs else none
  | .opt c :: as, pos, opens, caps, s =>
    match s with
    | [] => matchAtoms as pos opens caps []
    | x :: xs =>
      if x = c then
        match matchAtoms as (pos + 1) opens caps xs with
        | some r => some r
        | none => matchAtoms as pos opens caps (x :: xs)
      else matchAtoms as pos opens caps (x :: xs)
  | .star p :: as, pos, opens, caps, s =>
    starLoop p (fun pos2 s2 => matchAtoms as pos2 opens caps s2) pos s
  | .plus p :: as, pos, opens, caps, s =>
    match s with
    | [] => none
    | x :: xs =>
      if p x then starLoop p (fun pos2 s2 => matchAtoms as pos2 opens caps s2) (pos + 1) xs
      else none
  | .groupOpen :: as, pos, opens, caps, s => matchAtoms as pos (pos :: opens) caps s
  | .groupClose :: as, pos, opens, caps, s =>
    match opens with
    | [] => none
    | st :: opens2 => matchAtoms as pos opens2 (caps ++ [(st, pos)]) s

/-- The strings of a match that starts at the head of `t` and ends at offset
`e`: the whole match, then the text of every group. -/
def submatches (t : GoString) (e : Nat) (caps : List (Nat × Nat)) : List GoString :=
  t.take e :: caps.map (fun ab => (t.drop ab.1).take (ab.2 - ab.1))

/-- Go's `(*Regexp).FindStringSubmatch`: the strings of the leftmost match, the
empty slice (`nil`) when there is none. -/
def regexp.FindStringSubmatch (re : Regexp) : GoString → List GoString
  | [] =>
    match matchAtoms re 0 [] [] [] with
    | some (e, caps) => submatches [] e caps
    | none => []
  | c :: cs =>
    match matchAtoms re 0 [] [] (c :: cs) with
    | some (e, caps) => submatches (c :: cs) e caps
    | none => regexp.FindStringSubmatch re cs

/-- Go's `(*Regexp).FindString`: the text of the leftmost match, `""` when there
is none. -/
def regexp.FindString (re : Regexp) (s : GoString) : GoString :=
  match regexp.FindStringSubmatch re s with
  | [] => []
  | m :: _ => m

/-- The scan of `FindAllStringSubmatch`: `skip` is the number of bytes of the
last match still to pass; the search goes on where the last match ended.  (The
patterns of the program match no empty string.) -/
def findAllLoop (re : Regexp) : Nat → GoString → List (List GoString)
  | 0, [] =>
    match matchAtoms re 0 [] [] [] with
    | some (e, caps) => [submatches [] e caps]
    | none => []
  | _ + 1, [] => []
  | skip + 1, _ :: cs => findAllLoop re skip cs
  | 0, c :: cs =>
    match matchAtoms re 0 [] [] (c :: cs) with
    | some (e, caps) => submatches (c :: cs) e caps :: findAllLoop re (e - 1) cs
    | none => findAllLoop re 0 cs

/-- Go's `(*Regexp).FindAllStringSubmatch(s, -1)`: the strings of all successive
matches, in the order of the text. -/
def regexp.FindAllStringSubmatch (re : Regexp) (s : GoString) : List (List GoString) :=
  findAllLoop re 0 s

/-! ## unicode/utf8 and strings.TrimSpace -/

/-- The rune `utf8.RuneError`. -/
def RuneError : Nat := 0xFFFD

/-- Go's `utf8.DecodeRuneInString`: the first rune of a text and its width in
bytes; `(RuneError, 1)` for an invalid encoding, `(RuneError, 0)` for the empty
text. -/
def utf8.DecodeRuneInString (s : GoString) : Nat × Nat :=
  match s with
  | [] => (RuneError, 0)
  | s0 :: rest =>
    if s0 < 0x80 then (s0, 1)
    else if s0 < 0xC2 ∨ 0xF4 < s0 then (RuneError, 1)
    else
      let sz := if s0 < 0xE0 then 2 else if s0 < 0xF0 then 3 else 4
      let lo := if s0 = 0xE0 then 0xA0 else if s0 = 0xF0 then 0x90 else 0x80
      let hi := if s0 = 0xED then 0x9F else if s0 = 0xF4 then 0x8F else 0xBF
      if s.length < sz then (RuneError, 1)
      else
        let s1 := rest.getD 0 0
        if s1 < lo ∨ hi < s1 then (RuneError, 1)
        else if sz ≤ 2 then (((s0 &&& 0x1F) <<< 6) ||| (s1 &&& 0x3F), 2)
        else
          let s2 := rest.getD 1 0
          if s2 < 0x80 ∨ 0xBF < s2 then (RuneError, 1)
          else if sz ≤ 3 then
            (((s0 &&& 0x0F) <<< 12) ||| ((s1 &&& 0x3F) <<< 6) ||| (s2 &&& 0x3F), 3)
          else
            let s3 := rest.getD 2 0
            if s3 < 0x80 ∨ 0xBF < s3 then (RuneError, 1)
            else
              (((s0 &&& 0x07) <<< 18) ||| ((s1 &&& 0x3F) <<< 12) ||| ((s2 &&& 0x3F) <<< 6)
                ||| (s3 &&& 0x3F), 4)

/-- Go's `utf8.RuneStart`: the byte is not a continuation byte. -/
def utf8.RuneStart (b : Nat) : Bool := !(b &&& 0xC0 == 0x80)

/-- The backward loop of `utf8.DecodeLastRuneInString`
(`for start--; start >= lim; start-- { if RuneStart(s[start]) { break } }`),
entered after the first `start--`. -/
def lastRuneStartLoop (s : GoString) (lim : Int) : Nat → Int → Int
  | 0, start => start
  | n + 1, start =>
    if start ≥ lim then
      if utf8.RuneStart (s.getD start.toNat 0) then start else lastRuneStartLoop s lim n (start - 1)
    else start

/-- Go's `utf8.DecodeLastRuneInString`: the last rune of a text and its width. -/
def utf8.DecodeLastRuneInString (s : GoString) : Nat × Nat :=
  let end_ := s.length
  if end_ = 0 then (RuneError, 0)
  else
    let r := s.getD (end_ - 1) 0
    if r < 0x80 then (r, 1)
    else
      let lim : Int := if (end_ : Int) - 4 < 0 then 0 else (end_ : Int) - 4
      let start0 := lastRuneStartLoop s lim 4 ((end_ : Int) - 2)
      let start := if start0 < 0 then 0 else start0.toNat
      let (r2, size) := utf8.DecodeRuneInString ((s.take end_).drop start)
      if start + size ≠ end_ then (RuneError, 1) else (r2, size)

/-- Go's `unicode.IsSpace`. -/
def unicode.IsSpace (r : Nat) : Bool :=
  if r ≤ 0xFF then
    r == 9 || r == 10 || r == 11 || r == 12 || r == 13 || r == 32 || r == 0x85 || r == 0xA0
  else
    r == 0x1680 || (0x2000 ≤ r && r ≤ 0x200a) || r == 0x2028 || r == 0x2029 || r == 0x202f
      || r == 0x205f || r == 0x3000

/-- The table `asciiSpace` of package `strings`. -/
def asciiSpace (c : Nat) : Bool :=
  c == 9 || c == 10 || c == 11 || c == 12 || c == 13 || c == 32

/-- Go's `strings.TrimLeftFunc(s, unicode.IsSpace)`: `skip` is the number of
bytes of the last rune still to pass. -/
def trimLeftLoop : Nat → GoString → GoString
  | _, [] => []
  | skip + 1, _ :: cs => trimLeftLoop skip cs
  | 0, c :: cs =>
    if unicode.IsSpace (utf8.DecodeRuneInString (c :: cs)).1 then
      trimLeftLoop ((utf8.DecodeRuneInString (c :: cs)).2 - 1) cs
    else c :: cs

/-- The loop of `lastIndexFunc(s, unicode.IsSpace, false)`, from index `i` down:
the index of the last rune that is not a space, `none` for Go's `-1`. -/
def lastIndexLoop (s : GoString) : Nat → Nat → Option Nat
  | _, 0 => none
  | skip + 1, i + 1 => lastIndexLoop s skip i
  | 0, i + 1 =>
    if !unicode.IsSpace (utf8.DecodeLastRuneInString (s.take (i + 1))).1 then
      some (i + 1 - (utf8.DecodeLastRuneInString (s.take (i + 1))).2)
    else lastIndexLoop s ((utf8.DecodeLastRuneInString (s.take (i + 1))).2 - 1) i

/-- Go's `strings.TrimRightFunc(s, unicode.IsSpace)`. -/
def trimRightFunc (s : GoString) : GoString :=
  match lastIndexLoop s 0 s.length with
  | none => []
  | some i =>
    if s.getD i 0 ≥ 0x80 then s.take (i + (utf8.DecodeRuneInString (s.drop i)).2)
    else s.take (i + 1)

/-- Go's `strings.TrimFunc(s, unicode.IsSpace)`. -/
def trimFunc (s : GoString) : GoString := trimRightFunc (trimLeftLoop 0 s)

/-- The second loop of `strings.TrimSpace`, on the reversed text. -/
def trimSpaceRight : GoString → GoString
  | [] => []
  | c :: cs =>
    if c ≥ 0x80 then trimRightFunc (c :: cs).reverse
    else if asciiSpace c then trimSpaceRight cs
    else (c :: cs).reverse

/-- The first loop of `strings.TrimSpace`. -/
def trimSpaceLeft : GoString → GoString
  | [] => []
  | c :: cs =>
    if c ≥ 0x80 then trimFunc (c :: cs)
    else if asciiSpace c then trimSpaceLeft cs
    else trimSpaceRight (c :: cs).reverse

/-- Go's `strings.TrimSpace`: the text without its leading and trailing
white space, as Unicode defines it. -/
def strings.TrimSpace (s : GoString) : GoString := trimSpaceLeft s

/-! ## The program -/

/-- The struct `Stream` of the source. -/
structure Stream where
  URL : GoString
  Key1 : GoString
  Key2 : GoString
  Key3 : GoString
  Key4 : GoString
  UserAgent : GoString
  Authorization : GoString
  Proxy : GoString
  ShakaPackager : Bool
  Resolution : GoString
  deriving DecidableEq, Repr

/-- A Go `map[string]Stream`: a list of entries with distinct keys (the order of
the entries has no meaning). -/
abbrev StreamMap := List (GoString × Stream)

/-- The read `m[k]` with its presence flag. -/
def mapGet : StreamMap → GoString → Option Stream
  | [], _ => none
  | (k2, v2) :: m, k => if k2 = k then some v2 else mapGet m k

/-- The assignment `m[k] = v`: an entry with the key `k` is replaced, otherwise
the entry is added. -/
def mapSet : StreamMap → GoString → Stream → StreamMap
  | [], k, v => [(k, v)]
  | (k2, v2) :: m, k, v => if k2 = k then (k, v) :: m else (k2, v2) :: mapSet m k v

/-- A run-time panic of Go. -/
inductive Panic where
  | indexOutOfRange
  deriving DecidableEq, Repr

/-- The index expression `xs[i]` of Go, which panics out of range. -/
def index {α : Type} (xs : List α) (i : Nat) : Except Panic α :=
  match xs.get? i with
  | some x => .ok x
  | none => .error .indexOutOfRange

/-- The pattern `tvg-id\s*=\s*"([^"]+)"`. -/
def tvgIDRegex : Regexp :=
  lits "tvg-id" ++ [.star isReSpace] ++ lits "=" ++ [.star isReSpace] ++ lits "\""
    ++ [.groupOpen, .plus notQuote, .groupClose] ++ lits "\""

/-- The pattern `(https?://[^\s]+\.mpd)`. -/
def urlRegex : Regexp :=
  [.groupOpen] ++ lits "http" ++ [.opt 115] ++ lits "://" ++ [.plus notReSpace]
    ++ lits ".mpd" ++ [.groupClose]

/-- The pattern `"k"\s*:\s*"([^"]+)"\s*,\s*"kid"\s*:\s*"([^"]+)"`. -/
def licenseKeyRegex : Regexp :=
  lits "\"k\"" ++ [.star isReSpace] ++ lits ":" ++ [.star isReSpace] ++ lits "\""
    ++ [.groupOpen, .plus notQuote, .groupClose] ++ lits "\""
    ++ [.star isReSpace] ++ lits "," ++ [.star isReSpace] ++ lits "\"kid\""
    ++ [.star isReSpace] ++ lits ":" ++ [.star isReSpace] ++ lits "\""
    ++ [.groupOpen, .plus notQuote, .groupClose] ++ lits "\""

/-- The pattern `#EXTVLCOPT:http-user-agent="([^"]+)"`. -/
def userAgentRegex : Regexp :=
  lits "#EXTVLCOPT:http-user-agent=\"" ++ [.groupOpen, .plus notQuote, .groupClose]
    ++ lits "\""

/-- The variables `key1, key2, key3, key4` of `parseM3UContent`. -/
structure KeyVars where
  key1 : GoString
  key2 : GoString
  key3 : GoString
  key4 : GoString
  deriving DecidableEq, Repr

/-- The statement `switch i { case 0: key1 = key ... case 3: key4 = key }`. -/
def assignKey (i : Nat) (key : GoString) (ks : KeyVars) : KeyVars :=
  match i with
  | 0 => { ks with key1 := key }
  | 1 => { ks with key2 := key }
  | 2 => { ks with key3 := key }
  | 3 => { ks with key4 := key }
  | _ => ks

/-- The loop `for i, match := range licenseKeyMatches` of `parseM3UContent`,
from index `i` on. -/
def licenseKeyLoop : Nat → List (List GoString) → KeyVars → Except Panic KeyVars
  | _, [], ks => .ok ks
  | i, mtch :: rest, ks =>
    if i ≥ 4 then .ok ks
    else
      match index mtch 1 with
      | .error e => .error e
      | .ok m1 =>
        match index mtch 2 with
        | .error e => .error e
        | .ok m2 =>
          let kBase64 := strings.TrimSpace m1
          let kidBase64 := strings.TrimSpace m2
          if (base64ToHex kidBase64).2 ≠ none then licenseKeyLoop (i + 1) rest ks
          else if (base64ToHex kBase64).2 ≠ none then licenseKeyLoop (i + 1) rest ks
          else
            let key := (base64ToHex kidBase64).1 ++ bytes ":" ++ (base64ToHex kBase64).1
            licenseKeyLoop (i + 1) rest (assignKey i key ks)

/-- The default of `userAgent` in `parseM3UContent`. -/
def defaultUserAgent : GoString :=
  bytes "Mozilla/5.0 (Linux; Android 10; BRAVIA 4K VH2 Build/QTG3.200305.006.S292; wv)"

/-- The body of the loop `for _, section := range sections` of
`parseM3UContent`, on the map `streams` (output to the console left out). -/
def processSection (streams : StreamMap) (sec : GoString) : Except Panic StreamMap :=
  if sec.length = 0 then .ok streams
  else
    let tvgIDMatch := regexp.FindStringSubmatch tvgIDRegex sec
    let urlMatch := regexp.FindString urlRegex sec
    if tvgIDMatch.length > 1 ∧ urlMatch.length > 0 then
      match index tvgIDMatch 1 with
      | .error e => .error e
      | .ok tvgID =>
        let url := urlMatch
        let licenseKeyMatches := regexp.FindAllStringSubmatch licenseKeyRegex sec
        match licenseKeyLoop 0 licenseKeyMatches ⟨[], [], [], []⟩ with
        | .error e => .error e
        | .ok ks =>
          let userAgentMatch := regexp.FindStringSubmatch userAgentRegex sec
          match (if userAgentMatch.length > 1 then index userAgentMatch 1
                 else .ok defaultUserAgent) with
          | .error e => .error e
          | .ok userAgent =>
            .ok (mapSet streams tvgID
              { URL := url
                Key1 := ks.key1
                Key2 := ks.key2
                Key3 := ks.key3
                Key4 := ks.key4
                UserAgent := userAgent
                Authorization := []
                Proxy := []
                ShakaPackager := false
                Resolution := bytes "1280" })
    else .ok streams

/-- The loop over the sections. -/
def sectionsLoop : List GoString → StreamMap → Except Panic StreamMap
  | [], streams => .ok streams
  | sec :: rest, streams =>
    match processSection streams sec with
    | .error e => .error e
    | .ok streams2 => sectionsLoop rest streams2

/-- The function `parseM3UContent` of the source: the map it returns, or the
panic it stops with. -/
def parseM3UContent (content : GoString) : Except Panic StreamMap :=
  sectionsLoop (strings.Split content (bytes "#EXTINF")) []

/-! ## Vocabulary of the statements about the extractor -/

/-- Go's `(*Regexp).NumSubexp`: the number of groups of a pattern. -/
def numSubexp (re : Regexp) : Nat :=
  re.countP (fun a => match a with | .groupClose => true | _ => false)

/-- The block `sec` qualifies for a record under the identifier `id`: it is not
empty, `id` is the capture of its first `tvg-id` match, and the URL pattern
matches in it (the conditions of lines 53 and 63 of the source). -/
def Qualifying (sec id : GoString) : Prop :=
  sec ≠ [] ∧ (∃ whole, regexp.FindStringSubmatch tvgIDRegex sec = [whole, id]) ∧
    regexp.FindString urlRegex sec ≠ []

/-- The slot `key(n+1)` of a record, for `n` in `0..3`. -/
def Stream.keySlot (r : Stream) (n : Nat) : GoString :=
  match n with
  | 0 => r.Key1
  | 1 => r.Key2
  | 2 => r.Key3
  | 3 => r.Key4
  | _ => []

/-- The variable `key(n+1)`, for `n` in `0..3`. -/
def KeyVars.slot (ks : KeyVars) (n : Nat) : GoString :=
  match n with
  | 0 => ks.key1
  | 1 => ks.key2
  | 2 => ks.key3
  | 3 => ks.key4
  | _ => []

/-- The first line of a block: its text before the first `'\n'`. -/
def firstLine (sec : GoString) : GoString := sec.takeWhile (fun c => c != 10)

/-- The text `kidHex:kHex` of one key-pair match, when both of its values
decode (auxiliary to the proofs about `licenseKeyLoop`). -/
def formatPair (mtch : List GoString) : Option GoString :=
  if (base64ToHex (strings.TrimSpace (mtch.getD 2 []))).2 = none ∧
      (base64ToHex (strings.TrimSpace (mtch.getD 1 []))).2 = none then
    some ((base64ToHex (strings.TrimSpace (mtch.getD 2 []))).1 ++ bytes ":"
      ++ (base64ToHex (strings.TrimSpace (mtch.getD 1 []))).1)
  else none

/-- The identifier under which a block is recorded, `none` when the block is
skipped (auxiliary to the proofs: the conditions of lines 53 and 63 and the key
of line 121 of the source). -/
def blockID (sec : GoString) : Option GoString :=
  if sec.length = 0 then none
  else if (regexp.FindStringSubmatch tvgIDRegex sec).length > 1 ∧ (regexp.FindString urlRegex sec).length > 0
  then (regexp.FindStringSubmatch tvgIDRegex sec).get? 1
  else none

/-- The record built from a block that is recorded (auxiliary to the proofs:
lines 65 to 132 of the source, read without the panics that cannot occur). -/
def blockRecord (sec : GoString) : Stream :=
  let ks := match licenseKeyLoop 0 (regexp.FindAllStringSubmatch licenseKeyRegex sec) ⟨[], [], [], []⟩ with
    | .ok ks => ks
    | .error _ => ⟨[], [], [], []⟩
  let userAgentMatch := regexp.FindStringSubmatch userAgentRegex sec
  { URL := regexp.FindString urlRegex sec
    Key1 := ks.key1
    Key2 := ks.key2
    Key3 := ks.key3
    Key4 := ks.key4
    UserAgent := if userAgentMatch.length > 1 then userAgentMatch.getD 1 [] else defaultUserAgent
    Authorization := []
    Proxy := []
    ShakaPackager := false
    Resolution := bytes "1280" }

/-- The effect of one block on the map (auxiliary to the proofs). -/
def stepSection (streams : StreamMap) (sec : GoString) : StreamMap :=
  match blockID sec with
  | some id => mapSet streams id (blockRecord sec)
  | none => streams

/-- A lowercase hexadecimal digit: `0`-`9` or `a`-`f`. -/
def isLowerHex (c : Nat) : Bool := (48 ≤ c && c ≤ 57) || (97 ≤ c && c ≤ 102)

/-! ## The caller -/

/-- The scan of `strings.ReplaceAll(s, old, new)` for a non-empty `old`: `skip` is
the number of bytes of an occurrence of `old` still to pass. -/
def replaceLoop (old new : GoString) : Nat → GoString → GoString
  | _, [] => []
  | skip + 1, _ :: cs => replaceLoop old new skip cs
  | 0, c :: cs =>
    if old.isPrefixOf (c :: cs) then new ++ replaceLoop old new (old.length - 1) cs
    else c :: replaceLoop old new 0 cs

/-- Go's `strings.ReplaceAll(s, old, new)` for a non-empty `old`: the successive,
non-overlapping occurrences of `old` in `s`, leftmost first, replaced by `new`. -/
def strings.ReplaceAll (s old new : GoString) : GoString := replaceLoop old new 0 s

/-- The value `streams` of `main` for the file content `content` (lines 156 and
159 of the source): the content with its line endings normalised, parsed. -/
def mainStreams (content : GoString) : Except Panic StreamMap :=
  let contentStr := strings.ReplaceAll content (bytes "\r\n") (bytes "\n")
  parseM3UContent contentStr

/-! ## Vocabulary of the statements about line endings -/

/-- The text `s` with every `"\r\n"` replaced by `"\n"`: every `'\r'` that stands
right before a `'\n'` is dropped (auxiliary to the proofs: what
`strings.ReplaceAll(s, "\r\n", "\n")` computes). -/
def normalizeCRLF : GoString → GoString
  | [] => []
  | c :: cs => if c = 13 ∧ cs.head? = some 10 then normalizeCRLF cs else c :: normalizeCRLF cs

/-- No value that the patterns capture between quotes in the block `sec` (the
identifier, the user agent, the `k` and the `kid` of a key pair) holds `"\r\n"`. -/
def CapturesWithoutCRLF (sec : GoString) : Prop :=
  (∀ v ∈ (regexp.FindStringSubmatch tvgIDRegex sec).tail, ¬ bytes "\r\n" <:+: v) ∧
  (∀ v ∈ (regexp.FindStringSubmatch userAgentRegex sec).tail, ¬ bytes "\r\n" <:+: v) ∧
  (∀ m ∈ regexp.FindAllStringSubmatch licenseKeyRegex sec,
    ∀ v ∈ m.tail, ¬ bytes "\r\n" <:+: v)

/-- The cut of a text into `a` and `s` does not fall inside a `"\r\n"` (auxiliary to
the proofs). -/
def Clean (a s : GoString) : Prop := ¬ (a.getLast? = some 13 ∧ s.head? = some 10)

/-- The offset in `normalizeCRLF t` that corresponds to the offset `n` in `t`
(auxiliary to the proofs). -/
def cut (t : GoString) (n : Nat) : Nat := (normalizeCRLF (t.take n)).length

/-- The offsets of a group carried over to `normalizeCRLF t`. -/
def cutPair (t : GoString) (ab : Nat × Nat) : Nat × Nat := (cut t ab.1, cut t ab.2)

/-- The offset `n` of `t` does not fall inside a `"\r\n"`. -/
def CleanAt (t : GoString) (n : Nat) : Prop := n ≤ t.length ∧ Clean (t.take n) (t.drop n)

/-- The offsets of a group of `t` that do not fall inside a `"\r\n"`. -/
def GoodPair (t : GoString) (ab : Nat × Nat) : Prop :=
  CleanAt t ab.1 ∧ CleanAt t ab.2 ∧ ab.1 ≤ ab.2

/-- The result `y` of a match on `normalizeCRLF t` is the result `x` of the match on
`t`, carried over (auxiliary to the proofs). -/
def MatchRel (t : GoString) (x y : Option (Nat × List (Nat × Nat))) : Prop :=
  match x with
  | none => y = none
  | some r => y = some (cut t r.1, r.2.map (cutPair t)) ∧ CleanAt t r.1 ∧
      ∀ c ∈ r.2, GoodPair t c

/-- The pattern cannot match at a text that starts with `'\n'`: its first item that
reads a byte is a literal other than `'\n'`, or a class `+` without `'\n'`. -/
def headNotLF : Regexp → Bool
  | [] => false
  | .lit c :: _ => c != 10
  | .opt _ :: _ => false
  | .star _ :: _ => false
  | .plus p :: _ => !p 10
  | .groupOpen :: as => headNotLF as
  | .groupClose :: as => headNotLF as

/-- The pattern does not tell `"\r\n"` from `"\n"`: its literals are neither `'\r'`
nor `'\n'`, each class holds both or none of them, and what follows a class that holds
them cannot match at a `'\n'`. -/
def crlfSafe : Regexp → Bool
  | [] => true
  | .lit c :: as => c != 10 && c != 13 && crlfSafe as
  | .opt c :: as => c != 10 && c != 13 && crlfSafe as
  | .star p :: as => (p 10 == p 13) && (!p 10 || headNotLF as) && crlfSafe as
  | .plus p :: as => (p 10 == p 13) && (!p 10 || headNotLF as) && crlfSafe as
  | .groupOpen :: as => crlfSafe as
  | .groupClose :: as => crlfSafe as


/-! ## Facts about the base64 tables and quanta -/

theorem decodeMap_encodeStd (v : Nat) (h : v < 64) : decodeMap (encodeStd v) = v := by
  revert v; decide

theorem encodeStd_ne_pad (v : Nat) : encodeStd v ≠ padChar := by
  unfold encodeStd padChar; split_ifs <;> omega

theorem or_sextets (d0 d1 d2 d3 : Nat) (h1 : d1 < 64) (h2 : d2 < 64) (h3 : d3 < 64) :
    (d0 <<< 18) ||| (d1 <<< 12) ||| (d2 <<< 6) ||| d3
      = d0 * 262144 + d1 * 4096 + d2 * 64 + d3 := by
  have e3 : 2 ^ 6 * d2 + d3 = 2 ^ 6 * d2 ||| d3 := Nat.mul_add_lt_is_or (by omega) d2
  have e2 : 2 ^ 12 * d1 + (d2 * 64 + d3) = 2 ^ 12 * d1 ||| (d2 * 64 + d3) :=
    Nat.mul_add_lt_is_or (by omega) d1
  have e1 : 2 ^ 18 * d0 + (d1 * 4096 + (d2 * 64 + d3))
      = 2 ^ 18 * d0 ||| (d1 * 4096 + (d2 * 64 + d3)) :=
    Nat.mul_add_lt_is_or (by omega) d0
  simp only [Nat.shiftLeft_eq, Nat.or_assoc]
  have a3 : d2 * 2 ^ 6 ||| d3 = d2 * 64 + d3 := by rw [Nat.mul_comm d2, ← e3]; omega
  have a2 : d1 * 2 ^ 12 ||| (d2 * 64 + d3) = d1 * 4096 + (d2 * 64 + d3) := by
    rw [Nat.mul_comm d1, ← e2]; omega
  have a1 : d0 * 2 ^ 18 ||| (d1 * 4096 + (d2 * 64 + d3))
      = d0 * 262144 + (d1 * 4096 + (d2 * 64 + d3)) := by
    rw [Nat.mul_comm d0, ← e1]; omega
  rw [a3, a2, a1]; omega

theorem quantumBytes_four (a b c : Nat) (ha : a < 256) (hb : b < 256) (hc : c < 256) :
    quantumBytes [a / 4, a % 4 * 16 + b / 16, b % 16 * 4 + c / 64, c % 64] 4 = [a, b, c] := by
  simp only [quantumBytes, List.getD_cons_zero, List.getD_cons_succ]
  rw [or_sextets _ _ _ _ (by omega) (by omega) (by omega)]
  simp only [Nat.shiftRight_eq_div_pow]
  simp
  refine ⟨?_, ?_, ?_⟩ <;> omega

theorem quantumBytes_three (a b : Nat) (ha : a < 256) (hb : b < 256) :
    quantumBytes [a / 4, a % 4 * 16 + b / 16, b % 16 * 4] 3 = [a, b] := by
  simp only [quantumBytes, List.getD_cons_zero, List.getD_cons_succ, List.getD_nil]
  rw [or_sextets _ _ _ _ (by omega) (by omega) (by omega)]
  simp only [Nat.shiftRight_eq_div_pow]
  simp
  refine ⟨?_, ?_⟩ <;> omega

theorem quantumBytes_two (a : Nat) (ha : a < 256) :
    quantumBytes [a / 4, a % 4 * 16] 2 = [a] := by
  simp only [quantumBytes, List.getD_cons_zero, List.getD_cons_succ, List.getD_nil]
  rw [or_sextets _ _ _ _ (by omega) (by omega) (by omega)]
  simp only [Nat.shiftRight_eq_div_pow]
  simp
  omega

/-- Reading one alphabet character into a quantum that it does not complete. -/
theorem decodeLoop_sextet (j : Nat) (dbuf : List Nat) (v : Nat) (cs : GoString)
    (hv : v < 64) (hj : j ≠ 3) :
    decodeLoop j dbuf (encodeStd v :: cs) = decodeLoop (j + 1) (dbuf ++ [v]) cs := by
  have h : decodeMap (encodeStd v) ≠ 0xff := by rw [decodeMap_encodeStd v hv]; omega
  rw [decodeLoop, if_pos h, if_neg hj, decodeMap_encodeStd v hv]

/-- Reading the fourth alphabet character of a quantum. -/
theorem decodeLoop_sextet_last (dbuf : List Nat) (v : Nat) (cs : GoString) (hv : v < 64) :
    decodeLoop 3 dbuf (encodeStd v :: cs) =
      match decodeLoop 0 [] cs with
      | .ok out => .ok (quantumBytes (dbuf ++ [v]) 4 ++ out)
      | .error e => .error e := by
  have h : decodeMap (encodeStd v) ≠ 0xff := by rw [decodeMap_encodeStd v hv]; omega
  rw [decodeLoop, if_pos h, if_pos rfl, decodeMap_encodeStd v hv]

/-- Decoding inverts the padded encoder. -/
theorem decodeString_encodeToString (b : List Nat) (hb : ∀ x ∈ b, x < 256) :
    base64.DecodeString (base64.EncodeToString b) = .ok b := by
  unfold base64.DecodeString
  induction b using base64.EncodeToString.induct with
  | case1 => rfl
  | case2 a =>
    have ha : a < 256 := hb a (by simp)
    rw [base64.EncodeToString, decodeLoop_sextet _ _ _ _ (by omega) (by omega),
      decodeLoop_sextet _ _ _ _ (by omega) (by omega)]
    simp [decodeLoop, decodeMap, padChar, skipNewlines]
    exact quantumBytes_two a ha
  | case3 a b =>
    have ha : a < 256 := hb a (by simp)
    have hb2 : b < 256 := hb b (by simp)
    rw [base64.EncodeToString, decodeLoop_sextet _ _ _ _ (by omega) (by omega),
      decodeLoop_sextet _ _ _ _ (by omega) (by omega),
      decodeLoop_sextet _ _ _ _ (by omega) (by omega)]
    simp [decodeLoop, decodeMap, padChar, skipNewlines]
    exact quantumBytes_three a b ha hb2
  | case4 a b c rest ih =>
    have ha : a < 256 := hb a (by simp)
    have hb2 : b < 256 := hb b (by simp)
    have hc : c < 256 := hb c (by simp)
    rw [base64.EncodeToString, decodeLoop_sextet _ _ _ _ (by omega) (by omega),
      decodeLoop_sextet _ _ _ _ (by omega) (by omega),
      decodeLoop_sextet _ _ _ _ (by omega) (by omega),
      decodeLoop_sextet_last _ _ _ (by omega),
      ih (fun x hx => hb x (by simp [hx]))]
    simp only [List.nil_append, List.cons_append]
    rw [quantumBytes_four a b c ha hb2 hc]
    rfl

/-! ## The padding step of `base64ToHex` -/

theorem padInput_cons4 (a b c d : Nat) (s : GoString) :
    padInput (a :: b :: c :: d :: s) = a :: b :: c :: d :: padInput s := by
  have h : (a :: b :: c :: d :: s).length % 4 = s.length % 4 := by
    simp only [List.length_cons]; omega
  unfold padInput
  simp only [h]
  split_ifs <;> simp

/-- Padding the unpadded encoding gives the padded encoding. -/
theorem padInput_rawEncodeToString (b : List Nat) :
    padInput (base64.RawEncodeToString b) = base64.EncodeToString b := by
  induction b using base64.RawEncodeToString.induct with
  | case1 => rfl
  | case2 a => rfl
  | case3 a b => rfl
  | case4 a b c rest ih =>
    rw [base64.RawEncodeToString, base64.EncodeToString, padInput_cons4, ih]

/-- The padded encoding is left alone by the padding step. -/
theorem padInput_encodeToString (b : List Nat) :
    padInput (base64.EncodeToString b) = base64.EncodeToString b := by
  induction b using base64.EncodeToString.induct with
  | case1 => rfl
  | case2 a => simp [base64.EncodeToString, padInput]
  | case3 a b => simp [base64.EncodeToString, padInput]
  | case4 a b c rest ih =>
    rw [base64.EncodeToString, padInput_cons4, ih]

theorem rawEncodeToString_ne_pad (b : List Nat) :
    ∀ x ∈ base64.RawEncodeToString b, x ≠ padChar := by
  induction b using base64.RawEncodeToString.induct with
  | case1 => simp [base64.RawEncodeToString]
  | case2 a => simp [base64.RawEncodeToString, encodeStd_ne_pad]
  | case3 a b => simp [base64.RawEncodeToString, encodeStd_ne_pad]
  | case4 a b c rest ih =>
    intro x hx
    simp only [base64.RawEncodeToString, List.mem_cons] at hx
    rcases hx with rfl | rfl | rfl | rfl | hx
    · exact encodeStd_ne_pad _
    · exact encodeStd_ne_pad _
    · exact encodeStd_ne_pad _
    · exact encodeStd_ne_pad _
    · exact ih x hx

theorem encodeToString_eq_raw_append (b : List Nat) :
    ∃ k, base64.EncodeToString b = base64.RawEncodeToString b ++ List.replicate k padChar := by
  induction b using base64.RawEncodeToString.induct with
  | case1 => exact ⟨0, rfl⟩
  | case2 a => exact ⟨2, rfl⟩
  | case3 a b => exact ⟨1, rfl⟩
  | case4 a b c rest ih =>
    obtain ⟨k, hk⟩ := ih
    exact ⟨k, by simp [base64.RawEncodeToString, base64.EncodeToString, hk]⟩

theorem stripPadding_append_pad (s : GoString) (k : Nat) (hs : ∀ x ∈ s, x ≠ padChar) :
    stripPadding (s ++ List.replicate k padChar) = s := by
  unfold stripPadding
  rw [List.reverse_append, List.reverse_replicate]
  have h1 : ∀ (n : Nat) (l : GoString),
      List.dropWhile (fun c => c == padChar) (List.replicate n padChar ++ l)
        = List.dropWhile (fun c => c == padChar) l := by
    intro n l
    induction n with
    | zero => rfl
    | succ n ih => simp [List.replicate_succ, List.dropWhile_cons, ih]
  have h2 : ∀ l : GoString, (∀ x ∈ l, x ≠ padChar) →
      List.dropWhile (fun c => c == padChar) l = l := by
    intro l hl
    cases l with
    | nil => rfl
    | cons x xs => simp [List.dropWhile_cons, hl x (by simp)]
  rw [h1, h2 _ (fun x hx => hs x (List.mem_reverse.mp hx)), List.reverse_reverse]

/-- Stripping the trailing `'='` of the padded encoding gives the unpadded encoding. -/
theorem stripPadding_encodeToString (b : List Nat) :
    stripPadding (base64.EncodeToString b) = base64.RawEncodeToString b := by
  obtain ⟨k, hk⟩ := encodeToString_eq_raw_append b
  rw [hk, stripPadding_append_pad _ _ (rawEncodeToString_ne_pad b)]

/-- C1: round trip of the key codec.  For every byte sequence `b`, `base64ToHex`
applied to the standard base64 encoding of `b` returns the lowercase hexadecimal
encoding of `b` and no error, both for the encoding with its `'='` padding and
for the encoding with all trailing `'='` stripped. -/
theorem base64ToHex_roundtrip (b : List Nat) (hb : ∀ x ∈ b, x < 256) :
    base64ToHex (base64.EncodeToString b) = (hex.EncodeToString b, none) ∧
    base64ToHex (stripPadding (base64.EncodeToString b)) = (hex.EncodeToString b, none) := by
  have h : base64ToHex (base64.EncodeToString b) = (hex.EncodeToString b, none) := by
    unfold base64ToHex
    rw [padInput_encodeToString, decodeString_encodeToString b hb]
  refine ⟨h, ?_⟩
  unfold base64ToHex
  rw [stripPadding_encodeToString, padInput_rawEncodeToString,
    decodeString_encodeToString b hb]

theorem base64ToHex_roundtrip_witness :
    (∀ x ∈ bytes "AAAA", x < 256) ∧
    base64ToHex (bytes "QUFBQQ==") = (bytes "41414141", none) ∧
    base64ToHex (bytes "QUFBQQ") = (bytes "41414141", none) :=
  ⟨by decide, base64ToHex_roundtrip (bytes "AAAA") (by decide)⟩

/-! ## Rejection of malformed key text -/

theorem decodeMap_ne_iff (c : Nat) : decodeMap c ≠ 0xff ↔ isStdAlphabet c = true := by
  unfold decodeMap isStdAlphabet
  simp only [Bool.or_eq_true, Bool.and_eq_true, decide_eq_true_eq, beq_iff_eq]
  split_ifs <;> omega

theorem skipNewlines_stripNewlines (t : GoString) :
    skipNewlines (stripNewlines t) = stripNewlines t := by
  unfold stripNewlines
  cases h : List.filter (fun c => !(c == 10 || c == 13)) t with
  | nil => rfl
  | cons x xs =>
    have hx : x ∈ List.filter (fun c => !(c == 10 || c == 13)) t := by rw [h]; simp
    have hx2 := (List.mem_filter.mp hx).2
    simp only [Bool.not_eq_true', Bool.or_eq_false_iff, beq_eq_false_iff_ne, ne_eq] at hx2
    simp [skipNewlines, hx2.1, hx2.2]

theorem stripNewlines_skipNewlines (t : GoString) :
    stripNewlines (skipNewlines t) = stripNewlines t := by
  induction t with
  | nil => rfl
  | cons c cs ih =>
    by_cases h : c = 10 ∨ c = 13
    · rw [skipNewlines, if_pos h, ih]
      rcases h with rfl | rfl <;> simp [stripNewlines]
    · rw [skipNewlines, if_neg h]

theorem skipNewlines_eq_nil_iff (t : GoString) :
    skipNewlines t = [] ↔ stripNewlines t = [] := by
  induction t with
  | nil => simp [skipNewlines, stripNewlines]
  | cons c cs ih =>
    by_cases h : c = 10 ∨ c = 13
    · rw [skipNewlines, if_pos h, ih]
      rcases h with rfl | rfl <;> simp [stripNewlines]
    · rw [skipNewlines, if_neg h]
      simp only [not_or] at h
      simp [stripNewlines, List.filter_cons, h.1, h.2]

theorem skipNewlines_head (t : GoString) (c : Nat) (cs : GoString)
    (h : skipNewlines t = c :: cs) : c ≠ 10 ∧ c ≠ 13 ∧ stripNewlines t = c :: stripNewlines cs := by
  induction t with
  | nil => simp [skipNewlines] at h
  | cons x xs ih =>
    by_cases hx : x = 10 ∨ x = 13
    · rw [skipNewlines, if_pos hx] at h
      obtain ⟨h1, h2, h3⟩ := ih h
      refine ⟨h1, h2, ?_⟩
      rw [← h3]
      rcases hx with rfl | rfl <;> simp [stripNewlines]
    · rw [skipNewlines, if_neg hx] at h
      obtain ⟨rfl, rfl⟩ := List.cons.inj h
      simp only [not_or] at hx
      refine ⟨hx.1, hx.2, ?_⟩
      simp [stripNewlines, List.filter_cons, hx.1, hx.2]

/-- The decoder does not see `'\n'` and `'\r'`. -/
theorem decodeLoop_stripNewlines (t : GoString) :
    ∀ (j : Nat) (dbuf : List Nat),
      decodeLoop j dbuf (stripNewlines t) = decodeLoop j dbuf t := by
  induction t with
  | nil => intro j dbuf; rfl
  | cons c cs ih =>
    intro j dbuf
    by_cases hn : c = 10 ∨ c = 13
    · have e : stripNewlines (c :: cs) = stripNewlines cs := by
        rcases hn with rfl | rfl <;> simp [stripNewlines]
      have hm : ¬ decodeMap c ≠ 0xff := by
        rcases hn with rfl | rfl <;> decide
      rw [e, ih, decodeLoop.eq_2 j dbuf c cs, if_neg hm, if_pos hn]
    · have hn2 : c ≠ 10 ∧ c ≠ 13 := by simpa [not_or] using hn
      have e : stripNewlines (c :: cs) = c :: stripNewlines cs := by
        simp [stripNewlines, List.filter_cons, hn2.1, hn2.2]
      rw [e, decodeLoop.eq_2 j dbuf c cs, decodeLoop.eq_2 j dbuf c (stripNewlines cs)]
      simp only [ih, skipNewlines_stripNewlines]
      by_cases hm : decodeMap c ≠ 0xff
      · simp only [if_pos hm]
      · simp only [if_neg hm, if_neg hn]
        by_cases hp : c ≠ padChar
        · simp only [if_pos hp]
        · simp only [if_neg hp]
          by_cases h01 : j = 0 ∨ j = 1
          · simp only [if_pos h01]
          · simp only [if_neg h01]
            by_cases h2 : j = 2
            · simp only [if_pos h2]
              cases hs : skipNewlines cs with
              | nil =>
                rw [(skipNewlines_eq_nil_iff cs).mp hs]
              | cons c2 cs2 =>
                obtain ⟨_, _, h3⟩ := skipNewlines_head cs c2 cs2 hs
                rw [h3]
                simp only [skipNewlines_eq_nil_iff cs2, ne_eq, skipNewlines_stripNewlines]
            · simp only [if_neg h2, ne_eq, skipNewlines_eq_nil_iff cs]

theorem skipNewlines_of_clean (t : GoString) (h : ∀ c ∈ t, c ≠ 10 ∧ c ≠ 13) :
    skipNewlines t = t := by
  cases t with
  | nil => rfl
  | cons c cs =>
    have hc := h c (by simp)
    simp [skipNewlines, hc.1, hc.2]

/-- A successful decode of a text without newlines reads alphabet characters
followed by at most two `'='` that complete the last quantum. -/
theorem decodeLoop_ok_shape (t : GoString) (hnl : ∀ c ∈ t, c ≠ 10 ∧ c ≠ 13) :
    ∀ (j : Nat) (dbuf out : List Nat), j ≤ 3 → decodeLoop j dbuf t = .ok out →
      ∃ (body : GoString) (k : Nat), t = body ++ List.replicate k padChar ∧
        (∀ c ∈ body, isStdAlphabet c = true) ∧ k ≤ 2 ∧ (j + body.length + k) % 4 = 0 := by
  induction t with
  | nil =>
    intro j dbuf out _ h
    rw [decodeLoop] at h
    by_cases hj : j = 0
    · exact ⟨[], 0, rfl, by simp, by omega, by simp [hj]⟩
    · rw [if_neg hj] at h; cases h
  | cons c cs ih =>
    intro j dbuf out hj h
    have hc := hnl c (by simp)
    have hcs : ∀ x ∈ cs, x ≠ 10 ∧ x ≠ 13 := fun x hx => hnl x (by simp [hx])
    rw [decodeLoop.eq_2 j dbuf c cs] at h
    by_cases hm : decodeMap c ≠ 0xff
    · rw [if_pos hm] at h
      have hal : isStdAlphabet c = true := (decodeMap_ne_iff c).mp hm
      by_cases h3 : j = 3
      · rw [if_pos h3] at h
        cases hd : decodeLoop 0 [] cs with
        | error e => rw [hd] at h; cases h
        | ok o =>
          obtain ⟨body, k, e1, e2, e3, e4⟩ := ih hcs 0 [] o (by omega) hd
          refine ⟨c :: body, k, by rw [e1]; rfl, ?_, e3, ?_⟩
          · intro x hx
            rcases List.mem_cons.mp hx with rfl | hx
            · exact hal
            · exact e2 x hx
          · simp only [List.length_cons]; omega
      · rw [if_neg h3] at h
        obtain ⟨body, k, e1, e2, e3, e4⟩ := ih hcs (j + 1) _ out (by omega) h
        refine ⟨c :: body, k, by rw [e1]; rfl, ?_, e3, ?_⟩
        · intro x hx
          rcases List.mem_cons.mp hx with rfl | hx
          · exact hal
          · exact e2 x hx
        · simp only [List.length_cons]; omega
    · rw [if_neg hm, if_neg (by simp [hc.1, hc.2])] at h
      by_cases hp : c ≠ padChar
      · rw [if_pos hp] at h; cases h
      · rw [if_neg hp] at h
        have hp2 : c = padChar := by simpa using hp
        by_cases h01 : j = 0 ∨ j = 1
        · rw [if_pos h01] at h; cases h
        · rw [if_neg h01] at h
          by_cases h2 : j = 2
          · rw [if_pos h2, skipNewlines_of_clean cs hcs] at h
            cases cs with
            | nil => cases h
            | cons c2 cs2 =>
              simp only at h
              by_cases hp3 : c2 ≠ padChar
              · rw [if_pos hp3] at h; cases h
              · rw [if_neg hp3] at h
                have hcs2 : ∀ x ∈ cs2, x ≠ 10 ∧ x ≠ 13 := fun x hx => hcs x (by simp [hx])
                rw [skipNewlines_of_clean cs2 hcs2] at h
                by_cases hnil : cs2 ≠ []
                · rw [if_pos hnil] at h; cases h
                · have hp4 : c2 = padChar := by simpa using hp3
                  have hnil2 : cs2 = [] := by simpa using hnil
                  refine ⟨[], 2, by rw [hp2, hp4, hnil2]; rfl, by simp, by omega, ?_⟩
                  simp [h2]
          · rw [if_neg h2, skipNewlines_of_clean cs hcs] at h
            by_cases hnil : cs ≠ []
            · rw [if_pos hnil] at h; cases h
            · have hnil2 : cs = [] := by simpa using hnil
              have hj3 : j = 3 := by omega
              refine ⟨[], 1, by rw [hp2, hnil2]; rfl, by simp, by omega, ?_⟩
              simp [hj3]

theorem isStdText_of_shape (body : GoString) (k : Nat)
    (h1 : ∀ c ∈ body, isStdAlphabet c = true) (h2 : k ≤ 2) (h3 : (body.length + k) % 4 = 0) :
    isStdText (body ++ List.replicate k padChar) = true := by
  have hne : ∀ x ∈ body, x ≠ padChar := by
    intro x hx hxp
    have := h1 x hx
    rw [hxp] at this
    exact absurd this (by decide)
  unfold isStdText
  rw [stripPadding_append_pad body k hne]
  simp only [List.length_append, List.length_replicate, Bool.and_eq_true, List.all_eq_true,
    decide_eq_true_eq, beq_iff_eq]
  exact ⟨⟨h1, by omega⟩, h3⟩

theorem stripNewlines_clean (t : GoString) : ∀ c ∈ stripNewlines t, c ≠ 10 ∧ c ≠ 13 := by
  intro c hc
  have := (List.mem_filter.mp hc).2
  simpa [not_or] using this

/-- A successful decode means that the text, `'\n'` and `'\r'` apart, is standard
base64 text. -/
theorem decodeString_ok_isStdText (t : GoString) (out : List Nat)
    (h : base64.DecodeString t = .ok out) : isStdText (stripNewlines t) = true := by
  unfold base64.DecodeString at h
  rw [← decodeLoop_stripNewlines] at h
  obtain ⟨body, k, e1, e2, e3, e4⟩ :=
    decodeLoop_ok_shape (stripNewlines t) (stripNewlines_clean t) 0 [] out (by omega) h
  rw [e1]
  exact isStdText_of_shape body k e2 e3 (by omega)

/-- C2 (amended): for every input string, if the input after its `'='` padding,
with its `'\r'` and `'\n'` bytes left out, is not standard base64 text (a character
outside the alphabet, a `'='` that is not final padding, or a length that is not a
multiple of four), `base64ToHex` returns the empty string and an error. -/
theorem base64ToHex_error_of_malformed (input : GoString)
    (h : isStdText (stripNewlines (padInput input)) = false) :
    base64ToHex input = ([], some CorruptInputError.corrupt) := by
  unfold base64ToHex
  cases hd : base64.DecodeString (padInput input) with
  | error e => cases e; rfl
  | ok out =>
    rw [decodeString_ok_isStdText _ out hd] at h
    cases h

theorem base64ToHex_error_of_malformed_witness :
    isStdText (stripNewlines (padInput (bytes "QU*B"))) = false ∧
    base64ToHex (bytes "QU*B") = ([], some CorruptInputError.corrupt) :=
  ⟨by decide, base64ToHex_error_of_malformed (bytes "QU*B") (by decide)⟩

/-- C2 as stated fails: the padded input `"QU\n\n\n\nFB"` holds characters outside
the alphabet, so it is not standard base64 text, and yet `base64ToHex` returns
`"414141"` without an error (the decoder ignores `'\r'` and `'\n'`). -/
theorem base64ToHex_newlines_accepted :
    isStdText (padInput (bytes "QU\n\n\n\nFB")) = false ∧
    (∃ c ∈ padInput (bytes "QU\n\n\n\nFB"), isStdAlphabet c = false ∧ c ≠ padChar) ∧
    base64ToHex (bytes "QU\n\n\n\nFB") = (bytes "414141", none) := by
  refine ⟨by decide, ⟨10, by decide, by decide, by decide⟩, by decide⟩

/-! ## Shape of the matches -/

theorem starLoop_some {α : Type} (p : Nat → Bool) (k : Nat → GoString → Option α) (r : α) :
    ∀ (s : GoString) (pos : Nat), starLoop p k pos s = some r →
      ∃ pos2 s2, k pos2 s2 = some r := by
  intro s
  induction s with
  | nil => intro pos h; exact ⟨pos, [], by simpa [starLoop] using h⟩
  | cons c cs ih =>
    intro pos h
    rw [starLoop] at h
    by_cases hp : p c = true
    · rw [if_pos hp] at h
      cases hr : starLoop p k (pos + 1) cs with
      | some r2 =>
        rw [hr] at h
        simp only [Option.some.injEq] at h
        exact ih (pos + 1) (by rw [hr, h])
      | none =>
        rw [hr] at h
        exact ⟨pos, c :: cs, h⟩
    · rw [if_neg hp] at h
      exact ⟨pos, c :: cs, h⟩

/-- A match reports one pair of offsets for every group of the pattern. -/
theorem matchAtoms_caps_length (re : Regexp) :
    ∀ (pos : Nat) (opens : List Nat) (caps : List (Nat × Nat)) (s : GoString)
      (e : Nat) (caps2 : List (Nat × Nat)),
      matchAtoms re pos opens caps s = some (e, caps2) →
        caps2.length = caps.length + numSubexp re := by
  induction re with
  | nil =>
    intro pos opens caps s e caps2 h
    simp only [matchAtoms, Option.some.injEq, Prod.mk.injEq] at h
    simp [numSubexp, h.2]
  | cons a as ih =>
    intro pos opens caps s e caps2 h
    cases a with
    | lit c =>
      have hn : numSubexp (Atom.lit c :: as) = numSubexp as := by simp [numSubexp]
      rw [hn]
      cases s with
      | nil => simp [matchAtoms] at h
      | cons x xs =>
        simp only [matchAtoms] at h
        by_cases hx : x = c
        · rw [if_pos hx] at h; exact ih _ _ _ _ _ _ h
        · rw [if_neg hx] at h; cases h
    | opt c =>
      have hn : numSubexp (Atom.opt c :: as) = numSubexp as := by simp [numSubexp]
      rw [hn]
      cases s with
      | nil => simp only [matchAtoms] at h; exact ih _ _ _ _ _ _ h
      | cons x xs =>
        simp only [matchAtoms] at h
        by_cases hx : x = c
        · rw [if_pos hx] at h
          cases hr : matchAtoms as (pos + 1) opens caps xs with
          | some r2 =>
            rw [hr] at h
            simp only [Option.some.injEq] at h
            rw [h] at hr
            exact ih _ _ _ _ _ _ hr
          | none =>
            rw [hr] at h
            exact ih _ _ _ _ _ _ h
        · rw [if_neg hx] at h; exact ih _ _ _ _ _ _ h
    | star p =>
      have hn : numSubexp (Atom.star p :: as) = numSubexp as := by simp [numSubexp]
      rw [hn]
      simp only [matchAtoms] at h
      obtain ⟨pos2, s2, h2⟩ := starLoop_some p _ _ s pos h
      exact ih _ _ _ _ _ _ h2
    | plus p =>
      have hn : numSubexp (Atom.plus p :: as) = numSubexp as := by simp [numSubexp]
      rw [hn]
      cases s with
      | nil => simp [matchAtoms] at h
      | cons x xs =>
        simp only [matchAtoms] at h
        by_cases hx : p x = true
        · rw [if_pos hx] at h
          obtain ⟨pos2, s2, h2⟩ := starLoop_some p _ _ xs (pos + 1) h
          exact ih _ _ _ _ _ _ h2
        · rw [if_neg hx] at h; cases h
    | groupOpen =>
      have hn : numSubexp (Atom.groupOpen :: as) = numSubexp as := by simp [numSubexp]
      rw [hn]
      simp only [matchAtoms] at h
      exact ih _ _ _ _ _ _ h
    | groupClose =>
      have hn : numSubexp (Atom.groupClose :: as) = numSubexp as + 1 := by simp [numSubexp]
      rw [hn]
      cases opens with
      | nil => simp [matchAtoms] at h
      | cons st opens2 =>
        simp only [matchAtoms] at h
        have := ih _ _ _ _ _ _ h
        simp only [List.length_append, List.length_singleton] at this
        omega

theorem submatches_length (t : GoString) (e : Nat) (caps : List (Nat × Nat)) :
    (submatches t e caps).length = caps.length + 1 := by
  simp [submatches]

/-- The slice of `FindStringSubmatch` is `nil` or has one string for the match
and one for every group. -/
theorem findStringSubmatch_length (re : Regexp) (s : GoString) :
    regexp.FindStringSubmatch re s = [] ∨ (regexp.FindStringSubmatch re s).length = numSubexp re + 1 := by
  induction s with
  | nil =>
    rw [regexp.FindStringSubmatch]
    cases h : matchAtoms re 0 [] [] [] with
    | none => left; rfl
    | some r =>
      right
      obtain ⟨e, caps⟩ := r
      have := matchAtoms_caps_length re _ _ _ _ _ _ h
      simp only [submatches_length, this, List.length_nil, Nat.zero_add]
  | cons c cs ih =>
    rw [regexp.FindStringSubmatch]
    cases h : matchAtoms re 0 [] [] (c :: cs) with
    | none => exact ih
    | some r =>
      right
      obtain ⟨e, caps⟩ := r
      have := matchAtoms_caps_length re _ _ _ _ _ _ h
      simp only [submatches_length, this, List.length_nil, Nat.zero_add]

/-- Every slice of `FindAllStringSubmatch` has one string for the match and one
for every group. -/
theorem findAllLoop_length (re : Regexp) (s : GoString) :
    ∀ (skip : Nat), ∀ m ∈ findAllLoop re skip s, m.length = numSubexp re + 1 := by
  induction s with
  | nil =>
    intro skip m hm
    cases skip with
    | zero =>
      rw [findAllLoop] at hm
      cases h : matchAtoms re 0 [] [] [] with
      | none => rw [h] at hm; simp at hm
      | some r =>
        obtain ⟨e, caps⟩ := r
        rw [h] at hm
        simp only [List.mem_singleton] at hm
        have := matchAtoms_caps_length re _ _ _ _ _ _ h
        rw [hm, submatches_length, this]; simp
    | succ n => simp [findAllLoop] at hm
  | cons c cs ih =>
    intro skip m hm
    cases skip with
    | zero =>
      rw [findAllLoop] at hm
      cases h : matchAtoms re 0 [] [] (c :: cs) with
      | none => rw [h] at hm; exact ih 0 m hm
      | some r =>
        obtain ⟨e, caps⟩ := r
        rw [h] at hm
        simp only [List.mem_cons] at hm
        rcases hm with hm | hm
        · have := matchAtoms_caps_length re _ _ _ _ _ _ h
          rw [hm, submatches_length, this]; simp
        · exact ih _ m hm
    | succ n =>
      rw [findAllLoop] at hm
      exact ih n m hm

/-! ## The loop over the key pairs -/

theorem index_of_lt {α : Type} (xs : List α) (i : Nat) (d : α) (h : i < xs.length) :
    index xs i = .ok (xs.getD i d) := by
  unfold index
  rw [List.getD_eq_getElem?_getD, List.get?_eq_getElem?, List.getElem?_eq_getElem h]
  rfl

theorem assignKey_slot (i n : Nat) (key : GoString) (ks : KeyVars) (hi : i < 4) (hn : n < 4) :
    (assignKey i key ks).slot n = if n = i then key else ks.slot n := by
  interval_cases i <;> interval_cases n <;> rfl

/-- The loop of the key pairs never panics on matches of three strings, and
leaves in slot `n` the key of the match it handled at index `n`. -/
theorem licenseKeyLoop_spec (ms : List (List GoString)) (hlen : ∀ m ∈ ms, m.length = 3) :
    ∀ (i : Nat) (ks : KeyVars), ∃ ks2, licenseKeyLoop i ms ks = .ok ks2 ∧
      ∀ n, n < 4 → ks2.slot n =
        if n < i then ks.slot n
        else match ms.get? (n - i) with
          | none => ks.slot n
          | some m => (formatPair m).getD (ks.slot n) := by
  induction ms with
  | nil =>
    intro i ks
    refine ⟨ks, by rw [licenseKeyLoop], ?_⟩
    intro n _
    split_ifs <;> rfl
  | cons m rest ih =>
    intro i ks
    have hm : m.length = 3 := hlen m (by simp)
    have hrest : ∀ x ∈ rest, x.length = 3 := fun x hx => hlen x (by simp [hx])
    by_cases hi : i ≥ 4
    · refine ⟨ks, by rw [licenseKeyLoop, if_pos hi], ?_⟩
      intro n hn
      rw [if_pos (by omega)]
    · have hi4 : i < 4 := by omega
      have key : ∀ ks1 : KeyVars, (∀ n, n < 4 → ks1.slot n =
          if n = i then (formatPair m).getD (ks.slot n) else ks.slot n) →
          ∀ ks2, licenseKeyLoop (i + 1) rest ks1 = .ok ks2 →
          (∀ n, n < 4 → ks2.slot n =
            if n < i + 1 then ks1.slot n
            else match rest.get? (n - (i + 1)) with
              | none => ks1.slot n
              | some m => (formatPair m).getD (ks1.slot n)) →
          ∀ n, n < 4 → ks2.slot n =
            if n < i then ks.slot n
            else match (m :: rest).get? (n - i) with
              | none => ks.slot n
              | some m => (formatPair m).getD (ks.slot n) := by
        intro ks1 h1 ks2 _ h2 n hn
        rw [h2 n hn]
        by_cases hlt : n < i
        · rw [if_pos (by omega), if_pos hlt, h1 n hn, if_neg (by omega)]
        · by_cases heq : n = i
          · rw [if_pos (by omega), if_neg hlt, h1 n hn, if_pos heq]
            have : n - i = 0 := by omega
            rw [this]
            rfl
          · rw [if_neg (by omega), if_neg hlt]
            have : n - i = (n - (i + 1)) + 1 := by omega
            rw [this, List.get?_cons_succ, h1 n hn, if_neg heq]
      rw [licenseKeyLoop, if_neg hi, index_of_lt m 1 [] (by omega),
        index_of_lt m 2 [] (by omega)]
      simp only
      by_cases hkid : (base64ToHex (strings.TrimSpace (m.getD 2 []))).2 ≠ none
      · rw [if_pos hkid]
        obtain ⟨ks2, e1, e2⟩ := ih hrest (i + 1) ks
        refine ⟨ks2, e1, key ks ?_ ks2 e1 e2⟩
        intro n _
        have : formatPair m = none := by
          unfold formatPair
          rw [if_neg (fun h => hkid h.1)]
        rw [this]
        split_ifs <;> rfl
      · rw [if_neg hkid]
        by_cases hk : (base64ToHex (strings.TrimSpace (m.getD 1 []))).2 ≠ none
        · rw [if_pos hk]
          obtain ⟨ks2, e1, e2⟩ := ih hrest (i + 1) ks
          refine ⟨ks2, e1, key ks ?_ ks2 e1 e2⟩
          intro n _
          have : formatPair m = none := by
            unfold formatPair
            rw [if_neg (fun h => hk h.2)]
          rw [this]
          split_ifs <;> rfl
        · rw [if_neg hk]
          obtain ⟨ks2, e1, e2⟩ := ih hrest (i + 1) (assignKey i _ ks)
          refine ⟨ks2, e1, key _ ?_ ks2 e1 e2⟩
          intro n hn
          have : formatPair m = some ((base64ToHex (strings.TrimSpace (m.getD 2 []))).1 ++ bytes ":"
              ++ (base64ToHex (strings.TrimSpace (m.getD 1 []))).1) := by
            unfold formatPair
            rw [if_pos ⟨by simpa using hkid, by simpa using hk⟩]
          rw [this, assignKey_slot i n _ ks hi4 hn]
          rfl

/-! ## One block -/

theorem numSubexp_tvgIDRegex : numSubexp tvgIDRegex = 1 := by decide

theorem numSubexp_licenseKeyRegex : numSubexp licenseKeyRegex = 2 := by decide

theorem numSubexp_userAgentRegex : numSubexp userAgentRegex = 1 := by decide

theorem blockID_eq_some_iff (sec id : GoString) :
    blockID sec = some id ↔ Qualifying sec id := by
  unfold blockID Qualifying
  have hlen := findStringSubmatch_length tvgIDRegex sec
  rw [numSubexp_tvgIDRegex] at hlen
  constructor
  · intro h
    by_cases h0 : sec.length = 0
    · rw [if_pos h0] at h; cases h
    · rw [if_neg h0] at h
      by_cases hq : (regexp.FindStringSubmatch tvgIDRegex sec).length > 1 ∧
          (regexp.FindString urlRegex sec).length > 0
      · rw [if_pos hq] at h
        refine ⟨fun hs => h0 (by rw [hs]; rfl), ?_, fun hu => ?_⟩
        · rcases hlen with hl | hl
          · rw [hl] at hq; simp at hq
          · match hm : regexp.FindStringSubmatch tvgIDRegex sec, hl with
            | [w, x], _ =>
              rw [hm] at h
              simp only [List.get?_eq_getElem?, List.getElem?_cons_succ, List.getElem?_cons_zero,
                Option.some.injEq] at h
              exact ⟨w, by rw [h]⟩
        · rw [hu] at hq; simp at hq
      · rw [if_neg hq] at h; cases h
  · rintro ⟨h1, ⟨w, h2⟩, h3⟩
    have h0 : ¬ sec.length = 0 := fun h => h1 (List.length_eq_zero.mp h)
    have hu : (regexp.FindString urlRegex sec).length > 0 := List.length_pos.mpr h3
    rw [if_neg h0, h2, if_pos ⟨by simp, hu⟩]
    rfl

/-- One pass of the loop body never panics; it records the block under its
identifier or leaves the map alone. -/
theorem processSection_eq (streams : StreamMap) (sec : GoString) :
    processSection streams sec = .ok (stepSection streams sec) := by
  unfold processSection stepSection blockID
  by_cases h0 : sec.length = 0
  · simp only [if_pos h0]
  · simp only [if_neg h0]
    by_cases hq : (regexp.FindStringSubmatch tvgIDRegex sec).length > 1 ∧
        (regexp.FindString urlRegex sec).length > 0
    · simp only [if_pos hq]
      rw [index_of_lt _ 1 [] hq.1]
      have hget : (regexp.FindStringSubmatch tvgIDRegex sec).get? 1
          = some ((regexp.FindStringSubmatch tvgIDRegex sec).getD 1 []) := by
        rw [List.getD_eq_getElem?_getD, List.get?_eq_getElem?, List.getElem?_eq_getElem hq.1]
        rfl
      rw [hget]
      simp only
      have hall : ∀ m ∈ regexp.FindAllStringSubmatch licenseKeyRegex sec, m.length = 3 := by
        intro m hm
        have := findAllLoop_length licenseKeyRegex sec 0 m hm
        rw [numSubexp_licenseKeyRegex] at this
        exact this
      obtain ⟨ks, hks, _⟩ := licenseKeyLoop_spec _ hall 0 ⟨[], [], [], []⟩
      unfold blockRecord
      simp only [hks]
      by_cases hua : (regexp.FindStringSubmatch userAgentRegex sec).length > 1
      · simp only [if_pos hua]
        rw [index_of_lt _ 1 [] hua]
      · simp only [if_neg hua]
    · simp only [if_neg hq]

/-- The loop over the sections never panics. -/
theorem sectionsLoop_eq (secs : List GoString) :
    ∀ streams, sectionsLoop secs streams = .ok (secs.foldl stepSection streams) := by
  induction secs with
  | nil => intro streams; rfl
  | cons sec rest ih =>
    intro streams
    rw [sectionsLoop, processSection_eq]
    simp only [List.foldl_cons]
    exact ih _

theorem parseM3UContent_eq (content : GoString) :
    parseM3UContent content
      = .ok ((strings.Split content (bytes "#EXTINF")).foldl stepSection []) := by
  unfold parseM3UContent
  exact sectionsLoop_eq _ _

/-! ## The map -/

theorem mem_mapSet (m : StreamMap) (k : GoString) (v : Stream) (e : GoString × Stream)
    (h : e ∈ mapSet m k v) : e = (k, v) ∨ e ∈ m := by
  induction m with
  | nil => left; simpa [mapSet] using h
  | cons x xs ih =>
    obtain ⟨k2, v2⟩ := x
    rw [mapSet] at h
    by_cases hk : k2 = k
    · rw [if_pos hk] at h
      rcases List.mem_cons.mp h with h | h
      · left; exact h
      · right; exact List.mem_cons_of_mem _ h
    · rw [if_neg hk] at h
      rcases List.mem_cons.mp h with h | h
      · right; rw [h]; exact List.mem_cons_self _ _
      · rcases ih h with h | h
        · left; exact h
        · right; exact List.mem_cons_of_mem _ h

theorem mapGet_mapSet (m : StreamMap) (k k2 : GoString) (v : Stream) :
    mapGet (mapSet m k v) k2 = if k = k2 then some v else mapGet m k2 := by
  induction m with
  | nil => simp [mapSet, mapGet]
  | cons x xs ih =>
    obtain ⟨k3, v3⟩ := x
    rw [mapSet]
    by_cases hk : k3 = k
    · rw [if_pos hk]
      by_cases hk2 : k = k2
      · simp [mapGet, hk2]
      · have : ¬ k3 = k2 := by rw [hk]; exact hk2
        simp [mapGet, hk2, this]
    · rw [if_neg hk]
      by_cases hk3 : k3 = k2
      · have : ¬ k = k2 := by rw [← hk3]; exact fun h => hk h.symm
        simp [mapGet, hk3, this]
      · simp only [mapGet, if_neg hk3, ih]

theorem keys_mapSet (m : StreamMap) (k : GoString) (v : Stream) (x : GoString) :
    x ∈ (mapSet m k v).map Prod.fst ↔ x = k ∨ x ∈ m.map Prod.fst := by
  induction m with
  | nil => simp [mapSet]
  | cons e es ih =>
    obtain ⟨k2, v2⟩ := e
    rw [mapSet]
    by_cases hk : k2 = k
    · rw [if_pos hk]
      simp only [List.map_cons, List.mem_cons, hk]
      tauto
    · rw [if_neg hk]
      simp only [List.map_cons, List.mem_cons, ih]
      tauto

/-- The assignment keeps the keys of the map distinct. -/
theorem nodup_mapSet (m : StreamMap) (k : GoString) (v : Stream)
    (h : (m.map Prod.fst).Nodup) : ((mapSet m k v).map Prod.fst).Nodup := by
  induction m with
  | nil => simp [mapSet]
  | cons e es ih =>
    obtain ⟨k2, v2⟩ := e
    simp only [List.map_cons, List.nodup_cons] at h
    rw [mapSet]
    by_cases hk : k2 = k
    · rw [if_pos hk]
      simp only [List.map_cons, List.nodup_cons]
      exact ⟨by rw [← hk]; exact h.1, h.2⟩
    · rw [if_neg hk]
      simp only [List.map_cons, List.nodup_cons, keys_mapSet]
      exact ⟨fun hx => hx.elim hk h.1, ih h.2⟩

theorem mem_keys_of_mapGet (m : StreamMap) (k : GoString) (v : Stream)
    (h : mapGet m k = some v) : k ∈ m.map Prod.fst := by
  induction m with
  | nil => simp [mapGet] at h
  | cons e es ih =>
    obtain ⟨k2, v2⟩ := e
    rw [mapGet] at h
    by_cases hk : k2 = k
    · simp [hk]
    · rw [if_neg hk] at h
      exact List.mem_cons_of_mem _ (ih h)

/-- In a map with distinct keys, the entries under a key that is present are
the one entry read by `mapGet`. -/
theorem filter_key_of_mapGet (m : StreamMap) (k : GoString) (v : Stream)
    (hn : (m.map Prod.fst).Nodup) (h : mapGet m k = some v) :
    m.filter (fun e => decide (e.1 = k)) = [(k, v)] := by
  induction m with
  | nil => simp [mapGet] at h
  | cons e es ih =>
    obtain ⟨k2, v2⟩ := e
    simp only [List.map_cons, List.nodup_cons] at hn
    rw [mapGet] at h
    by_cases hk : k2 = k
    · rw [if_pos hk] at h
      simp only [Option.some.injEq] at h
      have hnot : k ∉ es.map Prod.fst := by rw [← hk]; exact hn.1
      have hes : es.filter (fun e => decide (e.1 = k)) = [] := by
        rw [List.filter_eq_nil_iff]
        intro a ha hd
        exact hnot (List.mem_map.mpr ⟨a, ha, by simpa using hd⟩)
      rw [List.filter_cons, if_pos (by simpa using hk), hes, hk, h]
    · rw [if_neg hk] at h
      rw [List.filter_cons, if_neg (by simpa using hk)]
      exact ih hn.2 h

/-! ## The loop over the blocks -/

theorem mem_foldl_stepSection (secs : List GoString) :
    ∀ (m : StreamMap) (e : GoString × Stream), e ∈ secs.foldl stepSection m →
      e ∈ m ∨ ∃ sec ∈ secs, blockID sec = some e.1 := by
  induction secs with
  | nil => intro m e h; left; exact h
  | cons sec rest ih =>
    intro m e h
    rw [List.foldl_cons] at h
    rcases ih _ e h with h | ⟨s, hs, hb⟩
    · unfold stepSection at h
      cases hb : blockID sec with
      | none => rw [hb] at h; left; exact h
      | some id =>
        rw [hb] at h
        rcases mem_mapSet _ _ _ _ h with h | h
        · right; exact ⟨sec, List.mem_cons_self _ _, by rw [hb, h]⟩
        · left; exact h
    · right; exact ⟨s, List.mem_cons_of_mem _ hs, hb⟩

theorem nodup_foldl_stepSection (secs : List GoString) :
    ∀ (m : StreamMap), (m.map Prod.fst).Nodup →
      ((secs.foldl stepSection m).map Prod.fst).Nodup := by
  induction secs with
  | nil => intro m h; exact h
  | cons sec rest ih =>
    intro m h
    rw [List.foldl_cons]
    apply ih
    unfold stepSection
    cases blockID sec with
    | none => exact h
    | some id => exact nodup_mapSet _ _ _ h

theorem mapGet_foldl_of_not (secs : List GoString) (id : GoString)
    (h : ∀ sec ∈ secs, blockID sec ≠ some id) :
    ∀ (m : StreamMap), mapGet (secs.foldl stepSection m) id = mapGet m id := by
  induction secs with
  | nil => intro m; rfl
  | cons sec rest ih =>
    intro m
    rw [List.foldl_cons, ih (fun s hs => h s (List.mem_cons_of_mem _ hs))]
    unfold stepSection
    have hsec := h sec (List.mem_cons_self _ _)
    cases hb : blockID sec with
    | none => rfl
    | some id2 =>
      rw [hb] at hsec
      have : ¬ id2 = id := fun e => hsec (by rw [e])
      simp only [mapGet_mapSet, if_neg this]

/-- After the loop, an identifier maps to the record of the last block that
carries it. -/
theorem mapGet_foldl_last (pre post : List GoString) (last id : GoString) (m : StreamMap)
    (hlast : blockID last = some id) (hpost : ∀ sec ∈ post, blockID sec ≠ some id) :
    mapGet ((pre ++ last :: post).foldl stepSection m) id = some (blockRecord last) := by
  rw [List.foldl_append, List.foldl_cons, mapGet_foldl_of_not post id hpost]
  unfold stepSection
  rw [hlast]
  simp only [mapGet_mapSet, if_pos]

/-! ## Texts in which the patterns match -/

/-- A greedy repetition followed by `k` succeeds as soon as `k` succeeds behind
some run of bytes of the class. -/
theorem starLoop_isSome {α : Type} (p : Nat → Bool) (k : Nat → GoString → Option α)
    (rest : GoString) :
    ∀ (xs : GoString) (pos : Nat), (∀ c ∈ xs, p c = true) →
      (k (pos + xs.length) rest).isSome = true →
      (starLoop p k pos (xs ++ rest)).isSome = true := by
  intro xs
  induction xs with
  | nil =>
    intro pos _ hk
    simp only [List.length_nil, Nat.add_zero] at hk
    cases rest with
    | nil => simpa [starLoop] using hk
    | cons c cs =>
      simp only [List.nil_append, starLoop]
      split_ifs
      · cases starLoop p k (pos + 1) cs with
        | some r => rfl
        | none => exact hk
      · exact hk
  | cons x xs ih =>
    intro pos hp hk
    have hx : p x = true := hp x (List.mem_cons_self _ _)
    have hrec := ih (pos + 1) (fun c hc => hp c (List.mem_cons_of_mem _ hc))
      (by rw [List.length_cons] at hk; rw [← hk]; congr 2; omega)
    simp only [List.cons_append, starLoop, if_pos hx]
    cases hs : starLoop p k (pos + 1) (xs ++ rest) with
    | some r => rfl
    | none => rw [hs] at hrec; cases hrec

/-- A match at some position of a text makes `FindStringSubmatch` return a
match. -/
theorem FindStringSubmatch_ne_nil (re : Regexp) (t : GoString)
    (h : (matchAtoms re 0 [] [] t).isSome = true) :
    ∀ (pre : GoString), regexp.FindStringSubmatch re (pre ++ t) ≠ [] := by
  have base : regexp.FindStringSubmatch re t ≠ [] := by
    cases hm : matchAtoms re 0 [] [] t with
    | none => rw [hm] at h; cases h
    | some r =>
      obtain ⟨e, caps⟩ := r
      cases t with
      | nil => rw [regexp.FindStringSubmatch, hm]; simp [submatches]
      | cons c cs => rw [regexp.FindStringSubmatch, hm]; simp [submatches]
  intro pre
  induction pre with
  | nil => exact base
  | cons c cs ih =>
    rw [List.cons_append, regexp.FindStringSubmatch]
    cases hm : matchAtoms re 0 [] [] (c :: (cs ++ t)) with
    | none => exact ih
    | some r => obtain ⟨e, caps⟩ := r; simp [submatches]

/-- The identifier pattern matches at a text `tvg-id="X"` with a non-empty `X`
free of quotes. -/
theorem tvgIDRegex_matches (X post : GoString) (hX : X ≠ []) (hq : ∀ c ∈ X, c ≠ 34) :
    (matchAtoms tvgIDRegex 0 [] [] (bytes "tvg-id=\"" ++ X ++ bytes "\"" ++ post)).isSome
      = true := by
  have e1 : bytes "tvg-id=\"" = [116, 118, 103, 45, 105, 100, 61, 34] := by decide
  have e2 : bytes "\"" = [34] := by decide
  have e3 : tvgIDRegex = [.lit 116, .lit 118, .lit 103, .lit 45, .lit 105, .lit 100,
      .star isReSpace, .lit 61, .star isReSpace, .lit 34, .groupOpen, .plus notQuote,
      .groupClose, .lit 34] := by
    simp only [tvgIDRegex, lits]
    rfl
  rw [e1, e2, e3]
  cases X with
  | nil => exact absurd rfl hX
  | cons x xs =>
    have hx : notQuote x = true := by
      have := hq x (List.mem_cons_self _ _)
      simp [notQuote, this]
    simp only [List.cons_append, List.nil_append, List.append_assoc, matchAtoms, starLoop,
      if_true, isReSpace, hx]
    simp only [Nat.reduceBEq, Bool.or_self, Bool.false_eq_true, ↓reduceIte]
    apply starLoop_isSome
    · intro c hc
      have := hq c (List.mem_cons_of_mem _ hc)
      simp [notQuote, this]
    · simp [matchAtoms]

/-- An optional byte that is present may be taken when the rest of the pattern
matches behind it. -/
theorem matchAtoms_opt_isSome (c : Nat) (as : Regexp) (pos : Nat) (opens : List Nat)
    (caps : List (Nat × Nat)) (xs : GoString)
    (h : (matchAtoms as (pos + 1) opens caps xs).isSome = true) :
    (matchAtoms (.opt c :: as) pos opens caps (c :: xs)).isSome = true := by
  simp only [matchAtoms, if_true]
  cases hm : matchAtoms as (pos + 1) opens caps xs with
  | none => rw [hm] at h; cases h
  | some r => rfl

/-- The URL pattern matches at a text `http://u.mpd` or `https://u.mpd` with a
non-empty `u` free of white space. -/
theorem urlRegex_matches (scheme u post : GoString)
    (hs : scheme = bytes "http://" ∨ scheme = bytes "https://")
    (hu : u ≠ []) (hw : ∀ c ∈ u, notReSpace c = true) :
    (matchAtoms urlRegex 0 [] [] (scheme ++ u ++ bytes ".mpd" ++ post)).isSome = true := by
  have e1 : bytes "http://" = [104, 116, 116, 112, 58, 47, 47] := by decide
  have e2 : bytes "https://" = [104, 116, 116, 112, 115, 58, 47, 47] := by decide
  have e3 : bytes ".mpd" = [46, 109, 112, 100] := by decide
  have e4 : urlRegex = [.groupOpen, .lit 104, .lit 116, .lit 116, .lit 112, .opt 115,
      .lit 58, .lit 47, .lit 47, .plus notReSpace, .lit 46, .lit 109, .lit 112, .lit 100,
      .groupClose] := by
    simp only [urlRegex, lits]
    rfl
  cases u with
  | nil => exact absurd rfl hu
  | cons x xs =>
    have hx := hw x (List.mem_cons_self _ _)
    have hxs : ∀ c ∈ xs, notReSpace c = true := fun c hc => hw c (List.mem_cons_of_mem _ hc)
    have tail : ∀ (pos : Nat),
        (matchAtoms [.lit 58, .lit 47, .lit 47, .plus notReSpace, .lit 46, .lit 109, .lit 112,
          .lit 100, .groupClose] pos [0] []
          (58 :: 47 :: 47 :: x :: (xs ++ ([46, 109, 112, 100] ++ post)))).isSome = true := by
      intro pos
      simp only [matchAtoms, if_true, if_pos hx]
      apply starLoop_isSome _ _ _ _ _ hxs
      simp [matchAtoms]
    rw [e4, e3]
    rcases hs with rfl | rfl
    · rw [e1]
      have h58 : ¬ (58 : Nat) = 115 := by decide
      simp only [List.cons_append, List.nil_append, List.append_assoc]
      rw [matchAtoms, matchAtoms, if_pos rfl, matchAtoms, if_pos rfl, matchAtoms, if_pos rfl,
        matchAtoms, if_pos rfl, matchAtoms, if_neg h58]
      exact tail _
    · rw [e2]
      simp only [List.cons_append, List.nil_append, List.append_assoc]
      rw [matchAtoms, matchAtoms, if_pos rfl, matchAtoms, if_pos rfl, matchAtoms, if_pos rfl,
        matchAtoms, if_pos rfl]
      exact matchAtoms_opt_isSome _ _ _ _ _ _ (tail _)

theorem starLoop_some_le {α : Type} (p : Nat → Bool) (k : Nat → GoString → Option α) (r : α) :
    ∀ (s : GoString) (pos : Nat), starLoop p k pos s = some r →
      ∃ pos2 s2, pos ≤ pos2 ∧ k pos2 s2 = some r := by
  intro s
  induction s with
  | nil => intro pos h; exact ⟨pos, [], Nat.le_refl _, by simpa [starLoop] using h⟩
  | cons c cs ih =>
    intro pos h
    rw [starLoop] at h
    by_cases hp : p c = true
    · rw [if_pos hp] at h
      cases hr : starLoop p k (pos + 1) cs with
      | some r2 =>
        rw [hr] at h
        simp only [Option.some.injEq] at h
        obtain ⟨pos2, s2, h1, h2⟩ := ih (pos + 1) (by rw [hr, h])
        exact ⟨pos2, s2, by omega, h2⟩
      | none =>
        rw [hr] at h
        exact ⟨pos, c :: cs, Nat.le_refl _, h⟩
    · rw [if_neg hp] at h
      exact ⟨pos, c :: cs, Nat.le_refl _, h⟩

/-- The end offset of a match is not before the offset the match was started at. -/
theorem matchAtoms_pos_le (re : Regexp) :
    ∀ (pos : Nat) (opens : List Nat) (caps : List (Nat × Nat)) (s : GoString)
      (e : Nat) (caps2 : List (Nat × Nat)),
      matchAtoms re pos opens caps s = some (e, caps2) → pos ≤ e := by
  induction re with
  | nil =>
    intro pos opens caps s e caps2 h
    simp only [matchAtoms, Option.some.injEq, Prod.mk.injEq] at h
    omega
  | cons a as ih =>
    intro pos opens caps s e caps2 h
    cases a with
    | lit c =>
      cases s with
      | nil => simp [matchAtoms] at h
      | cons x xs =>
        simp only [matchAtoms] at h
        by_cases hx : x = c
        · rw [if_pos hx] at h
          have := ih _ _ _ _ _ _ h
          omega
        · rw [if_neg hx] at h; cases h
    | opt c =>
      cases s with
      | nil => simp only [matchAtoms] at h; exact ih _ _ _ _ _ _ h
      | cons x xs =>
        simp only [matchAtoms] at h
        by_cases hx : x = c
        · rw [if_pos hx] at h
          cases hr : matchAtoms as (pos + 1) opens caps xs with
          | some r2 =>
            rw [hr] at h
            simp only [Option.some.injEq] at h
            rw [h] at hr
            have := ih _ _ _ _ _ _ hr
            omega
          | none =>
            rw [hr] at h
            exact ih _ _ _ _ _ _ h
        · rw [if_neg hx] at h; exact ih _ _ _ _ _ _ h
    | star p =>
      simp only [matchAtoms] at h
      obtain ⟨pos2, s2, hle, h2⟩ := starLoop_some_le p _ _ s pos h
      have := ih _ _ _ _ _ _ h2
      omega
    | plus p =>
      cases s with
      | nil => simp [matchAtoms] at h
      | cons x xs =>
        simp only [matchAtoms] at h
        by_cases hx : p x = true
        · rw [if_pos hx] at h
          obtain ⟨pos2, s2, hle, h2⟩ := starLoop_some_le p _ _ xs (pos + 1) h
          have := ih _ _ _ _ _ _ h2
          omega
        · rw [if_neg hx] at h; cases h
    | groupOpen =>
      simp only [matchAtoms] at h
      exact ih _ _ _ _ _ _ h
    | groupClose =>
      cases opens with
      | nil => simp [matchAtoms] at h
      | cons st opens2 =>
        simp only [matchAtoms] at h
        exact ih _ _ _ _ _ _ h

/-- A match of the URL pattern is not empty. -/
theorem urlRegex_match_pos (t : GoString) (e : Nat) (caps : List (Nat × Nat))
    (h : matchAtoms urlRegex 0 [] [] t = some (e, caps)) : t.take e ≠ [] := by
  have e4 : urlRegex = .groupOpen :: .lit 104 :: ([.lit 116, .lit 116, .lit 112, .opt 115,
      .lit 58, .lit 47, .lit 47, .plus notReSpace, .lit 46, .lit 109, .lit 112, .lit 100,
      .groupClose] : Regexp) := by
    simp only [urlRegex, lits]
    rfl
  rw [e4] at h
  cases t with
  | nil => simp [matchAtoms] at h
  | cons x xs =>
    rw [matchAtoms, matchAtoms] at h
    by_cases hx : x = 104
    · rw [if_pos hx] at h
      have := matchAtoms_pos_le _ _ _ _ _ _ _ h
      have he : e = (e - 1) + 1 := by omega
      rw [he, List.take_succ_cons]
      exact List.cons_ne_nil _ _
    · rw [if_neg hx] at h; cases h

/-- When the URL pattern matches somewhere, `FindString` returns a non-empty text. -/
theorem FindString_urlRegex_ne_nil (s : GoString)
    (h : regexp.FindStringSubmatch urlRegex s ≠ []) : regexp.FindString urlRegex s ≠ [] := by
  induction s with
  | nil =>
    exfalso
    apply h
    decide
  | cons c cs ih =>
    unfold regexp.FindString
    rw [regexp.FindStringSubmatch] at h ⊢
    cases hm : matchAtoms urlRegex 0 [] [] (c :: cs) with
    | none =>
      rw [hm] at h
      exact ih h
    | some r =>
      obtain ⟨e, caps⟩ := r
      simp only [submatches]
      exact urlRegex_match_pos _ _ _ hm

/-- A block that holds a text `tvg-id="X"` and a text `http://u.mpd` or
`https://u.mpd` qualifies, under the capture of its first `tvg-id` match. -/
theorem qualifying_of_text (block pre1 X post1 pre2 scheme u post2 : GoString)
    (hid : block = pre1 ++ (bytes "tvg-id=\"" ++ X ++ bytes "\"" ++ post1))
    (hX : X ≠ []) (hXq : ∀ c ∈ X, c ≠ 34)
    (hurl : block = pre2 ++ (scheme ++ u ++ bytes ".mpd" ++ post2))
    (hscheme : scheme = bytes "http://" ∨ scheme = bytes "https://")
    (hu : u ≠ []) (huw : ∀ c ∈ u, notReSpace c = true) :
    ∃ id, Qualifying block id := by
  have h1 : regexp.FindStringSubmatch tvgIDRegex block ≠ [] := by
    rw [hid]
    exact FindStringSubmatch_ne_nil _ _ (tvgIDRegex_matches X post1 hX hXq) pre1
  have h2 : regexp.FindString urlRegex block ≠ [] := by
    apply FindString_urlRegex_ne_nil
    rw [hurl]
    exact FindStringSubmatch_ne_nil _ _ (urlRegex_matches scheme u post2 hscheme hu huw) pre2
  have hne : block ≠ [] := by
    intro h
    rw [h] at h1
    exact h1 (by decide)
  have hlen := findStringSubmatch_length tvgIDRegex block
  rw [numSubexp_tvgIDRegex] at hlen
  rcases hlen with hl | hl
  · exact absurd hl h1
  · match hm : regexp.FindStringSubmatch tvgIDRegex block, hl with
    | [w, x], _ => exact ⟨x, hne, ⟨w, hm⟩, h2⟩

/-! ## strings.Split on the marker -/

theorem bytes_marker : bytes "#EXTINF" = [35, 69, 88, 84, 73, 78, 70] := by decide

/-- A text without the separator is not strings.Split. -/
theorem splitLoop_of_no_sep (sep : GoString) (s : GoString) :
    ∀ (cur : GoString), ¬ sep <:+: s → splitLoop sep 0 cur s = [cur ++ s] := by
  induction s with
  | nil => intro cur _; simp [splitLoop]
  | cons c cs ih =>
    intro cur h
    have hp : sep.isPrefixOf (c :: cs) = false := by
      cases hb : sep.isPrefixOf (c :: cs) with
      | false => rfl
      | true => exact absurd (List.isPrefixOf_iff_prefix.mp hb).isInfix h
    have hcs : ¬ sep <:+: cs := fun hi => h (hi.trans (List.suffix_cons c cs).isInfix)
    rw [splitLoop]
    simp only [hp, Bool.false_eq_true, if_false]
    rw [ih (cur ++ [c]) hcs]
    simp

/-- A text that starts with the marker and holds it only there splits into the
empty fragment and the block behind the marker. -/
theorem split_single_block (block : GoString) (h : ¬ bytes "#EXTINF" <:+: block) :
    strings.Split (bytes "#EXTINF" ++ block) (bytes "#EXTINF") = [[], block] := by
  have e := splitLoop_of_no_sep (bytes "#EXTINF") block [] h
  rw [bytes_marker] at e ⊢
  simp only [strings.Split, List.cons_append, List.nil_append, splitLoop, List.isPrefixOf,
    beq_self_eq_true, Bool.true_and, if_true, List.length_cons, List.length_nil]
  simpa using e

/-! ## The claims about the extractor -/

theorem blockID_nil : blockID [] = none := by decide

theorem blockID_of_lacking (sec : GoString)
    (h : regexp.FindStringSubmatch tvgIDRegex sec = [] ∨ regexp.FindString urlRegex sec = []) :
    blockID sec = none := by
  unfold blockID
  split_ifs with h0 hq
  · rfl
  · rcases h with h | h
    · rw [h] at hq; simp at hq
    · rw [h] at hq; simp at hq
  · rfl

theorem foldl_stepSection_of_none (secs : List GoString) (h : ∀ sec ∈ secs, blockID sec = none) :
    ∀ m, secs.foldl stepSection m = m := by
  induction secs with
  | nil => intro m; rfl
  | cons sec rest ih =>
    intro m
    rw [List.foldl_cons, ih (fun s hs => h s (List.mem_cons_of_mem _ hs))]
    unfold stepSection
    rw [h sec (List.mem_cons_self _ _)]

/-- C3: for every document `parseM3UContent` returns a map (it raises no error),
and the map holds an entry under `id` only if some non-empty fragment of the
document strings.Split on `"#EXTINF"` has `id` as the capture of its first `tvg-id` match
and holds a match of the URL pattern; a document whose fragments all lack the
identifier or the URL gives the empty map. -/
theorem parseM3UContent_entry_only_if (content : GoString) :
    ∃ m, parseM3UContent content = .ok m ∧
      (∀ id r, (id, r) ∈ m →
        ∃ sec ∈ strings.Split content (bytes "#EXTINF"), Qualifying sec id) ∧
      ((∀ sec ∈ strings.Split content (bytes "#EXTINF"),
          regexp.FindStringSubmatch tvgIDRegex sec = [] ∨ regexp.FindString urlRegex sec = []) → m = []) := by
  refine ⟨_, parseM3UContent_eq content, ?_, ?_⟩
  · intro id r h
    rcases mem_foldl_stepSection _ [] (id, r) h with h | ⟨sec, hs, hb⟩
    · simp at h
    · exact ⟨sec, hs, (blockID_eq_some_iff sec id).mp hb⟩
  · intro h
    exact foldl_stepSection_of_none _ (fun sec hs => blockID_of_lacking sec (h sec hs)) []

/-- A block behind the marker, free of the marker, that qualifies under `X` gives
the one-entry map under `X`. -/
theorem single_block_of_qualifying (block X : GoString)
    (hmark : ¬ bytes "#EXTINF" <:+: block) (hq : Qualifying block X) :
    parseM3UContent (bytes "#EXTINF" ++ block) = .ok [(X, blockRecord block)] := by
  have hb : blockID block = some X := (blockID_eq_some_iff block X).mpr hq
  rw [parseM3UContent_eq, split_single_block block hmark]
  simp only [List.foldl_cons, List.foldl_nil, stepSection, blockID_nil, hb, mapSet]

/-- C4: a document that is exactly one block (it starts with `"#EXTINF"` and holds
the marker nowhere else) whose block holds a quoted identifier `tvg-id="X"` (`X`
not empty, without a quote) and a URL `http://u.mpd` or `https://u.mpd` (`u` not
empty, without white space) gives a map with exactly one entry, and its key is
the capture of the first `tvg-id` match of the block. -/
theorem parseM3UContent_single_block (block pre1 X post1 pre2 scheme u post2 : GoString)
    (hmark : ¬ bytes "#EXTINF" <:+: block)
    (hid : block = pre1 ++ (bytes "tvg-id=\"" ++ X ++ bytes "\"" ++ post1))
    (hX : X ≠ []) (hXq : ∀ c ∈ X, c ≠ 34)
    (hurl : block = pre2 ++ (scheme ++ u ++ bytes ".mpd" ++ post2))
    (hscheme : scheme = bytes "http://" ∨ scheme = bytes "https://")
    (hu : u ≠ []) (huw : ∀ c ∈ u, notReSpace c = true) :
    ∃ whole id r, regexp.FindStringSubmatch tvgIDRegex block = [whole, id] ∧
      parseM3UContent (bytes "#EXTINF" ++ block) = .ok [(id, r)] := by
  obtain ⟨id, hq⟩ := qualifying_of_text block pre1 X post1 pre2 scheme u post2
    hid hX hXq hurl hscheme hu huw
  obtain ⟨whole, hw⟩ := hq.2.1
  exact ⟨whole, id, blockRecord block, hw, single_block_of_qualifying block id hmark hq⟩

theorem parseM3UContent_single_block_witness :
    ∃ whole id r,
      regexp.FindStringSubmatch tvgIDRegex
        (bytes ":-1 tvg-id=\"ch1\",Ch\nhttps://example.com/a.mpd\n") = [whole, id] ∧
      parseM3UContent
        (bytes "#EXTINF" ++ bytes ":-1 tvg-id=\"ch1\",Ch\nhttps://example.com/a.mpd\n")
          = .ok [(id, r)] :=
  parseM3UContent_single_block
    (bytes ":-1 tvg-id=\"ch1\",Ch\nhttps://example.com/a.mpd\n")
    (bytes ":-1 ") (bytes "ch1") (bytes ",Ch\nhttps://example.com/a.mpd\n")
    (bytes ":-1 tvg-id=\"ch1\",Ch\n") (bytes "https://") (bytes "example.com/a") (bytes "\n")
    (by decide) (by decide) (by decide) (by decide) (by decide) (Or.inr rfl) (by decide)
    (by decide)

/-- C5: last write wins.  When the last block of a document that qualifies under
`id` is `last` (whatever blocks qualify under `id` before it), the returned map
has exactly one entry for `id`, and it is the record built from `last` alone
(the record that processing `last` on the empty map stores). -/
theorem parseM3UContent_last_write_wins (content id last : GoString)
    (pre post : List GoString)
    (hsplit : strings.Split content (bytes "#EXTINF") = pre ++ last :: post)
    (hlast : Qualifying last id)
    (hpost : ∀ sec ∈ post, ¬ Qualifying sec id) :
    ∃ m r, parseM3UContent content = .ok m ∧
      processSection [] last = .ok [(id, r)] ∧
      mapGet m id = some r ∧
      m.filter (fun e => decide (e.1 = id)) = [(id, r)] := by
  have hb : blockID last = some id := (blockID_eq_some_iff last id).mpr hlast
  have hp : ∀ sec ∈ post, blockID sec ≠ some id :=
    fun sec hs h => hpost sec hs ((blockID_eq_some_iff sec id).mp h)
  have hget := mapGet_foldl_last pre post last id [] hb hp
  refine ⟨_, blockRecord last, parseM3UContent_eq content, ?_, ?_, ?_⟩
  · rw [processSection_eq]
    simp only [stepSection, hb, mapSet]
  · rw [hsplit]; exact hget
  · rw [hsplit]
    exact filter_key_of_mapGet _ _ _ (nodup_foldl_stepSection _ [] (by simp)) hget

theorem parseM3UContent_last_write_wins_witness :
    ∃ m r, parseM3UContent (bytes
        "#EXTINF:-1 tvg-id=\"dup\",A\nhttp://h/a.mpd\n#EXTINF:-1 tvg-id=\"dup\",B\nhttp://h/b.mpd\n")
          = .ok m ∧
      processSection [] (bytes ":-1 tvg-id=\"dup\",B\nhttp://h/b.mpd\n")
          = .ok [(bytes "dup", r)] ∧
      mapGet m (bytes "dup") = some r ∧
      m.filter (fun e => decide (e.1 = bytes "dup")) = [(bytes "dup", r)] :=
  parseM3UContent_last_write_wins
    (bytes
      "#EXTINF:-1 tvg-id=\"dup\",A\nhttp://h/a.mpd\n#EXTINF:-1 tvg-id=\"dup\",B\nhttp://h/b.mpd\n")
    (bytes "dup") (bytes ":-1 tvg-id=\"dup\",B\nhttp://h/b.mpd\n")
    [[], bytes ":-1 tvg-id=\"dup\",A\nhttp://h/a.mpd\n"] []
    (by decide) ⟨by decide, ⟨bytes "tvg-id=\"dup\"", by decide⟩, by decide⟩
    (by intro sec h; cases h)

/-- C6: key slot assignment.  A qualifying block is recorded whatever its key
pairs are, and for every `n` in `0..3`: when the block has no key-pair match of
index `n`, slot `key(n+1)` of the record is empty; when it has one, with the
captures `k` and `kid`, the slot is `base64ToHex(kid) ++ ":" ++ base64ToHex(k)` of
the trimmed captures if both decode, and empty if either fails. -/
theorem processSection_key_slots (streams : StreamMap) (sec id : GoString)
    (hq : Qualifying sec id) :
    ∃ r, processSection streams sec = .ok (mapSet streams id r) ∧
      ∀ n, n < 4 →
        match (regexp.FindAllStringSubmatch licenseKeyRegex sec).get? n with
        | none => r.keySlot n = []
        | some mtch => ∃ whole k kid, mtch = [whole, k, kid] ∧
            r.keySlot n =
              if (base64ToHex (strings.TrimSpace kid)).2 = none ∧ (base64ToHex (strings.TrimSpace k)).2 = none
              then (base64ToHex (strings.TrimSpace kid)).1 ++ bytes ":" ++ (base64ToHex (strings.TrimSpace k)).1
              else [] := by
  have hb : blockID sec = some id := (blockID_eq_some_iff sec id).mpr hq
  refine ⟨blockRecord sec, ?_, ?_⟩
  · rw [processSection_eq]
    simp only [stepSection, hb]
  · intro n hn
    have hall : ∀ m ∈ regexp.FindAllStringSubmatch licenseKeyRegex sec, m.length = 3 := by
      intro m hm
      have := findAllLoop_length licenseKeyRegex sec 0 m hm
      rw [numSubexp_licenseKeyRegex] at this
      exact this
    obtain ⟨ks, hks, hslot⟩ := licenseKeyLoop_spec _ hall 0 ⟨[], [], [], []⟩
    have hr : (blockRecord sec).keySlot n = ks.slot n := by
      unfold blockRecord
      simp only [hks]
      interval_cases n <;> rfl
    have h0 : (⟨[], [], [], []⟩ : KeyVars).slot n = [] := by
      interval_cases n <;> rfl
    have hs := hslot n hn
    rw [if_neg (by omega), Nat.sub_zero, h0] at hs
    rw [hr, hs]
    cases hg : (regexp.FindAllStringSubmatch licenseKeyRegex sec).get? n with
    | none => rfl
    | some mtch =>
      have hlen : mtch.length = 3 := hall mtch (List.get?_mem hg)
      match mtch, hlen with
      | [whole, k, kid], _ =>
        refine ⟨whole, k, kid, rfl, ?_⟩
        simp only [formatPair, List.getD_cons_succ, List.getD_cons_zero]
        split_ifs <;> rfl

theorem processSection_key_slots_witness :
    ∃ r, processSection []
        (bytes ":-1 tvg-id=\"c\"\n\x7b\"k\":\"!!\",\"kid\":\"QQ\"\x7d\x7b\"k\":\"QUFB\",\"kid\":\"QkJC\"\x7d\nhttp://h/a.mpd")
          = .ok (mapSet [] (bytes "c") r) ∧
      ∀ n, n < 4 →
        match (regexp.FindAllStringSubmatch licenseKeyRegex
          (bytes ":-1 tvg-id=\"c\"\n\x7b\"k\":\"!!\",\"kid\":\"QQ\"\x7d\x7b\"k\":\"QUFB\",\"kid\":\"QkJC\"\x7d\nhttp://h/a.mpd")).get? n with
        | none => r.keySlot n = []
        | some mtch => ∃ whole k kid, mtch = [whole, k, kid] ∧
            r.keySlot n =
              if (base64ToHex (strings.TrimSpace kid)).2 = none ∧ (base64ToHex (strings.TrimSpace k)).2 = none
              then (base64ToHex (strings.TrimSpace kid)).1 ++ bytes ":" ++ (base64ToHex (strings.TrimSpace k)).1
              else [] :=
  processSection_key_slots []
    (bytes ":-1 tvg-id=\"c\"\n\x7b\"k\":\"!!\",\"kid\":\"QQ\"\x7d\x7b\"k\":\"QUFB\",\"kid\":\"QkJC\"\x7d\nhttp://h/a.mpd")
    (bytes "c") ⟨by decide, ⟨bytes "tvg-id=\"c\"", by decide⟩, by decide⟩

/-- The loop of the key pairs reads no match of index four or more. -/
theorem licenseKeyLoop_take (ms : List (List GoString)) :
    ∀ (i : Nat) (ks : KeyVars),
      licenseKeyLoop i ms ks = licenseKeyLoop i (ms.take (4 - i)) ks := by
  induction ms with
  | nil => intro i ks; simp
  | cons m rest ih =>
    intro i ks
    by_cases hi : i ≥ 4
    · have : 4 - i = 0 := by omega
      rw [this, List.take_zero, licenseKeyLoop, licenseKeyLoop, if_pos hi]
    · have : 4 - i = (4 - (i + 1)) + 1 := by omega
      rw [this, List.take_succ_cons, licenseKeyLoop, licenseKeyLoop]
      simp only [if_neg hi]
      rw [← ih (i + 1) ks]
      cases index m 1 with
      | error e => rfl
      | ok m1 =>
        cases index m 2 with
        | error e => rfl
        | ok m2 =>
          simp only
          rw [← ih (i + 1)]

/-- C7: at most four key pairs are retained.  The slots `key1..key4` of the
record of a qualifying block are the variables the loop of the key pairs leaves
when it is run on the first four key-pair matches of the block only: a match of
index four or more changes no slot, whether or not it decodes. -/
theorem processSection_first_four_pairs (streams : StreamMap) (sec id : GoString)
    (hq : Qualifying sec id) :
    ∃ ks r,
      licenseKeyLoop 0 ((regexp.FindAllStringSubmatch licenseKeyRegex sec).take 4) ⟨[], [], [], []⟩
        = .ok ks ∧
      processSection streams sec = .ok (mapSet streams id r) ∧
      r.Key1 = ks.key1 ∧ r.Key2 = ks.key2 ∧ r.Key3 = ks.key3 ∧ r.Key4 = ks.key4 := by
  have hb : blockID sec = some id := (blockID_eq_some_iff sec id).mpr hq
  have hall : ∀ m ∈ regexp.FindAllStringSubmatch licenseKeyRegex sec, m.length = 3 := by
    intro m hm
    have := findAllLoop_length licenseKeyRegex sec 0 m hm
    rw [numSubexp_licenseKeyRegex] at this
    exact this
  obtain ⟨ks, hks, _⟩ := licenseKeyLoop_spec _ hall 0 ⟨[], [], [], []⟩
  refine ⟨ks, blockRecord sec, ?_, ?_, ?_⟩
  · rw [← hks]
    exact (licenseKeyLoop_take _ 0 _).symm
  · rw [processSection_eq]
    simp only [stepSection, hb]
  · unfold blockRecord
    simp only [hks, and_self]

theorem processSection_first_four_pairs_witness :
    ∃ ks r,
      licenseKeyLoop 0 ((regexp.FindAllStringSubmatch licenseKeyRegex
        (bytes ":-1 tvg-id=\"c\"\n\x7b\"k\":\"QQ\",\"kid\":\"QQ\"\x7d\x7b\"k\":\"Qg\",\"kid\":\"Qg\"\x7d\x7b\"k\":\"Qw\",\"kid\":\"Qw\"\x7d\x7b\"k\":\"RA\",\"kid\":\"RA\"\x7d\x7b\"k\":\"RQ\",\"kid\":\"RQ\"\x7d\nhttp://h/a.mpd")).take 4)
          ⟨[], [], [], []⟩ = .ok ks ∧
      processSection []
        (bytes ":-1 tvg-id=\"c\"\n\x7b\"k\":\"QQ\",\"kid\":\"QQ\"\x7d\x7b\"k\":\"Qg\",\"kid\":\"Qg\"\x7d\x7b\"k\":\"Qw\",\"kid\":\"Qw\"\x7d\x7b\"k\":\"RA\",\"kid\":\"RA\"\x7d\x7b\"k\":\"RQ\",\"kid\":\"RQ\"\x7d\nhttp://h/a.mpd")
          = .ok (mapSet [] (bytes "c") r) ∧
      r.Key1 = ks.key1 ∧ r.Key2 = ks.key2 ∧ r.Key3 = ks.key3 ∧ r.Key4 = ks.key4 :=
  processSection_first_four_pairs []
    (bytes ":-1 tvg-id=\"c\"\n\x7b\"k\":\"QQ\",\"kid\":\"QQ\"\x7d\x7b\"k\":\"Qg\",\"kid\":\"Qg\"\x7d\x7b\"k\":\"Qw\",\"kid\":\"Qw\"\x7d\x7b\"k\":\"RA\",\"kid\":\"RA\"\x7d\x7b\"k\":\"RQ\",\"kid\":\"RQ\"\x7d\nhttp://h/a.mpd")
    (bytes "c") ⟨by decide, ⟨bytes "tvg-id=\"c\"", by decide⟩, by decide⟩

/-- C8: the worked scenario.  The document of one entry with `tvg-id="ch1"`, the
key fragment `{"k":"QUFBQQ","kid":"QkJCQg"}` and the URL
`https://example.com/a.mpd` gives exactly the one-entry map
`ch1 -> {url, key1 = "42424242:41414141", key2 = key3 = key4 = "", userAgent = the
default, authorization = proxy = "", shakaPackager = false, resolution = "1280"}`. -/
theorem parseM3UContent_worked_scenario :
    parseM3UContent (bytes
      "#EXTINF:-1 tvg-id=\"ch1\",Ch\n\x7b\"k\":\"QUFBQQ\",\"kid\":\"QkJCQg\"\x7d\nhttps://example.com/a.mpd\n")
      = .ok [(bytes "ch1",
          { URL := bytes "https://example.com/a.mpd"
            Key1 := bytes "42424242:41414141"
            Key2 := bytes ""
            Key3 := bytes ""
            Key4 := bytes ""
            UserAgent := bytes
              "Mozilla/5.0 (Linux; Android 10; BRAVIA 4K VH2 Build/QTG3.200305.006.S292; wv)"
            Authorization := bytes ""
            Proxy := bytes ""
            ShakaPackager := false
            Resolution := bytes "1280" })] := by
  rfl

/-- C9: the extractor never fails.  For every input, `parseM3UContent` returns a
map: no index expression of it panics, and no decode error of a key stops it. -/
theorem parseM3UContent_total (content : GoString) :
    ∃ m, parseM3UContent content = .ok m :=
  ⟨_, parseM3UContent_eq content⟩

/-- C10 (amended): the identifier of a block is the capture of the first
`tvg-id` match anywhere in the block: a non-empty block in which the pattern
matches and which holds a URL match is recorded under that capture, and a block
in which the pattern matches nowhere produces no record. -/
theorem processSection_identifier (streams : StreamMap) (sec : GoString) :
    (∀ whole id, sec ≠ [] → regexp.FindStringSubmatch tvgIDRegex sec = [whole, id] →
      regexp.FindString urlRegex sec ≠ [] →
        ∃ r, processSection streams sec = .ok (mapSet streams id r)) ∧
    (regexp.FindStringSubmatch tvgIDRegex sec = [] → processSection streams sec = .ok streams) := by
  constructor
  · intro whole id h1 h2 h3
    have hb : blockID sec = some id := (blockID_eq_some_iff sec id).mpr ⟨h1, ⟨whole, h2⟩, h3⟩
    refine ⟨blockRecord sec, ?_⟩
    rw [processSection_eq]
    simp only [stepSection, hb]
  · intro h
    rw [processSection_eq]
    simp only [stepSection, blockID_of_lacking sec (Or.inl h)]

theorem processSection_identifier_witness :
    (∃ r, processSection [] (bytes ":-1,Name\ntvg-id=\"x\"\nhttp://a/b.mpd")
      = .ok (mapSet [] (bytes "x") r)) ∧
    processSection [] (bytes ":-1,Name\nhttp://a/b.mpd") = .ok [] :=
  ⟨(processSection_identifier [] (bytes ":-1,Name\ntvg-id=\"x\"\nhttp://a/b.mpd")).1
      (bytes "tvg-id=\"x\"") (bytes "x") (by decide) (by decide) (by decide),
   (processSection_identifier [] (bytes ":-1,Name\nhttp://a/b.mpd")).2 (by decide)⟩

/-- C10 as stated fails: the first line of the block `":-1,Name"` carries no
`tvg-id` attribute, and yet the block is recorded, under the identifier `x` found
on its second line. -/
theorem identifier_found_after_first_line :
    strings.Split (bytes "#EXTINF:-1,Name\ntvg-id=\"x\"\nhttp://a/b.mpd") (bytes "#EXTINF")
      = [[], bytes ":-1,Name\ntvg-id=\"x\"\nhttp://a/b.mpd"] ∧
    firstLine (bytes ":-1,Name\ntvg-id=\"x\"\nhttp://a/b.mpd") = bytes ":-1,Name" ∧
    regexp.FindStringSubmatch tvgIDRegex (firstLine (bytes ":-1,Name\ntvg-id=\"x\"\nhttp://a/b.mpd")) = [] ∧
    parseM3UContent (bytes "#EXTINF:-1,Name\ntvg-id=\"x\"\nhttp://a/b.mpd")
      = .ok [(bytes "x",
          { URL := bytes "http://a/b.mpd"
            Key1 := bytes ""
            Key2 := bytes ""
            Key3 := bytes ""
            Key4 := bytes ""
            UserAgent := bytes
              "Mozilla/5.0 (Linux; Android 10; BRAVIA 4K VH2 Build/QTG3.200305.006.S292; wv)"
            Authorization := bytes ""
            Proxy := bytes ""
            ShakaPackager := false
            Resolution := bytes "1280" })] := by
  refine ⟨by decide, by decide, by decide, by rfl⟩

/-! ## The records of the returned map -/

/-- Every entry of the map after the loop was there before, or is the record of a
block of the loop, stored under the identifier of that block. -/
theorem mem_foldl_stepSection_record (secs : List GoString) :
    ∀ (m : StreamMap) (e : GoString × Stream), e ∈ secs.foldl stepSection m →
      e ∈ m ∨ ∃ sec ∈ secs, blockID sec = some e.1 ∧ e.2 = blockRecord sec := by
  induction secs with
  | nil => intro m e h; left; exact h
  | cons sec rest ih =>
    intro m e h
    rw [List.foldl_cons] at h
    rcases ih _ e h with h | ⟨s, hs, hb⟩
    · unfold stepSection at h
      cases hb : blockID sec with
      | none => rw [hb] at h; left; exact h
      | some id =>
        rw [hb] at h
        rcases mem_mapSet _ _ _ _ h with h | h
        · right; exact ⟨sec, List.mem_cons_self _ _, by rw [hb, h], by rw [h]⟩
        · left; exact h
    · right; exact ⟨s, List.mem_cons_of_mem _ hs, hb⟩

/-- Every entry of the returned map is the record of a qualifying fragment of the
document. -/
theorem parseM3UContent_entries (content : GoString) :
    ∃ m, parseM3UContent content = .ok m ∧
      ∀ id r, (id, r) ∈ m →
        ∃ sec ∈ strings.Split content (bytes "#EXTINF"),
          Qualifying sec id ∧ r = blockRecord sec := by
  refine ⟨_, parseM3UContent_eq content, ?_⟩
  intro id r h
  rcases mem_foldl_stepSection_record _ [] (id, r) h with h | ⟨sec, hs, hb, hr⟩
  · simp at h
  · exact ⟨sec, hs, (blockID_eq_some_iff sec id).mp hb, hr⟩

/-- C13: fixed defaults.  For every document, every record of the returned map has
`authorization = ""`, `proxy = ""`, `shakaPackager = false` and
`resolution = "1280"`. -/
theorem parseM3UContent_fixed_defaults (content : GoString) :
    ∃ m, parseM3UContent content = .ok m ∧
      ∀ id r, (id, r) ∈ m →
        r.Authorization = bytes "" ∧ r.Proxy = bytes "" ∧ r.ShakaPackager = false ∧
          r.Resolution = bytes "1280" := by
  obtain ⟨m, hm, h⟩ := parseM3UContent_entries content
  refine ⟨m, hm, ?_⟩
  intro id r hr
  obtain ⟨sec, _, _, rfl⟩ := h id r hr
  exact ⟨rfl, rfl, rfl, rfl⟩

/-! ## The output of the key codec -/

theorem quantumBytes_lt (dbuf : List Nat) (dlen : Nat) : ∀ b ∈ quantumBytes dbuf dlen, b < 256 := by
  intro b hb
  unfold quantumBytes at hb
  have hb2 := List.mem_of_mem_take hb
  simp only [List.mem_cons, List.mem_singleton, List.not_mem_nil, or_false] at hb2
  rcases hb2 with rfl | rfl | rfl <;> exact Nat.mod_lt _ (by decide)

/-- The decoder produces byte values. -/
theorem decodeLoop_lt (s : GoString) :
    ∀ (j : Nat) (dbuf out : List Nat), decodeLoop j dbuf s = .ok out → ∀ b ∈ out, b < 256 := by
  induction s with
  | nil =>
    intro j dbuf out h
    rw [decodeLoop] at h
    split_ifs at h
    cases h
    simp
  | cons c cs ih =>
    intro j dbuf out h
    rw [decodeLoop.eq_2 j dbuf c cs] at h
    by_cases hm : decodeMap c ≠ 0xff
    · rw [if_pos hm] at h
      by_cases h3 : j = 3
      · rw [if_pos h3] at h
        cases hd : decodeLoop 0 [] cs with
        | error e => rw [hd] at h; cases h
        | ok o =>
          rw [hd] at h
          cases h
          intro b hb
          rcases List.mem_append.mp hb with hb | hb
          · exact quantumBytes_lt _ _ b hb
          · exact ih 0 [] o hd b hb
      · rw [if_neg h3] at h
        exact ih _ _ out h
    · rw [if_neg hm] at h
      by_cases hn : c = 10 ∨ c = 13
      · rw [if_pos hn] at h
        exact ih _ _ out h
      · rw [if_neg hn] at h
        by_cases hp : c ≠ padChar
        · rw [if_pos hp] at h; cases h
        · rw [if_neg hp] at h
          by_cases h01 : j = 0 ∨ j = 1
          · rw [if_pos h01] at h; cases h
          · rw [if_neg h01] at h
            by_cases h2 : j = 2
            · rw [if_pos h2] at h
              cases hs : skipNewlines cs with
              | nil => rw [hs] at h; cases h
              | cons c2 cs2 =>
                rw [hs] at h
                simp only at h
                split_ifs at h
                cases h
                exact quantumBytes_lt _ _
            · rw [if_neg h2] at h
              split_ifs at h
              cases h
              exact quantumBytes_lt _ _

theorem hextable_isLowerHex (v : Nat) (h : v < 16) : isLowerHex (hextable v) = true := by
  revert v; decide

/-- The text of `hex.EncodeToString` has two lowercase hexadecimal digits for every
byte. -/
theorem hex_EncodeToString_spec (bs : List Nat) (h : ∀ b ∈ bs, b < 256) :
    (hex.EncodeToString bs).length = 2 * bs.length ∧
      ∀ c ∈ hex.EncodeToString bs, isLowerHex c = true := by
  induction bs with
  | nil => simp [hex.EncodeToString]
  | cons v vs ih =>
    have hv : v < 256 := h v (List.mem_cons_self _ _)
    obtain ⟨h1, h2⟩ := ih (fun b hb => h b (List.mem_cons_of_mem _ hb))
    have e1 : v >>> 4 < 16 := by
      rw [Nat.shiftRight_eq_div_pow]
      omega
    have e2 : v &&& 0x0f < 16 := Nat.and_lt_two_pow v (n := 4) (by decide)
    constructor
    · simp only [hex.EncodeToString, List.length_cons, h1]
      omega
    · intro c hc
      simp only [hex.EncodeToString, List.mem_cons] at hc
      rcases hc with rfl | rfl | hc
      · exact hextable_isLowerHex _ e1
      · exact hextable_isLowerHex _ e2
      · exact h2 c hc

/-- C14: whenever `base64ToHex` succeeds (its error is `nil`), the input decodes to
some bytes, and the result consists of the characters `0`-`9` and `a`-`f` only and
has even length, exactly twice the number of the decoded bytes. -/
theorem base64ToHex_result_hex (input : GoString) (h : (base64ToHex input).2 = none) :
    ∃ decoded, base64.DecodeString (padInput input) = .ok decoded ∧
      (base64ToHex input).1.length = 2 * decoded.length ∧
      (base64ToHex input).1.length % 2 = 0 ∧
      ∀ c ∈ (base64ToHex input).1, isLowerHex c = true := by
  unfold base64ToHex at h ⊢
  cases hd : base64.DecodeString (padInput input) with
  | error e => rw [hd] at h; cases h
  | ok decoded =>
    have hlt : ∀ b ∈ decoded, b < 256 := decodeLoop_lt _ 0 [] decoded hd
    obtain ⟨h1, h2⟩ := hex_EncodeToString_spec decoded hlt
    refine ⟨decoded, rfl, h1, ?_, h2⟩
    simp only []
    omega

theorem base64ToHex_result_hex_witness :
    ∃ decoded, base64.DecodeString (padInput (bytes "QkJCQg")) = .ok decoded ∧
      (base64ToHex (bytes "QkJCQg")).1.length = 2 * decoded.length ∧
      (base64ToHex (bytes "QkJCQg")).1.length % 2 = 0 ∧
      ∀ c ∈ (base64ToHex (bytes "QkJCQg")).1, isLowerHex c = true :=
  base64ToHex_result_hex (bytes "QkJCQg") (by decide)

/-! ## Inputs that cannot be padded -/

theorem stripPadding_append_replicate (s : GoString) (k : Nat) :
    stripPadding (s ++ List.replicate k padChar) = stripPadding s := by
  unfold stripPadding
  rw [List.reverse_append, List.reverse_replicate]
  congr 1
  induction k with
  | zero => rfl
  | succ n ih => simp [List.replicate_succ, List.dropWhile_cons, ih]

theorem stripPadding_length_le (s : GoString) : (stripPadding s).length ≤ s.length := by
  unfold stripPadding
  rw [List.length_reverse]
  have h := (List.dropWhile_suffix (fun c => c == padChar) (l := s.reverse)).length_le
  rw [List.length_reverse] at h
  exact h

/-- A text that ends in three `'='` is not standard base64 text. -/
theorem isStdText_three_pads (s : GoString) :
    isStdText (s ++ List.replicate 3 padChar) = false := by
  unfold isStdText
  rw [stripPadding_append_replicate]
  have h := stripPadding_length_le s
  have h2 : ¬ (s ++ List.replicate 3 padChar).length - (stripPadding s).length ≤ 2 := by
    simp only [List.length_append, List.length_replicate]
    omega
  simp only [h2, decide_False, Bool.and_false, Bool.false_and]

theorem padInput_of_one_mod_four (input : GoString) (h : input.length % 4 = 1) :
    padInput input = input ++ List.replicate 3 padChar := by
  unfold padInput
  simp only [h]
  rfl

/-- C17: unpaddable lengths are always rejected.  For every input string whose
length is congruent to 1 modulo 4, `base64ToHex` returns an error (and the empty
string). -/
theorem base64ToHex_one_mod_four (input : GoString) (h : input.length % 4 = 1) :
    base64ToHex input = ([], some CorruptInputError.corrupt) := by
  unfold base64ToHex
  cases hd : base64.DecodeString (padInput input) with
  | error e => cases e; rfl
  | ok out =>
    have hs := decodeString_ok_isStdText _ out hd
    rw [padInput_of_one_mod_four input h] at hs
    have e : stripNewlines (input ++ List.replicate 3 padChar)
        = stripNewlines input ++ List.replicate 3 padChar := by
      unfold stripNewlines
      rw [List.filter_append]
      rfl
    rw [e, isStdText_three_pads] at hs
    cases hs

theorem base64ToHex_one_mod_four_witness :
    (bytes "QUFBQ").length % 4 = 1 ∧
    base64ToHex (bytes "QUFBQ") = ([], some CorruptInputError.corrupt) :=
  ⟨by decide, base64ToHex_one_mod_four (bytes "QUFBQ") (by decide)⟩

/-! ## What a match says about the text -/

/-- Literal items of a pattern match exactly their bytes. -/
theorem matchAtoms_lits (cs : List Nat) (rest : Regexp) :
    ∀ (pos : Nat) (opens : List Nat) (caps : List (Nat × Nat)) (t : GoString)
      (r : Nat × List (Nat × Nat)),
      matchAtoms (cs.map Atom.lit ++ rest) pos opens caps t = some r →
        ∃ t2, t = cs ++ t2 ∧ matchAtoms rest (pos + cs.length) opens caps t2 = some r := by
  induction cs with
  | nil => intro pos opens caps t r h; exact ⟨t, rfl, by simpa using h⟩
  | cons c cs ih =>
    intro pos opens caps t r h
    simp only [List.map_cons, List.cons_append] at h
    cases t with
    | nil => simp [matchAtoms] at h
    | cons x xs =>
      simp only [matchAtoms] at h
      by_cases hx : x = c
      · rw [if_pos hx] at h
        obtain ⟨t2, e1, e2⟩ := ih _ _ _ _ _ h
        refine ⟨t2, by rw [hx, e1]; rfl, ?_⟩
        rw [List.length_cons, ← e2]
        congr 1
        omega
      · rw [if_neg hx] at h; cases h

/-- Literal items of a pattern match at their bytes. -/
theorem matchAtoms_lits_append (cs : List Nat) (rest : Regexp) :
    ∀ (pos : Nat) (opens : List Nat) (caps : List (Nat × Nat)) (t : GoString),
      matchAtoms (cs.map Atom.lit ++ rest) pos opens caps (cs ++ t)
        = matchAtoms rest (pos + cs.length) opens caps t := by
  induction cs with
  | nil => intro pos opens caps t; rfl
  | cons c cs ih =>
    intro pos opens caps t
    simp only [List.map_cons, List.cons_append, matchAtoms, if_true, List.length_cons]
    rw [show pos + (cs.length + 1) = pos + 1 + cs.length from by omega]
    exact ih (pos + 1) opens caps t

/-- A greedy repetition that fails has failed behind every run of the class. -/
theorem starLoop_none {α : Type} (p : Nat → Bool) (k : Nat → GoString → Option α)
    (xs rest : GoString) (pos : Nat) (h : starLoop p k pos (xs ++ rest) = none)
    (hp : ∀ c ∈ xs, p c = true) : k (pos + xs.length) rest = none := by
  cases hk : k (pos + xs.length) rest with
  | none => rfl
  | some r =>
    have := starLoop_isSome p k rest xs pos hp (by rw [hk]; rfl)
    rw [h] at this
    cases this

/-- A greedy repetition takes the longest run of the class behind which the rest
of the pattern matches. -/
theorem starLoop_spec {α : Type} (p : Nat → Bool) (k : Nat → GoString → Option α) (r : α) :
    ∀ (s : GoString) (pos : Nat), starLoop p k pos s = some r →
      ∃ xs rest, s = xs ++ rest ∧ (∀ c ∈ xs, p c = true) ∧
        k (pos + xs.length) rest = some r ∧
        ∀ xs2 rest2, s = xs2 ++ rest2 → (∀ c ∈ xs2, p c = true) →
          xs.length < xs2.length → k (pos + xs2.length) rest2 = none := by
  intro s
  induction s with
  | nil =>
    intro pos h
    refine ⟨[], [], rfl, by simp, by simpa [starLoop] using h, ?_⟩
    intro xs2 rest2 e _ hl
    have : xs2 = [] := (List.append_eq_nil.mp e.symm).1
    rw [this] at hl
    simp at hl
  | cons c cs ih =>
    intro pos h
    rw [starLoop] at h
    have stay : k pos (c :: cs) = some r →
        (p c = true → starLoop p k (pos + 1) cs = none) →
        ∃ xs rest, c :: cs = xs ++ rest ∧ (∀ c ∈ xs, p c = true) ∧
          k (pos + xs.length) rest = some r ∧
          ∀ xs2 rest2, c :: cs = xs2 ++ rest2 → (∀ c ∈ xs2, p c = true) →
            xs.length < xs2.length → k (pos + xs2.length) rest2 = none := by
      intro hk hnone
      refine ⟨[], c :: cs, rfl, by simp, by simpa using hk, ?_⟩
      intro xs2 rest2 e hp2 hl
      cases xs2 with
      | nil => simp at hl
      | cons y ys =>
        simp only [List.cons_append, List.cons.injEq] at e
        have hy : p y = true := hp2 y (List.mem_cons_self _ _)
        rw [← e.1] at hy
        have hn := hnone hy
        rw [e.2] at hn
        have := starLoop_none p k ys rest2 (pos + 1) hn
          (fun c hc => hp2 c (List.mem_cons_of_mem _ hc))
        rw [List.length_cons, ← this]
        congr 1
        omega
    by_cases hp : p c = true
    · rw [if_pos hp] at h
      cases hr : starLoop p k (pos + 1) cs with
      | some r2 =>
        rw [hr] at h
        simp only [Option.some.injEq] at h
        rw [h] at hr
        obtain ⟨xs, rest, e1, e2, e3, e4⟩ := ih (pos + 1) hr
        refine ⟨c :: xs, rest, by rw [e1]; rfl, ?_, ?_, ?_⟩
        · intro x hx
          rcases List.mem_cons.mp hx with rfl | hx
          · exact hp
          · exact e2 x hx
        · rw [List.length_cons, ← e3]
          congr 1
          omega
        · intro xs2 rest2 e hp2 hl
          cases xs2 with
          | nil => simp at hl
          | cons y ys =>
            simp only [List.cons_append, List.cons.injEq] at e
            have := e4 ys rest2 e.2 (fun c hc => hp2 c (List.mem_cons_of_mem _ hc))
              (by simp only [List.length_cons] at hl; omega)
            rw [List.length_cons, ← this]
            congr 1
            omega
      | none =>
        rw [hr] at h
        exact stay h (fun _ => hr)
    · rw [if_neg hp] at h
      exact stay h (fun hc => absurd hc hp)

/-- A repetition `[class]+` takes a first byte of the class and then the longest
run of the class behind which the rest of the pattern matches. -/
theorem matchAtoms_plus (p : Nat → Bool) (as : Regexp) (pos : Nat) (opens : List Nat)
    (caps : List (Nat × Nat)) (t : GoString) (r : Nat × List (Nat × Nat))
    (h : matchAtoms (.plus p :: as) pos opens caps t = some r) :
    ∃ x ys rest, t = x :: (ys ++ rest) ∧ p x = true ∧ (∀ c ∈ ys, p c = true) ∧
      matchAtoms as (pos + 1 + ys.length) opens caps rest = some r ∧
      ∀ ys2 rest2, ys ++ rest = ys2 ++ rest2 → (∀ c ∈ ys2, p c = true) →
        ys.length < ys2.length →
          matchAtoms as (pos + 1 + ys2.length) opens caps rest2 = none := by
  cases t with
  | nil => simp [matchAtoms] at h
  | cons x xs =>
    simp only [matchAtoms] at h
    by_cases hx : p x = true
    · rw [if_pos hx] at h
      obtain ⟨ys, rest, e1, e2, e3, e4⟩ := starLoop_spec p _ r xs (pos + 1) h
      exact ⟨x, ys, rest, by rw [e1], hx, e2, e3, fun ys2 rest2 e hp hl =>
        e4 ys2 rest2 (by rw [e1, e]) hp hl⟩
    · rw [if_neg hx] at h; cases h

/-- The leftmost match: `FindStringSubmatch` returns the strings of a match at the
first position of the text at which the pattern matches. -/
theorem FindStringSubmatch_spec (re : Regexp) (s : GoString)
    (h : regexp.FindStringSubmatch re s ≠ []) :
    ∃ pre t e caps, s = pre ++ t ∧ matchAtoms re 0 [] [] t = some (e, caps) ∧
      regexp.FindStringSubmatch re s = submatches t e caps ∧
      ∀ pre2 t2, s = pre2 ++ t2 → pre2.length < pre.length →
        matchAtoms re 0 [] [] t2 = none := by
  induction s with
  | nil =>
    rw [regexp.FindStringSubmatch] at h ⊢
    cases hm : matchAtoms re 0 [] [] [] with
    | none => rw [hm] at h; exact absurd rfl h
    | some r =>
      obtain ⟨e, caps⟩ := r
      refine ⟨[], [], e, caps, rfl, hm, rfl, ?_⟩
      intro pre2 t2 _ hl
      simp at hl
  | cons c cs ih =>
    rw [regexp.FindStringSubmatch] at h ⊢
    cases hm : matchAtoms re 0 [] [] (c :: cs) with
    | none =>
      rw [hm] at h
      simp only at h ⊢
      obtain ⟨pre, t, e, caps, e1, e2, e3, e4⟩ := ih h
      refine ⟨c :: pre, t, e, caps, by rw [e1]; rfl, e2, e3, ?_⟩
      intro pre2 t2 e5 hl
      cases pre2 with
      | nil =>
        simp only [List.nil_append] at e5
        rw [← e5]; exact hm
      | cons y ys =>
        simp only [List.cons_append, List.cons.injEq] at e5
        exact e4 ys t2 e5.2 (by simp only [List.length_cons] at hl; omega)
    | some r =>
      obtain ⟨e, caps⟩ := r
      refine ⟨[], c :: cs, e, caps, rfl, hm, rfl, ?_⟩
      intro pre2 t2 _ hl
      simp at hl

/-- An optional byte of a pattern is taken or passed over. -/
theorem matchAtoms_opt (c : Nat) (as : Regexp) (pos : Nat) (opens : List Nat)
    (caps : List (Nat × Nat)) (t : GoString) (r : Nat × List (Nat × Nat))
    (h : matchAtoms (.opt c :: as) pos opens caps t = some r) :
    (∃ xs, t = c :: xs ∧ matchAtoms as (pos + 1) opens caps xs = some r) ∨
      matchAtoms as pos opens caps t = some r := by
  cases t with
  | nil => right; simpa [matchAtoms] using h
  | cons x xs =>
    simp only [matchAtoms] at h
    by_cases hx : x = c
    · rw [if_pos hx] at h
      cases hr : matchAtoms as (pos + 1) opens caps xs with
      | some r2 =>
        rw [hr] at h
        simp only [Option.some.injEq] at h
        left
        exact ⟨xs, by rw [hx], by rw [hr, h]⟩
      | none =>
        rw [hr] at h
        right; exact h
    · rw [if_neg hx] at h
      right; exact h

theorem urlRegex_eq : urlRegex = .groupOpen :: ((bytes "http").map Atom.lit ++
    (.opt 115 :: ((bytes "://").map Atom.lit ++ (.plus notReSpace ::
      ((bytes ".mpd").map Atom.lit ++ [.groupClose]))))) := by
  simp only [urlRegex, lits, List.append_assoc, List.singleton_append, List.cons_append,
    List.nil_append]

/-- The rest of the URL pattern behind `[^\s]+` matches exactly at `.mpd`. -/
theorem matchAtoms_mpd (pos : Nat) (tail : GoString) :
    matchAtoms ((bytes ".mpd").map Atom.lit ++ [.groupClose]) pos [0] [] (bytes ".mpd" ++ tail)
      = some (pos + 4, [(0, pos + 4)]) := by
  rw [matchAtoms_lits_append]
  simp only [matchAtoms, List.nil_append]
  rfl

/-- The text of a match of the URL pattern: `http://` or `https://`, a non-empty
body free of the bytes of `\s`, and `.mpd`; the body is the longest one behind
which `.mpd` follows. -/
theorem urlRegex_sound (t : GoString) (e : Nat) (caps : List (Nat × Nat))
    (h : matchAtoms urlRegex 0 [] [] t = some (e, caps)) :
    ∃ scheme body tail, (scheme = bytes "http://" ∨ scheme = bytes "https://") ∧
      body ≠ [] ∧ (∀ c ∈ body, notReSpace c = true) ∧
      t = scheme ++ body ++ bytes ".mpd" ++ tail ∧
      e = (scheme ++ body ++ bytes ".mpd").length ∧
      ∀ body2 tail2, body ++ bytes ".mpd" ++ tail = body2 ++ bytes ".mpd" ++ tail2 →
        (∀ c ∈ body2, notReSpace c = true) → body2.length ≤ body.length := by
  have l1 : (bytes "http").length = 4 := by decide
  have l2 : (bytes "://").length = 3 := by decide
  have l3 : (bytes ".mpd").length = 4 := by decide
  have l4 : (bytes "http://").length = 7 := by decide
  have l5 : (bytes "https://").length = 8 := by decide
  have s1 : bytes "http" ++ bytes "://" = bytes "http://" := by decide
  have s2 : bytes "http" ++ 115 :: bytes "://" = bytes "https://" := by decide
  rw [urlRegex_eq, matchAtoms] at h
  obtain ⟨t1, rfl, h1⟩ := matchAtoms_lits _ _ _ _ _ _ _ h
  -- what follows the scheme, once the scheme is read up to offset `pos`
  have body_part : ∀ (pos : Nat) (t2 : GoString),
      matchAtoms (.plus notReSpace :: ((bytes ".mpd").map Atom.lit ++ [.groupClose]))
        pos [0] [] t2 = some (e, caps) →
      ∃ body tail, body ≠ [] ∧ (∀ c ∈ body, notReSpace c = true) ∧
        t2 = body ++ bytes ".mpd" ++ tail ∧ e = pos + body.length + 4 ∧
        ∀ body2 tail2, body ++ bytes ".mpd" ++ tail = body2 ++ bytes ".mpd" ++ tail2 →
          (∀ c ∈ body2, notReSpace c = true) → body2.length ≤ body.length := by
    intro pos t2 h2
    obtain ⟨x, ys, rest, rfl, hx, hys, h3, hmax⟩ := matchAtoms_plus _ _ _ _ _ _ _ h2
    obtain ⟨tail, rfl, h4⟩ := matchAtoms_lits _ _ _ _ _ _ _ h3
    simp only [matchAtoms, List.nil_append, Option.some.injEq, Prod.mk.injEq] at h4
    refine ⟨x :: ys, tail, List.cons_ne_nil _ _, ?_, by simp, ?_, ?_⟩
    · intro c hc
      rcases List.mem_cons.mp hc with rfl | hc
      · exact hx
      · exact hys c hc
    · rw [← h4.1, l3, List.length_cons]; omega
    · intro body2 tail2 e5 hb2
      by_contra hlt
      have hlt2 : (x :: ys).length < body2.length := by omega
      cases body2 with
      | nil => simp at hlt2
      | cons y ys2 =>
        simp only [List.cons_append, List.cons.injEq, List.append_assoc] at e5
        have := hmax ys2 (bytes ".mpd" ++ tail2) e5.2
          (fun c hc => hb2 c (List.mem_cons_of_mem _ hc))
          (by simp only [List.length_cons] at hlt2; omega)
        rw [matchAtoms_mpd] at this
        cases this
  rcases matchAtoms_opt _ _ _ _ _ _ _ h1 with ⟨xs, rfl, h2⟩ | h2
  · obtain ⟨t2, rfl, h3⟩ := matchAtoms_lits _ _ _ _ _ _ _ h2
    obtain ⟨body, tail, b1, b2, b3, b4, b5⟩ := body_part _ _ h3
    refine ⟨bytes "https://", body, tail, Or.inr rfl, b1, b2, ?_, ?_, b5⟩
    · rw [b3, ← s2]; simp
    · rw [b4, l1, l2]
      simp only [List.length_append, l5, l3]
  · obtain ⟨t2, rfl, h3⟩ := matchAtoms_lits _ _ _ _ _ _ _ h2
    obtain ⟨body, tail, b1, b2, b3, b4, b5⟩ := body_part _ _ h3
    refine ⟨bytes "http://", body, tail, Or.inl rfl, b1, b2, ?_, ?_, b5⟩
    · rw [b3, ← s1]; simp
    · rw [b4, l1, l2]
      simp only [List.length_append, l4, l3]

/-! ## The URL of a record -/

theorem notReSpace_scheme_mpd :
    (∀ c ∈ bytes "http://", notReSpace c = true) ∧
    (∀ c ∈ bytes "https://", notReSpace c = true) ∧
    (∀ c ∈ bytes ".mpd", notReSpace c = true) := by decide

/-- The URL that `FindString` returns for the URL pattern, when it returns one:
where it lies in the text, what it is made of, where the run of bytes outside `\s`
that holds it ends, and that no match starts further left. -/
theorem FindString_urlRegex_spec (sec : GoString)
    (h : regexp.FindString urlRegex sec ≠ []) :
    ∃ pre scheme body tail post,
      sec = pre ++ regexp.FindString urlRegex sec ++ tail ++ post ∧
      regexp.FindString urlRegex sec = scheme ++ body ++ bytes ".mpd" ∧
      (scheme = bytes "http://" ∨ scheme = bytes "https://") ∧
      body ≠ [] ∧ (∀ c ∈ body, notReSpace c = true) ∧
      (∀ c ∈ tail, notReSpace c = true) ∧
      (post = [] ∨ ∃ w rest, post = w :: rest ∧ isReSpace w = true) ∧
      ¬ bytes ".mpd" <:+: tail ∧
      ∀ pre2 scheme2 body2 post2, sec = pre2 ++ (scheme2 ++ body2 ++ bytes ".mpd") ++ post2 →
        (scheme2 = bytes "http://" ∨ scheme2 = bytes "https://") → body2 ≠ [] →
        (∀ c ∈ body2, notReSpace c = true) → pre.length ≤ pre2.length := by
  have hsub : regexp.FindStringSubmatch urlRegex sec ≠ [] := by
    intro hnil
    apply h
    unfold regexp.FindString
    rw [hnil]
  obtain ⟨pre, t, e, caps, e1, e2, e3, e4⟩ := FindStringSubmatch_spec urlRegex sec hsub
  obtain ⟨scheme, body, tail0, u1, u2, u3, u4, u5, u6⟩ := urlRegex_sound t e caps e2
  have hurl : regexp.FindString urlRegex sec = scheme ++ body ++ bytes ".mpd" := by
    unfold regexp.FindString
    rw [e3]
    simp only [submatches]
    rw [u4, u5, List.take_left]
  have hsplit := List.takeWhile_append_dropWhile notReSpace tail0
  refine ⟨pre, scheme, body, tail0.takeWhile notReSpace, tail0.dropWhile notReSpace,
    ?_, hurl, u1, u2, u3, ?_, ?_, ?_, ?_⟩
  · rw [hurl, e1, u4]
    simp only [List.append_assoc, hsplit]
  · intro c hc
    exact List.mem_takeWhile_imp hc
  · cases hd : tail0.dropWhile notReSpace with
    | nil => left; rfl
    | cons w rest =>
      right
      refine ⟨w, rest, rfl, ?_⟩
      have := List.head_dropWhile_not notReSpace tail0 (by rw [hd]; simp)
      simp only [hd, List.head_cons] at this
      simpa [notReSpace] using this
  · rintro ⟨a, b, hab⟩
    have hmem : ∀ c ∈ a ++ bytes ".mpd" ++ b, notReSpace c = true := by
      rw [hab]
      intro c hc
      exact List.mem_takeWhile_imp hc
    have := u6 (body ++ bytes ".mpd" ++ a) (b ++ tail0.dropWhile notReSpace)
      (by
        have ht : tail0 = a ++ bytes ".mpd" ++ b ++ tail0.dropWhile notReSpace := by
          rw [hab]; exact hsplit.symm
        conv_lhs => rw [ht]
        simp only [List.append_assoc])
      (by
        intro c hc
        simp only [List.mem_append] at hc
        rcases hc with (hc | hc) | hc
        · exact u3 c hc
        · exact notReSpace_scheme_mpd.2.2 c hc
        · exact hmem c (by simp [hc]))
    have l3 : (bytes ".mpd").length = 4 := by decide
    simp only [List.length_append, l3] at this
    omega
  · intro pre2 scheme2 body2 post2 es hs2 hb2 hn2
    by_contra hlt
    have hm := e4 pre2 (scheme2 ++ body2 ++ bytes ".mpd" ++ post2)
      (by rw [es]; simp only [List.append_assoc]) (by omega)
    have := urlRegex_matches scheme2 body2 post2 hs2 hb2 hn2
    rw [hm] at this
    cases this

/-- C11 (amended): for every record of the returned map, the `url` field is a
contiguous part of the block the record came from, starts with `http://` or
`https://`, ends with `.mpd`, holds no byte of the class `\s` of the pattern (space,
`\t`, `\n`, `\f`, `\r`), and begins at the leftmost position of the block at which
such a URL occurs: `http://` or `https://`, at least one byte, none of them of the
class `\s`, and `.mpd`. -/
theorem parseM3UContent_url (content : GoString) :
    ∃ m, parseM3UContent content = .ok m ∧
      ∀ id r, (id, r) ∈ m →
        ∃ sec ∈ strings.Split content (bytes "#EXTINF"), Qualifying sec id ∧
          ∃ pre post scheme body,
            sec = pre ++ r.URL ++ post ∧
            r.URL = scheme ++ body ++ bytes ".mpd" ∧
            (scheme = bytes "http://" ∨ scheme = bytes "https://") ∧
            body ≠ [] ∧
            (∀ c ∈ r.URL, isReSpace c = false) ∧
            ∀ pre2 scheme2 body2 post2,
              sec = pre2 ++ (scheme2 ++ body2 ++ bytes ".mpd") ++ post2 →
              (scheme2 = bytes "http://" ∨ scheme2 = bytes "https://") → body2 ≠ [] →
              (∀ c ∈ body2, isReSpace c = false) → pre.length ≤ pre2.length := by
  obtain ⟨m, hm, h⟩ := parseM3UContent_entries content
  refine ⟨m, hm, ?_⟩
  intro id r hr
  obtain ⟨sec, hsec, hq, rfl⟩ := h id r hr
  refine ⟨sec, hsec, hq, ?_⟩
  obtain ⟨pre, scheme, body, tail, post, f1, f2, f3, f4, f5, _, _, _, f9⟩ :=
    FindString_urlRegex_spec sec hq.2.2
  have hURL : (blockRecord sec).URL = regexp.FindString urlRegex sec := rfl
  refine ⟨pre, tail ++ post, scheme, body, ?_, ?_, f3, f4, ?_, ?_⟩
  · rw [hURL]
    rw [List.append_assoc] at f1
    exact f1
  · rw [hURL]; exact f2
  · rw [hURL, f2]
    intro c hc
    have : notReSpace c = true := by
      simp only [List.mem_append] at hc
      rcases hc with (hc | hc) | hc
      · rcases f3 with rfl | rfl
        · exact notReSpace_scheme_mpd.1 c hc
        · exact notReSpace_scheme_mpd.2.1 c hc
      · exact f5 c hc
      · exact notReSpace_scheme_mpd.2.2 c hc
    simpa [notReSpace] using this
  · intro pre2 scheme2 body2 post2 es hs2 hb2 hn2
    exact f9 pre2 scheme2 body2 post2 es hs2 hb2
      (fun c hc => by simp [notReSpace, hn2 c hc])

/-- C11 as stated fails: the `url` of a record can hold a white space character.  The
class `[^\s]` of the pattern lets the vertical tab `\v` (byte 11) through, which is
white space for `unicode.IsSpace` and for `strings.TrimSpace`: the block below is
recorded with the `url` `"http://h/a\vb.mpd"`. -/
theorem url_holds_vertical_tab :
    ∃ r, parseM3UContent (bytes "#EXTINF:-1 tvg-id=\"a\"\nhttp://h/a\x0bb.mpd\n")
        = .ok [(bytes "a", r)] ∧
      r.URL = bytes "http://h/a\x0bb.mpd" ∧
      11 ∈ r.URL ∧ unicode.IsSpace 11 = true ∧ asciiSpace 11 = true ∧
      isReSpace 11 = false :=
  ⟨_, rfl, by decide, by decide, by decide, by decide, by decide⟩

/-- C20 (amended): greedy URL extent.  For every qualifying block, the recorded `url`
begins at the leftmost `http://` or `https://` of the block that is followed, within
the same run of bytes outside the class `\s` of the pattern (space, `\t`, `\n`,
`\f`, `\r`), by at least one byte and then `.mpd`; it ends with the last `.mpd` of
that run (`.mpd` does not occur in the rest `tail` of the run), and the rest of the
run is not part of the `url`. -/
theorem processSection_url_extent (streams : StreamMap) (sec id : GoString)
    (hq : Qualifying sec id) :
    ∃ r, processSection streams sec = .ok (mapSet streams id r) ∧
      ∃ pre scheme body tail post,
        sec = pre ++ r.URL ++ tail ++ post ∧
        r.URL = scheme ++ body ++ bytes ".mpd" ∧
        (scheme = bytes "http://" ∨ scheme = bytes "https://") ∧
        body ≠ [] ∧ (∀ c ∈ body, isReSpace c = false) ∧
        (∀ c ∈ tail, isReSpace c = false) ∧
        (post = [] ∨ ∃ w rest, post = w :: rest ∧ isReSpace w = true) ∧
        ¬ bytes ".mpd" <:+: tail ∧
        ∀ pre2 scheme2 body2 post2,
          sec = pre2 ++ (scheme2 ++ body2 ++ bytes ".mpd") ++ post2 →
          (scheme2 = bytes "http://" ∨ scheme2 = bytes "https://") → body2 ≠ [] →
          (∀ c ∈ body2, isReSpace c = false) → pre.length ≤ pre2.length := by
  have hb : blockID sec = some id := (blockID_eq_some_iff sec id).mpr hq
  refine ⟨blockRecord sec, ?_, ?_⟩
  · rw [processSection_eq]
    simp only [stepSection, hb]
  · obtain ⟨pre, scheme, body, tail, post, f1, f2, f3, f4, f5, f6, f7, f8, f9⟩ :=
      FindString_urlRegex_spec sec hq.2.2
    have hURL : (blockRecord sec).URL = regexp.FindString urlRegex sec := rfl
    refine ⟨pre, scheme, body, tail, post, by rw [hURL]; exact f1, by rw [hURL]; exact f2,
      f3, f4, ?_, ?_, f7, f8, ?_⟩
    · intro c hc
      simpa [notReSpace] using f5 c hc
    · intro c hc
      simpa [notReSpace] using f6 c hc
    · intro pre2 scheme2 body2 post2 es hs2 hb2 hn2
      exact f9 pre2 scheme2 body2 post2 es hs2 hb2
        (fun c hc => by simp [notReSpace, hn2 c hc])

theorem processSection_url_extent_witness :
    (∃ r, processSection [] (bytes ":-1 tvg-id=\"c\"\nhttps://h/a.mpd?t=1\n")
        = .ok (mapSet [] (bytes "c") r) ∧
      ∃ pre scheme body tail post,
        bytes ":-1 tvg-id=\"c\"\nhttps://h/a.mpd?t=1\n" = pre ++ r.URL ++ tail ++ post ∧
        r.URL = scheme ++ body ++ bytes ".mpd" ∧
        (scheme = bytes "http://" ∨ scheme = bytes "https://") ∧
        body ≠ [] ∧ (∀ c ∈ body, isReSpace c = false) ∧
        (∀ c ∈ tail, isReSpace c = false) ∧
        (post = [] ∨ ∃ w rest, post = w :: rest ∧ isReSpace w = true) ∧
        ¬ bytes ".mpd" <:+: tail ∧
        ∀ pre2 scheme2 body2 post2,
          bytes ":-1 tvg-id=\"c\"\nhttps://h/a.mpd?t=1\n"
            = pre2 ++ (scheme2 ++ body2 ++ bytes ".mpd") ++ post2 →
          (scheme2 = bytes "http://" ∨ scheme2 = bytes "https://") → body2 ≠ [] →
          (∀ c ∈ body2, isReSpace c = false) → pre.length ≤ pre2.length) ∧
    regexp.FindString urlRegex (bytes ":-1 tvg-id=\"c\"\nhttps://h/a.mpd?t=1\n")
      = bytes "https://h/a.mpd" :=
  ⟨processSection_url_extent [] (bytes ":-1 tvg-id=\"c\"\nhttps://h/a.mpd?t=1\n") (bytes "c")
      ⟨by decide, ⟨bytes "tvg-id=\"c\"", by decide⟩, by decide⟩,
    by decide⟩

/-- C20 as stated fails: the recorded `url` need not lie in one run free of white
space.  In the qualifying block below, the run free of white space that holds the only
`https://` is `https://h/a`: it ends at a vertical tab `\v` (byte 11, white space
for `unicode.IsSpace`) and holds no `.mpd`, and the other run, `b.mpd?t=1`, holds no
`http`.  The recorded `url` is `"https://h/a\vb.mpd"`, across the vertical tab. -/
theorem url_extent_across_vertical_tab :
    Qualifying (bytes ":-1 tvg-id=\"c\"\nhttps://h/a\x0bb.mpd?t=1\n") (bytes "c") ∧
    (∃ r, processSection [] (bytes ":-1 tvg-id=\"c\"\nhttps://h/a\x0bb.mpd?t=1\n")
        = .ok [(bytes "c", r)] ∧
      r.URL = bytes "https://h/a\x0bb.mpd") ∧
    bytes ":-1 tvg-id=\"c\"\nhttps://h/a\x0bb.mpd?t=1\n"
      = bytes ":-1 tvg-id=\"c\"" ++ [10] ++ bytes "https://h/a" ++ [11]
          ++ bytes "b.mpd?t=1" ++ [10] ∧
    unicode.IsSpace 10 = true ∧ unicode.IsSpace 11 = true ∧
    (∀ c ∈ bytes "https://h/a", unicode.IsSpace c = false) ∧
    (∀ c ∈ bytes "b.mpd?t=1", unicode.IsSpace c = false) ∧
    ¬ bytes ".mpd" <:+: bytes "https://h/a" ∧
    ¬ bytes "http" <:+: bytes "b.mpd?t=1" ∧
    ¬ bytes "http" <:+: bytes ":-1 tvg-id=\"c\"" :=
  ⟨⟨by decide, ⟨bytes "tvg-id=\"c\"", by decide⟩, by decide⟩, ⟨_, rfl, by decide⟩,
    by decide, by decide, by decide, by decide, by decide, by decide, by decide, by decide⟩

/-! ## The user agent of a record -/

theorem userAgentRegex_eq : userAgentRegex =
    (bytes "#EXTVLCOPT:http-user-agent=\"").map Atom.lit ++
      (.groupOpen :: .plus notQuote :: .groupClose :: ((bytes "\"").map Atom.lit ++ [])) := by
  simp only [userAgentRegex, lits, List.append_assoc, List.cons_append, List.nil_append,
    List.append_nil]

/-- The strings of a match of the user agent pattern: the option with its value,
and the value, which is not empty and holds no quote. -/
theorem userAgentRegex_sound (t : GoString) (e : Nat) (caps : List (Nat × Nat))
    (h : matchAtoms userAgentRegex 0 [] [] t = some (e, caps)) :
    ∃ ua, ua ≠ [] ∧ (∀ c ∈ ua, c ≠ 34) ∧
      submatches t e caps
        = [bytes "#EXTVLCOPT:http-user-agent=\"" ++ ua ++ bytes "\"", ua] := by
  rw [userAgentRegex_eq] at h
  obtain ⟨t2, rfl, h2⟩ := matchAtoms_lits _ _ _ _ _ _ _ h
  rw [matchAtoms] at h2
  obtain ⟨x, ys, rest, rfl, hx, hys, h3, _⟩ := matchAtoms_plus _ _ _ _ _ _ _ h2
  rw [matchAtoms] at h3
  obtain ⟨t3, rfl, h4⟩ := matchAtoms_lits _ _ _ _ _ _ _ h3
  simp only [matchAtoms, List.nil_append, Option.some.injEq, Prod.mk.injEq] at h4
  obtain ⟨h5, h6⟩ := h4
  have lq : (bytes "\"").length = 1 := by decide
  refine ⟨x :: ys, List.cons_ne_nil _ _, ?_, ?_⟩
  · intro c hc
    have : notQuote c = true := by
      rcases List.mem_cons.mp hc with rfl | hc
      · exact hx
      · exact hys c hc
    simpa [notQuote] using this
  · rw [← h5, ← h6]
    simp only [submatches, List.map_cons, List.map_nil, Nat.zero_add, lq]
    congr 1
    · have : bytes "#EXTVLCOPT:http-user-agent=\"" ++ x :: (ys ++ (bytes "\"" ++ t3))
          = (bytes "#EXTVLCOPT:http-user-agent=\"" ++ x :: ys ++ bytes "\"") ++ t3 := by
        simp only [List.append_assoc, List.cons_append]
      rw [this]
      apply List.take_left'
      simp only [List.length_append, List.length_cons, lq]
      omega
    · congr 1
      rw [List.drop_left]
      have : x :: (ys ++ (bytes "\"" ++ t3)) = (x :: ys) ++ (bytes "\"" ++ t3) := rfl
      rw [this]
      apply List.take_left'
      simp only [List.length_cons]
      omega

/-- The slice that `FindStringSubmatch` returns for the user agent pattern is `nil`
or the option and its value, which is not empty. -/
theorem FindStringSubmatch_userAgentRegex (sec : GoString) :
    regexp.FindStringSubmatch userAgentRegex sec = [] ∨
    ∃ ua, ua ≠ [] ∧ (∀ c ∈ ua, c ≠ 34) ∧
      regexp.FindStringSubmatch userAgentRegex sec
        = [bytes "#EXTVLCOPT:http-user-agent=\"" ++ ua ++ bytes "\"", ua] := by
  by_cases h : regexp.FindStringSubmatch userAgentRegex sec = []
  · left; exact h
  · right
    obtain ⟨pre, t, e, caps, _, e2, e3, _⟩ := FindStringSubmatch_spec userAgentRegex sec h
    obtain ⟨ua, u1, u2, u3⟩ := userAgentRegex_sound t e caps e2
    exact ⟨ua, u1, u2, by rw [e3, u3]⟩

/-- C12: for every record of the returned map, `userAgent` is the captured value of
the first `#EXTVLCOPT:http-user-agent="..."` option of its block when the pattern
matches in the block, and the fixed default otherwise; it is never the empty
string. -/
theorem parseM3UContent_userAgent (content : GoString) :
    ∃ m, parseM3UContent content = .ok m ∧
      ∀ id r, (id, r) ∈ m →
        ∃ sec ∈ strings.Split content (bytes "#EXTINF"), Qualifying sec id ∧
          ((∃ ua, regexp.FindStringSubmatch userAgentRegex sec
                = [bytes "#EXTVLCOPT:http-user-agent=\"" ++ ua ++ bytes "\"", ua] ∧
              r.UserAgent = ua) ∨
            (regexp.FindStringSubmatch userAgentRegex sec = [] ∧
              r.UserAgent = bytes
                "Mozilla/5.0 (Linux; Android 10; BRAVIA 4K VH2 Build/QTG3.200305.006.S292; wv)")) ∧
          r.UserAgent ≠ [] := by
  obtain ⟨m, hm, h⟩ := parseM3UContent_entries content
  refine ⟨m, hm, ?_⟩
  intro id r hr
  obtain ⟨sec, hsec, hq, rfl⟩ := h id r hr
  refine ⟨sec, hsec, hq, ?_⟩
  have hUA : (blockRecord sec).UserAgent
      = if (regexp.FindStringSubmatch userAgentRegex sec).length > 1
        then (regexp.FindStringSubmatch userAgentRegex sec).getD 1 []
        else defaultUserAgent := rfl
  rcases FindStringSubmatch_userAgentRegex sec with h0 | ⟨ua, u1, _, u3⟩
  · have : (blockRecord sec).UserAgent = defaultUserAgent := by
      rw [hUA, h0]; rfl
    refine ⟨Or.inr ⟨h0, this⟩, ?_⟩
    rw [this]
    decide
  · have : (blockRecord sec).UserAgent = ua := by
      rw [hUA, u3]; rfl
    exact ⟨Or.inl ⟨ua, u3, this⟩, by rw [this]; exact u1⟩

/-! ## Line endings -/

/-- A text without an occurrence of `old` is left alone by `ReplaceAll`. -/
theorem replaceLoop_of_no_occurrence (old new : GoString) (s : GoString) :
    ¬ old <:+: s → replaceLoop old new 0 s = s := by
  induction s with
  | nil => intro _; rfl
  | cons c cs ih =>
    intro h
    have hp : old.isPrefixOf (c :: cs) = false := by
      cases hb : old.isPrefixOf (c :: cs) with
      | false => rfl
      | true => exact absurd (List.isPrefixOf_iff_prefix.mp hb).isInfix h
    have hcs : ¬ old <:+: cs := fun hi => h (hi.trans (List.suffix_cons c cs).isInfix)
    rw [replaceLoop]
    simp only [hp, Bool.false_eq_true, if_false]
    rw [ih hcs]

/-! ## Line endings: the replacement of `"\r\n"` -/

theorem normalizeCRLF_crlf (cs : GoString) :
    normalizeCRLF (13 :: 10 :: cs) = 10 :: normalizeCRLF cs := by
  simp [normalizeCRLF]

theorem normalizeCRLF_cons (c : Nat) (cs : GoString)
    (h : ¬ (c = 13 ∧ cs.head? = some 10)) :
    normalizeCRLF (c :: cs) = c :: normalizeCRLF cs := by
  rw [normalizeCRLF, if_neg h]

/-- Induction along the replacement: a text is empty, starts with `"\r\n"`, or starts
with a byte that is not the `'\r'` of a `"\r\n"`. -/
theorem crlf_induction {P : GoString → Prop} (h0 : P [])
    (h1 : ∀ cs, P cs → P (13 :: 10 :: cs))
    (h2 : ∀ c cs, ¬ (c = 13 ∧ cs.head? = some 10) → P cs → P (c :: cs)) :
    ∀ s, P s := by
  have key : ∀ s, P s ∧ ∀ c, P (c :: s) := by
    intro s
    induction s with
    | nil => exact ⟨h0, fun c => h2 c [] (by simp) h0⟩
    | cons x xs ih =>
      refine ⟨ih.2 x, ?_⟩
      intro c
      by_cases hc : c = 13 ∧ x = 10
      · obtain ⟨rfl, rfl⟩ := hc
        exact h1 xs ih.1
      · exact h2 c (x :: xs) (by simpa using hc) (ih.2 x)
  exact fun s => (key s).1

/-- A text is empty, starts with `"\r\n"`, or starts with another byte. -/
theorem crlf_cases (s : GoString) :
    s = [] ∨ (∃ cs, s = 13 :: 10 :: cs) ∨
      ∃ c cs, s = c :: cs ∧ ¬ (c = 13 ∧ cs.head? = some 10) := by
  cases s with
  | nil => exact Or.inl rfl
  | cons c cs =>
    by_cases h : c = 13 ∧ cs.head? = some 10
    · obtain ⟨rfl, h2⟩ := h
      cases cs with
      | nil => simp at h2
      | cons x xs =>
        simp only [List.head?_cons, Option.some.injEq] at h2
        subst h2
        exact Or.inr (Or.inl ⟨xs, rfl⟩)
    · exact Or.inr (Or.inr ⟨c, cs, rfl, h⟩)

theorem ReplaceAll_crlf (s : GoString) :
    strings.ReplaceAll s (bytes "\r\n") (bytes "\n") = normalizeCRLF s := by
  have e1 : bytes "\r\n" = [13, 10] := by decide
  have e2 : bytes "\n" = [10] := by decide
  unfold strings.ReplaceAll
  rw [e1, e2]
  induction s using crlf_induction with
  | h0 => rfl
  | h1 cs ih =>
    rw [normalizeCRLF_crlf, ← ih]
    simp [replaceLoop]
  | h2 c cs hc ih =>
    rw [normalizeCRLF_cons c cs hc, ← ih, replaceLoop]
    have hp : List.isPrefixOf [13, 10] (c :: cs) = false := by
      cases cs with
      | nil => simp [List.isPrefixOf]
      | cons x xs =>
        simp only [List.head?_cons, Option.some.injEq] at hc
        simp only [List.isPrefixOf, Bool.and_true]
        by_cases h13 : c = 13
        · have : x ≠ 10 := fun h => hc ⟨h13, h⟩
          simp [h13, this]
          exact fun h => this h.symm
        · simp
          intro h
          exact absurd h.symm h13
    rw [hp]
    simp

theorem normalizeCRLF_of_no_crlf (v : GoString) (h : ¬ bytes "\r\n" <:+: v) :
    normalizeCRLF v = v := by
  rw [← ReplaceAll_crlf]
  unfold strings.ReplaceAll
  exact replaceLoop_of_no_occurrence _ _ v h

theorem normalizeCRLF_of_no_cr (v : GoString) (h : ∀ c ∈ v, c ≠ 13) :
    normalizeCRLF v = v := by
  induction v with
  | nil => rfl
  | cons c cs ih =>
    rw [normalizeCRLF_cons c cs (fun hc => h c (List.mem_cons_self _ _) hc.1),
      ih (fun x hx => h x (List.mem_cons_of_mem _ hx))]

theorem normalizeCRLF_eq_nil (s : GoString) : normalizeCRLF s = [] ↔ s = [] := by
  rcases crlf_cases s with rfl | ⟨cs, rfl⟩ | ⟨c, cs, rfl, hc⟩
  · simp [normalizeCRLF]
  · simp [normalizeCRLF_crlf]
  · simp [normalizeCRLF_cons c cs hc]

theorem clean_nil_left (s : GoString) : Clean [] s := by
  simp [Clean]

theorem clean_nil_right (a : GoString) : Clean a [] := by
  simp [Clean]

theorem clean_concat (a : GoString) (c : Nat) (s : GoString) :
    Clean (a ++ [c]) s ↔ ¬ (c = 13 ∧ s.head? = some 10) := by
  simp [Clean, List.getLast?_concat]

theorem clean_cons (a : GoString) (c : Nat) (s : GoString) :
    Clean a (c :: s) ↔ ¬ (a.getLast? = some 13 ∧ c = 10) := by
  simp [Clean]

/-- The replacement goes through a cut that does not fall inside a `"\r\n"`. -/
theorem normalizeCRLF_append (a s : GoString) (h : Clean a s) :
    normalizeCRLF (a ++ s) = normalizeCRLF a ++ normalizeCRLF s := by
  induction a with
  | nil => simp [normalizeCRLF]
  | cons c as ih =>
    cases as with
    | nil =>
      have hc : ¬ (c = 13 ∧ s.head? = some 10) := by
        simpa [Clean] using h
      rw [List.singleton_append, normalizeCRLF_cons c s hc,
        normalizeCRLF_cons c [] (by simp)]
      simp [normalizeCRLF]
    | cons x xs =>
      have h2 : Clean (x :: xs) s := by
        simpa [Clean] using h
      have ih2 := ih h2
      rw [List.cons_append, normalizeCRLF, normalizeCRLF]
      have : (x :: xs ++ s).head? = (x :: xs).head? := by simp
      rw [this]
      split_ifs with hc
      · exact ih2
      · rw [ih2, List.cons_append]

theorem normalizeCRLF_concat (a : GoString) (c : Nat) (h : Clean a [c]) :
    normalizeCRLF (a ++ [c]) = normalizeCRLF a ++ [c] := by
  rw [normalizeCRLF_append a [c] h, normalizeCRLF_cons c [] (by simp)]
  simp [normalizeCRLF]

theorem normalizeCRLF_concat_crlf (a : GoString) :
    normalizeCRLF (a ++ [13, 10]) = normalizeCRLF a ++ [10] := by
  rw [normalizeCRLF_append a [13, 10] (by simp [Clean]), normalizeCRLF_crlf]
  simp [normalizeCRLF]

theorem cut_length (a s : GoString) : cut (a ++ s) a.length = (normalizeCRLF a).length := by
  simp [cut]

theorem cleanAt_length (a s : GoString) (h : Clean a s) : CleanAt (a ++ s) a.length := by
  refine ⟨by simp, ?_⟩
  simpa using h

theorem matchRel_none (t : GoString) (y : Option (Nat × List (Nat × Nat))) :
    MatchRel t none y ↔ y = none := Iff.rfl

theorem matchRel_some (t : GoString) (r : Nat × List (Nat × Nat))
    (y : Option (Nat × List (Nat × Nat))) :
    MatchRel t (some r) y ↔ (y = some (cut t r.1, r.2.map (cutPair t)) ∧ CleanAt t r.1 ∧
      ∀ c ∈ r.2, GoodPair t c) := Iff.rfl

/-- The relation goes through the choice between a first and a second attempt. -/
theorem matchRel_orElse (t : GoString) (x x2 y y2 : Option (Nat × List (Nat × Nat)))
    (h1 : MatchRel t x x2) (h2 : MatchRel t y y2) :
    MatchRel t (x.orElse (fun _ => y)) (x2.orElse (fun _ => y2)) := by
  cases x with
  | none =>
    rw [matchRel_none] at h1
    subst h1
    exact h2
  | some r =>
    rw [matchRel_some] at h1
    obtain ⟨e1, e2, e3⟩ := h1
    subst e1
    exact ⟨rfl, e2, e3⟩

theorem starLoop_cons {α : Type} (p : Nat → Bool) (k : Nat → GoString → Option α)
    (pos c : Nat) (cs : GoString) :
    starLoop p k pos (c :: cs)
      = if p c then (starLoop p k (pos + 1) cs).orElse (fun _ => k pos (c :: cs))
        else k pos (c :: cs) := by
  rw [starLoop]
  split_ifs
  · cases starLoop p k (pos + 1) cs <;> rfl
  · rfl

theorem orElse_none {α : Type} (x : Option α) : x.orElse (fun _ => none) = x := by
  cases x <;> rfl

/-- A pattern whose first reading item is not for `'\n'` fails at a `'\n'`. -/
theorem matchAtoms_headNotLF (re : Regexp) (h : headNotLF re = true) :
    ∀ (pos : Nat) (opens : List Nat) (caps : List (Nat × Nat)) (s : GoString),
      matchAtoms re pos opens caps (10 :: s) = none := by
  induction re with
  | nil => simp [headNotLF] at h
  | cons a as ih =>
    intro pos opens caps s
    cases a with
    | lit c =>
      simp only [headNotLF, bne_iff_ne, ne_eq] at h
      simp only [matchAtoms, ite_eq_right_iff]
      intro hc
      exact absurd hc.symm h
    | opt c => simp [headNotLF] at h
    | star p => simp [headNotLF] at h
    | plus p =>
      simp only [headNotLF, Bool.not_eq_true'] at h
      simp [matchAtoms, h]
    | groupOpen =>
      rw [matchAtoms]
      exact ih h _ _ _ _
    | groupClose =>
      cases opens with
      | nil => simp only [matchAtoms]
      | cons st rest =>
        simp only [matchAtoms]
        exact ih h _ _ _ _

/-- A greedy repetition of a class that holds both or none of `'\r'` and `'\n'`
gives corresponding results on a text and on its replacement, when the rest of the
pattern does. -/
theorem starLoop_normalize (t : GoString) (p : Nat → Bool) (hp : p 10 = p 13)
    (k k2 : Nat → GoString → Option (Nat × List (Nat × Nat))) (n0 : Nat)
    (hk : ∀ a s, a ++ s = t → Clean a s → n0 ≤ a.length →
      MatchRel t (k a.length s) (k2 (normalizeCRLF a).length (normalizeCRLF s)))
    (hlf : p 10 = true → ∀ pos s, k pos (10 :: s) = none) :
    ∀ (s a : GoString), a ++ s = t → Clean a s → n0 ≤ a.length →
      MatchRel t (starLoop p k a.length s)
        (starLoop p k2 (normalizeCRLF a).length (normalizeCRLF s)) := by
  intro s
  induction s using crlf_induction with
  | h0 =>
    intro a e hc hn
    simp only [starLoop, normalizeCRLF]
    exact hk a [] e hc hn
  | h1 cs ih =>
    intro a e hc hn
    rw [normalizeCRLF_crlf]
    have hks := hk a (13 :: 10 :: cs) e hc hn
    rw [normalizeCRLF_crlf] at hks
    cases hb : p 10 with
    | false =>
      have hb13 : p 13 = false := by rw [← hp]; exact hb
      simp only [starLoop_cons, hb, hb13, Bool.false_eq_true, if_false]
      exact hks
    | true =>
      have hb13 : p 13 = true := by rw [← hp]; exact hb
      have hih := ih (a ++ [13, 10]) (by simp [← e]) (by simp [Clean])
        (by simp only [List.length_append]; omega)
      have hl : (a ++ [13, 10]).length = a.length + 1 + 1 := by simp
      have hl2 : (normalizeCRLF a ++ [10]).length = (normalizeCRLF a).length + 1 := by simp
      rw [normalizeCRLF_concat_crlf, hl, hl2] at hih
      simp only [starLoop_cons, hb, hb13, if_true, hlf hb, orElse_none]
      exact matchRel_orElse t _ _ _ _ hih hks
  | h2 c cs hcc ih =>
    intro a e hc hn
    rw [normalizeCRLF_cons c cs hcc]
    have hks := hk a (c :: cs) e hc hn
    rw [normalizeCRLF_cons c cs hcc] at hks
    cases hb : p c with
    | false =>
      simp only [starLoop_cons, hb, Bool.false_eq_true, if_false]
      exact hks
    | true =>
      have hc1 : Clean a [c] := by
        rw [clean_cons] at hc ⊢
        exact hc
      have hih := ih (a ++ [c]) (by simp [← e]) ((clean_concat a c cs).mpr hcc)
        (by simp only [List.length_append]; omega)
      have hl : (a ++ [c]).length = a.length + 1 := by simp
      have hl2 : (normalizeCRLF a ++ [c]).length = (normalizeCRLF a).length + 1 := by simp
      rw [normalizeCRLF_concat a c hc1, hl, hl2] at hih
      simp only [starLoop_cons, hb, if_true]
      exact matchRel_orElse t _ _ _ _ hih hks

theorem matchAtoms_lit_cons (c : Nat) (as : Regexp) (pos : Nat) (opens : List Nat)
    (caps : List (Nat × Nat)) (x : Nat) (xs : GoString) :
    matchAtoms (.lit c :: as) pos opens caps (x :: xs)
      = if x = c then matchAtoms as (pos + 1) opens caps xs else none := by
  simp only [matchAtoms]

theorem matchAtoms_opt_cons (c : Nat) (as : Regexp) (pos : Nat) (opens : List Nat)
    (caps : List (Nat × Nat)) (x : Nat) (xs : GoString) :
    matchAtoms (.opt c :: as) pos opens caps (x :: xs)
      = if x = c then (matchAtoms as (pos + 1) opens caps xs).orElse
          (fun _ => matchAtoms as pos opens caps (x :: xs))
        else matchAtoms as pos opens caps (x :: xs) := by
  simp only [matchAtoms]
  split_ifs
  · cases matchAtoms as (pos + 1) opens caps xs <;> rfl
  · rfl

theorem matchAtoms_plus_cons (p : Nat → Bool) (as : Regexp) (pos : Nat) (opens : List Nat)
    (caps : List (Nat × Nat)) (x : Nat) (xs : GoString) :
    matchAtoms (.plus p :: as) pos opens caps (x :: xs)
      = if p x then starLoop p (fun pos2 s2 => matchAtoms as pos2 opens caps s2) (pos + 1) xs
        else none := by
  simp only [matchAtoms]

/-- The replacement of a text that starts with another byte than the literal `c`
starts with another byte than `c`. -/
theorem normalizeCRLF_head_ne (x : Nat) (xs : GoString) (c : Nat) (h10 : c ≠ 10)
    (hx : x ≠ c) : ∃ y ys, normalizeCRLF (x :: xs) = y :: ys ∧ y ≠ c := by
  by_cases h : x = 13 ∧ xs.head? = some 10
  · obtain ⟨rfl, h2⟩ := h
    cases xs with
    | nil => simp at h2
    | cons z zs =>
      simp only [List.head?_cons, Option.some.injEq] at h2
      subst h2
      exact ⟨10, normalizeCRLF zs, normalizeCRLF_crlf zs, fun h => h10 h.symm⟩
  · exact ⟨x, normalizeCRLF xs, normalizeCRLF_cons x xs h, hx⟩

/-- The match of a pattern that does not tell `"\r\n"` from `"\n"`, on a text and on
its replacement: both fail, or both succeed with corresponding offsets, none of which
falls inside a `"\r\n"`. -/
theorem matchAtoms_normalize (t : GoString) : ∀ (re : Regexp), crlfSafe re = true →
    ∀ (a s : GoString) (opens : List Nat) (caps : List (Nat × Nat)),
      a ++ s = t → Clean a s →
      (∀ o ∈ opens, CleanAt t o ∧ o ≤ a.length) →
      (∀ c ∈ caps, GoodPair t c) →
      MatchRel t (matchAtoms re a.length opens caps s)
        (matchAtoms re (normalizeCRLF a).length (opens.map (cut t)) (caps.map (cutPair t))
          (normalizeCRLF s)) := by
  intro re
  induction re with
  | nil =>
    intro _ a s opens caps e hc _ hcaps
    simp only [matchAtoms]
    rw [matchRel_some]
    refine ⟨?_, ?_, hcaps⟩
    · rw [← e, cut_length]
    · rw [← e]
      exact cleanAt_length a s hc
  | cons atom as ih =>
    intro hs a s opens caps e hc hop hcaps
    have hcut : cut t a.length = (normalizeCRLF a).length := by rw [← e, cut_length]
    have hclean : CleanAt t a.length := by
      rw [← e]
      exact cleanAt_length a s hc
    cases atom with
    | lit c =>
      simp only [crlfSafe, Bool.and_eq_true, bne_iff_ne, ne_eq] at hs
      obtain ⟨⟨h10, h13⟩, hsafe⟩ := hs
      cases s with
      | nil =>
        simp only [normalizeCRLF, matchAtoms]
        exact (matchRel_none _ _).mpr rfl
      | cons x xs =>
        by_cases hx : x = c
        · subst hx
          have hn : ¬ (x = 13 ∧ xs.head? = some 10) := fun h => h13 h.1
          have hc1 : Clean a [x] := by
            rw [clean_cons]
            exact fun h => h10 h.2
          have hl : (a ++ [x]).length = a.length + 1 := by simp
          have hl2 : (normalizeCRLF a ++ [x]).length = (normalizeCRLF a).length + 1 := by
            simp
          have := ih hsafe (a ++ [x]) xs opens caps (by simp [← e])
            ((clean_concat a x xs).mpr hn)
            (fun o ho => ⟨(hop o ho).1, by rw [hl]; exact Nat.le_succ_of_le (hop o ho).2⟩)
            hcaps
          rw [normalizeCRLF_concat a x hc1, hl, hl2] at this
          rw [normalizeCRLF_cons x xs hn, matchAtoms_lit_cons, matchAtoms_lit_cons,
            if_pos rfl, if_pos rfl]
          exact this
        · obtain ⟨y, ys, ey, hy⟩ := normalizeCRLF_head_ne x xs c h10 hx
          rw [ey, matchAtoms_lit_cons, matchAtoms_lit_cons, if_neg hx, if_neg hy]
          exact (matchRel_none _ _).mpr rfl
    | opt c =>
      simp only [crlfSafe, Bool.and_eq_true, bne_iff_ne, ne_eq] at hs
      obtain ⟨⟨h10, h13⟩, hsafe⟩ := hs
      have hsame := ih hsafe a s opens caps e hc hop hcaps
      cases s with
      | nil =>
        simp only [normalizeCRLF, matchAtoms] at hsame ⊢
        exact hsame
      | cons x xs =>
        by_cases hx : x = c
        · subst hx
          have hn : ¬ (x = 13 ∧ xs.head? = some 10) := fun h => h13 h.1
          have hc1 : Clean a [x] := by
            rw [clean_cons]
            exact fun h => h10 h.2
          have hl : (a ++ [x]).length = a.length + 1 := by simp
          have hl2 : (normalizeCRLF a ++ [x]).length = (normalizeCRLF a).length + 1 := by
            simp
          have := ih hsafe (a ++ [x]) xs opens caps (by simp [← e])
            ((clean_concat a x xs).mpr hn)
            (fun o ho => ⟨(hop o ho).1, by rw [hl]; exact Nat.le_succ_of_le (hop o ho).2⟩)
            hcaps
          rw [normalizeCRLF_concat a x hc1, hl, hl2] at this
          rw [normalizeCRLF_cons x xs hn] at hsame ⊢
          rw [matchAtoms_opt_cons, matchAtoms_opt_cons, if_pos rfl, if_pos rfl]
          exact matchRel_orElse t _ _ _ _ this hsame
        · obtain ⟨y, ys, ey, hy⟩ := normalizeCRLF_head_ne x xs c h10 hx
          rw [ey] at hsame ⊢
          rw [matchAtoms_opt_cons, matchAtoms_opt_cons, if_neg hx, if_neg hy]
          exact hsame
    | star p =>
      simp only [crlfSafe, Bool.and_eq_true, beq_iff_eq, Bool.or_eq_true,
        Bool.not_eq_true'] at hs
      obtain ⟨⟨hp, hlf⟩, hsafe⟩ := hs
      simp only [matchAtoms]
      exact starLoop_normalize t p hp _ _ a.length
        (fun a2 s2 e2 hc2 hn2 => ih hsafe a2 s2 opens caps e2 hc2
          (fun o ho => ⟨(hop o ho).1, Nat.le_trans (hop o ho).2 hn2⟩) hcaps)
        (fun hb pos s2 => matchAtoms_headNotLF as
          (by rcases hlf with h | h
              · rw [hb] at h; cases h
              · exact h) pos opens caps s2)
        s a e hc (Nat.le_refl _)
    | plus p =>
      simp only [crlfSafe, Bool.and_eq_true, beq_iff_eq, Bool.or_eq_true,
        Bool.not_eq_true'] at hs
      obtain ⟨⟨hp, hlf⟩, hsafe⟩ := hs
      have hstar := starLoop_normalize t p hp
        (fun pos2 s2 => matchAtoms as pos2 opens caps s2)
        (fun pos2 s2 => matchAtoms as pos2 (opens.map (cut t)) (caps.map (cutPair t)) s2)
        a.length
        (fun a2 s2 e2 hc2 hn2 => ih hsafe a2 s2 opens caps e2 hc2
          (fun o ho => ⟨(hop o ho).1, Nat.le_trans (hop o ho).2 hn2⟩) hcaps)
        (fun hb pos s2 => matchAtoms_headNotLF as
          (by rcases hlf with h | h
              · rw [hb] at h; cases h
              · exact h) pos opens caps s2)
      rcases crlf_cases s with rfl | ⟨cs, rfl⟩ | ⟨x, xs, rfl, hn⟩
      · simp only [normalizeCRLF, matchAtoms]
        exact (matchRel_none _ _).mpr rfl
      · rw [normalizeCRLF_crlf, matchAtoms_plus_cons, matchAtoms_plus_cons]
        cases hb : p 10 with
        | false =>
          have hb13 : p 13 = false := by rw [← hp]; exact hb
          simp only [hb13, Bool.false_eq_true, if_false]
          exact (matchRel_none _ _).mpr rfl
        | true =>
          have hb13 : p 13 = true := by rw [← hp]; exact hb
          have hl : (a ++ [13, 10]).length = a.length + 1 + 1 := by simp
          have hl2 : (normalizeCRLF a ++ [10]).length = (normalizeCRLF a).length + 1 := by
            simp
          have := hstar cs (a ++ [13, 10]) (by simp [← e]) (by simp [Clean])
            (by rw [hl]; omega)
          rw [normalizeCRLF_concat_crlf, hl, hl2] at this
          have hk10 : matchAtoms as (a.length + 1) opens caps (10 :: cs) = none :=
            matchAtoms_headNotLF as
              (by rcases hlf with h | h
                  · rw [hb] at h; cases h
                  · exact h) _ opens caps cs
          simp only [hb13, if_true, starLoop_cons, hb, hk10, orElse_none]
          exact this
      · rw [normalizeCRLF_cons x xs hn, matchAtoms_plus_cons, matchAtoms_plus_cons]
        cases hb : p x with
        | false =>
          simp only [Bool.false_eq_true, if_false]
          exact (matchRel_none _ _).mpr rfl
        | true =>
          have hc1 : Clean a [x] := by
            rw [clean_cons] at hc ⊢
            exact hc
          have hl : (a ++ [x]).length = a.length + 1 := by simp
          have hl2 : (normalizeCRLF a ++ [x]).length = (normalizeCRLF a).length + 1 := by
            simp
          have := hstar xs (a ++ [x]) (by simp [← e]) ((clean_concat a x xs).mpr hn)
            (by rw [hl]; omega)
          rw [normalizeCRLF_concat a x hc1, hl, hl2] at this
          simp only [if_true]
          exact this
    | groupOpen =>
      simp only [crlfSafe] at hs
      have := ih hs a s (a.length :: opens) caps e hc
        (fun o ho => by
          rcases List.mem_cons.mp ho with rfl | ho
          · exact ⟨hclean, Nat.le_refl _⟩
          · exact hop o ho) hcaps
      rw [List.map_cons, hcut] at this
      simp only [matchAtoms]
      exact this
    | groupClose =>
      simp only [crlfSafe] at hs
      cases opens with
      | nil =>
        simp only [matchAtoms, List.map_nil]
        exact (matchRel_none _ _).mpr rfl
      | cons st rest =>
        have hst := hop st (List.mem_cons_self _ _)
        have := ih hs a s rest (caps ++ [(st, a.length)]) e hc
          (fun o ho => hop o (List.mem_cons_of_mem _ ho))
          (fun c hcm => by
            rcases List.mem_append.mp hcm with h | h
            · exact hcaps c h
            · rw [List.mem_singleton] at h
              subst h
              exact ⟨hst.1, hclean, hst.2⟩)
        rw [List.map_append, List.map_cons, List.map_nil] at this
        simp only [cutPair, hcut] at this
        simp only [matchAtoms, List.map_cons]
        exact this

theorem clean_of_append_left (a b s : GoString) (h : Clean (a ++ b) s) : Clean b s := by
  intro h2
  apply h
  refine ⟨?_, h2.2⟩
  rw [List.getLast?_append, h2.1]
  rfl

theorem clean_of_append_right (a b s : GoString) (h : Clean a (b ++ s)) (hb : b ≠ []) :
    Clean a b := by
  intro h2
  apply h
  refine ⟨h2.1, ?_⟩
  cases b with
  | nil => exact absurd rfl hb
  | cons x xs => simpa using h2.2

/-- The text before and the text after an offset that does not fall inside a
`"\r\n"`, in the replacement. -/
theorem take_drop_normalize (t : GoString) (e : Nat) (h : CleanAt t e) :
    (normalizeCRLF t).take (cut t e) = normalizeCRLF (t.take e) ∧
    (normalizeCRLF t).drop (cut t e) = normalizeCRLF (t.drop e) ∧
    cut t e ≤ (normalizeCRLF t).length := by
  have ht : normalizeCRLF t = normalizeCRLF (t.take e) ++ normalizeCRLF (t.drop e) := by
    rw [← normalizeCRLF_append _ _ h.2, List.take_append_drop]
  unfold cut
  rw [ht]
  refine ⟨List.take_left _ _, List.drop_left _ _, ?_⟩
  simp

theorem slice_normalize_aux (t1 t2 t3 : GoString) (c1 : Clean t1 (t2 ++ t3))
    (c2 : Clean (t1 ++ t2) t3) :
    ((normalizeCRLF (t1 ++ (t2 ++ t3))).drop (normalizeCRLF t1).length).take
        ((normalizeCRLF (t1 ++ t2)).length - (normalizeCRLF t1).length)
      = normalizeCRLF t2 := by
  by_cases hne : t2 = []
  · subst hne
    simp [normalizeCRLF]
  · have d1 : Clean t1 t2 := clean_of_append_right _ _ _ c1 hne
    have d2 : Clean t2 t3 := clean_of_append_left _ _ _ c2
    rw [normalizeCRLF_append _ _ c1, normalizeCRLF_append _ _ d1,
      normalizeCRLF_append _ _ d2, List.drop_left, List.length_append,
      Nat.add_sub_cancel_left]
    exact List.take_left _ _

/-- The text of a group, in the replacement. -/
theorem slice_normalize (t : GoString) (ab : Nat × Nat) (h : GoodPair t ab) :
    ((normalizeCRLF t).drop (cut t ab.1)).take (cut t ab.2 - cut t ab.1)
      = normalizeCRLF ((t.drop ab.1).take (ab.2 - ab.1)) := by
  obtain ⟨x, y⟩ := ab
  obtain ⟨hx, hy, hxy⟩ := h
  simp only at hx hy hxy ⊢
  have e1 : t.drop x = (t.drop x).take (y - x) ++ t.drop y := by
    have := List.take_append_drop (y - x) (t.drop x)
    rw [List.drop_drop] at this
    rw [show x + (y - x) = y from by omega] at this
    exact this.symm
  have e2 : t.take y = t.take x ++ (t.drop x).take (y - x) := by
    have := List.take_add t x (y - x)
    rw [show x + (y - x) = y from by omega] at this
    exact this
  have ht : t.take x ++ ((t.drop x).take (y - x) ++ t.drop y) = t := by
    rw [← e1, List.take_append_drop]
  have c1 : Clean (t.take x) ((t.drop x).take (y - x) ++ t.drop y) := by
    rw [← e1]
    exact hx.2
  have c2 : Clean (t.take x ++ (t.drop x).take (y - x)) (t.drop y) := by
    rw [← e2]
    exact hy.2
  have := slice_normalize_aux _ _ _ c1 c2
  rw [ht, ← e2] at this
  exact this

/-- A pattern that does not tell `"\r\n"` from `"\n"` and fails at the head of a text
fails at the head of the replacement. -/
theorem match_none_normalize (re : Regexp) (hs : crlfSafe re = true) (t : GoString)
    (h : matchAtoms re 0 [] [] t = none) :
    matchAtoms re 0 [] [] (normalizeCRLF t) = none := by
  have := matchAtoms_normalize t re hs [] t [] [] rfl (clean_nil_left t) (by simp) (by simp)
  simp only [List.length_nil, normalizeCRLF, List.map_nil] at this
  rw [h, matchRel_none] at this
  exact this

/-- A match at the head of a text gives a match at the head of the replacement: its
strings are the replacements of the strings of the match, and so is the text after
it. -/
theorem match_some_normalize (re : Regexp) (hs : crlfSafe re = true) (t : GoString)
    (e : Nat) (caps : List (Nat × Nat)) (h : matchAtoms re 0 [] [] t = some (e, caps)) :
    ∃ e2 caps2, matchAtoms re 0 [] [] (normalizeCRLF t) = some (e2, caps2) ∧
      submatches (normalizeCRLF t) e2 caps2 = (submatches t e caps).map normalizeCRLF ∧
      (normalizeCRLF t).drop e2 = normalizeCRLF (t.drop e) ∧
      e ≤ t.length ∧ e2 ≤ (normalizeCRLF t).length := by
  have := matchAtoms_normalize t re hs [] t [] [] rfl (clean_nil_left t) (by simp) (by simp)
  simp only [List.length_nil, normalizeCRLF, List.map_nil] at this
  rw [h, matchRel_some] at this
  obtain ⟨h1, h2, h3⟩ := this
  simp only at h1 h2 h3
  obtain ⟨t1, t2, t3⟩ := take_drop_normalize t e h2
  refine ⟨cut t e, caps.map (cutPair t), h1, ?_, t2, h2.1, t3⟩
  simp only [submatches, List.map_cons, List.map_map, t1, List.cons.injEq, true_and]
  apply List.map_congr_left
  intro ab hab
  exact slice_normalize t ab (h3 ab hab)

theorem matchAtoms_headNotLF_nil (re : Regexp) (h : headNotLF re = true) :
    ∀ (pos : Nat) (opens : List Nat) (caps : List (Nat × Nat)),
      matchAtoms re pos opens caps [] = none := by
  induction re with
  | nil => simp [headNotLF] at h
  | cons a as ih =>
    intro pos opens caps
    cases a with
    | lit c => simp only [matchAtoms]
    | opt c => simp [headNotLF] at h
    | star p => simp [headNotLF] at h
    | plus p => simp only [matchAtoms]
    | groupOpen =>
      simp only [matchAtoms]
      exact ih h _ _ _
    | groupClose =>
      cases opens with
      | nil => simp only [matchAtoms]
      | cons st rest =>
        simp only [matchAtoms]
        exact ih h _ _ _

/-- A pattern whose first reading item is a literal or a class `+` matches no empty
text. -/
theorem matchAtoms_headNotLF_pos (re : Regexp) (h : headNotLF re = true) :
    ∀ (pos : Nat) (opens : List Nat) (caps : List (Nat × Nat)) (s : GoString)
      (e : Nat) (caps2 : List (Nat × Nat)),
      matchAtoms re pos opens caps s = some (e, caps2) → pos < e := by
  induction re with
  | nil => simp [headNotLF] at h
  | cons a as ih =>
    intro pos opens caps s e caps2 hm
    cases a with
    | lit c =>
      cases s with
      | nil => simp only [matchAtoms] at hm; cases hm
      | cons x xs =>
        rw [matchAtoms_lit_cons] at hm
        split_ifs at hm
        have := matchAtoms_pos_le as _ _ _ _ _ _ hm
        omega
    | opt c => simp [headNotLF] at h
    | star p => simp [headNotLF] at h
    | plus p =>
      cases s with
      | nil => simp only [matchAtoms] at hm; cases hm
      | cons x xs =>
        rw [matchAtoms_plus_cons] at hm
        split_ifs at hm
        obtain ⟨pos2, s2, hle, hk⟩ := starLoop_some_le _ _ _ _ _ hm
        have := matchAtoms_pos_le as _ _ _ _ _ _ hk
        omega
    | groupOpen =>
      simp only [matchAtoms] at hm
      exact ih h _ _ _ _ _ _ hm
    | groupClose =>
      cases opens with
      | nil => simp only [matchAtoms] at hm; cases hm
      | cons st rest =>
        simp only [matchAtoms] at hm
        exact ih h _ _ _ _ _ _ hm

/-- The pattern fails at a text that starts with `"\r\n"`. -/
theorem match_crlf_none (re : Regexp) (hs : crlfSafe re = true) (hh : headNotLF re = true)
    (cs : GoString) : matchAtoms re 0 [] [] (13 :: 10 :: cs) = none := by
  cases hm : matchAtoms re 0 [] [] (13 :: 10 :: cs) with
  | none => rfl
  | some r =>
    obtain ⟨e, caps⟩ := r
    obtain ⟨e2, caps2, h1, _⟩ := match_some_normalize re hs _ e caps hm
    rw [normalizeCRLF_crlf, matchAtoms_headNotLF re hh] at h1
    cases h1

/-- The leftmost match in the replacement of a text is the replacement of the leftmost
match in the text. -/
theorem FindStringSubmatch_normalize (re : Regexp) (hs : crlfSafe re = true)
    (hh : headNotLF re = true) :
    ∀ (s : GoString), regexp.FindStringSubmatch re (normalizeCRLF s)
      = (regexp.FindStringSubmatch re s).map normalizeCRLF := by
  intro s
  induction s using crlf_induction with
  | h0 =>
    simp only [normalizeCRLF, regexp.FindStringSubmatch, matchAtoms_headNotLF_nil re hh,
      List.map_nil]
  | h1 cs ih =>
    rw [normalizeCRLF_crlf]
    simp only [regexp.FindStringSubmatch, matchAtoms_headNotLF re hh,
      match_crlf_none re hs hh]
    exact ih
  | h2 c cs hc ih =>
    rw [normalizeCRLF_cons c cs hc]
    cases hm : matchAtoms re 0 [] [] (c :: cs) with
    | none =>
      have hn := match_none_normalize re hs _ hm
      rw [normalizeCRLF_cons c cs hc] at hn
      simp only [regexp.FindStringSubmatch, hm, hn]
      exact ih
    | some r =>
      obtain ⟨e, caps⟩ := r
      obtain ⟨e2, caps2, h1, h2, _⟩ := match_some_normalize re hs _ e caps hm
      rw [normalizeCRLF_cons c cs hc] at h1 h2
      simp only [regexp.FindStringSubmatch, hm, h1]
      exact h2

theorem findAllLoop_skip (re : Regexp) : ∀ (x rest : GoString),
    findAllLoop re x.length (x ++ rest) = findAllLoop re 0 rest := by
  intro x
  induction x with
  | nil => intro rest; rfl
  | cons c cs ih =>
    intro rest
    simp only [List.length_cons, List.cons_append, findAllLoop]
    exact ih rest

/-- After a match that is not empty, the search goes on in the text behind it. -/
theorem findAllLoop_cons_some (re : Regexp) (c : Nat) (cs : GoString) (e : Nat)
    (caps : List (Nat × Nat)) (hm : matchAtoms re 0 [] [] (c :: cs) = some (e, caps))
    (h0 : 0 < e) (hle : e ≤ (c :: cs).length) :
    findAllLoop re 0 (c :: cs)
      = submatches (c :: cs) e caps :: findAllLoop re 0 ((c :: cs).drop e) := by
  simp only [findAllLoop, hm, List.cons.injEq, true_and]
  obtain ⟨n, rfl⟩ : ∃ n, e = n + 1 := ⟨e - 1, by omega⟩
  simp only [Nat.add_sub_cancel, List.drop_succ_cons]
  have hlen : (cs.take n).length = n := by
    rw [List.length_take]
    simp only [List.length_cons] at hle
    omega
  have := findAllLoop_skip re (cs.take n) (cs.drop n)
  rw [List.take_append_drop, hlen] at this
  exact this

/-- The successive matches in the replacement of a text are the replacements of the
successive matches in the text. -/
theorem findAllLoop_normalize (re : Regexp) (hs : crlfSafe re = true)
    (hh : headNotLF re = true) :
    ∀ (n : Nat) (s : GoString), s.length ≤ n →
      findAllLoop re 0 (normalizeCRLF s)
        = (findAllLoop re 0 s).map (List.map normalizeCRLF) := by
  intro n
  induction n with
  | zero =>
    intro s hl
    have : s = [] := List.length_eq_zero.mp (Nat.le_zero.mp hl)
    subst this
    simp only [normalizeCRLF, findAllLoop, matchAtoms_headNotLF_nil re hh, List.map_nil]
  | succ n ih =>
    intro s hl
    rcases crlf_cases s with rfl | ⟨cs, rfl⟩ | ⟨c, cs, rfl, hc⟩
    · simp only [normalizeCRLF, findAllLoop, matchAtoms_headNotLF_nil re hh, List.map_nil]
    · rw [normalizeCRLF_crlf]
      simp only [findAllLoop, matchAtoms_headNotLF re hh, match_crlf_none re hs hh]
      apply ih
      simp only [List.length_cons] at hl
      omega
    · cases hm : matchAtoms re 0 [] [] (c :: cs) with
      | none =>
        have hn := match_none_normalize re hs _ hm
        rw [normalizeCRLF_cons c cs hc] at hn ⊢
        simp only [findAllLoop, hm, hn]
        apply ih
        simp only [List.length_cons] at hl
        omega
      | some r =>
        obtain ⟨e, caps⟩ := r
        obtain ⟨e2, caps2, h1, h2, h3, h4, h5⟩ := match_some_normalize re hs _ e caps hm
        have hp := matchAtoms_headNotLF_pos re hh _ _ _ _ _ _ hm
        have hp2 := matchAtoms_headNotLF_pos re hh _ _ _ _ _ _ h1
        rw [findAllLoop_cons_some re c cs e caps hm hp h4]
        rw [normalizeCRLF_cons c cs hc] at h1 h2 h3 h5 ⊢
        rw [findAllLoop_cons_some re c (normalizeCRLF cs) e2 caps2 h1 hp2 h5, h2, h3,
          List.map_cons]
        congr 1
        apply ih
        rw [List.length_drop]
        simp only [List.length_cons] at hl ⊢
        omega

theorem FindAllStringSubmatch_normalize (re : Regexp) (hs : crlfSafe re = true)
    (hh : headNotLF re = true) (s : GoString) :
    regexp.FindAllStringSubmatch re (normalizeCRLF s)
      = (regexp.FindAllStringSubmatch re s).map (List.map normalizeCRLF) :=
  findAllLoop_normalize re hs hh s.length s (Nat.le_refl _)

/-! ## Line endings: the blocks of a document -/

theorem isPrefixOf_normalize (M : GoString) (hM : ∀ c ∈ M, c ≠ 10 ∧ c ≠ 13) :
    ∀ (s : GoString), M.isPrefixOf (normalizeCRLF s) = M.isPrefixOf s := by
  induction M with
  | nil => intro s; simp [List.isPrefixOf]
  | cons m ms ih =>
    intro s
    have hm := hM m (List.mem_cons_self _ _)
    rcases crlf_cases s with rfl | ⟨cs, rfl⟩ | ⟨c, cs, rfl, hc⟩
    · simp [normalizeCRLF]
    · have a1 : (m == 10) = false := by simp [hm.1]
      have a2 : (m == 13) = false := by simp [hm.2]
      rw [normalizeCRLF_crlf]
      simp only [List.isPrefixOf, a1, a2, Bool.false_and]
    · rw [normalizeCRLF_cons c cs hc]
      simp only [List.isPrefixOf]
      rw [ih (fun x hx => hM x (List.mem_cons_of_mem _ hx)) cs]

theorem splitLoop_pass (sep : GoString) : ∀ (x cur rest : GoString),
    splitLoop sep x.length cur (x ++ rest) = splitLoop sep 0 cur rest := by
  intro x
  induction x with
  | nil => intro cur rest; rfl
  | cons c cs ih =>
    intro cur rest
    simp only [List.length_cons, List.cons_append, splitLoop]
    exact ih cur rest

theorem splitLoop_marker (cur rest : GoString) :
    splitLoop [35, 69, 88, 84, 73, 78, 70] 0 cur ([35, 69, 88, 84, 73, 78, 70] ++ rest)
      = cur :: splitLoop [35, 69, 88, 84, 73, 78, 70] 0 [] rest := by
  have hp : List.isPrefixOf [35, 69, 88, 84, 73, 78, 70]
      (35 :: ([69, 88, 84, 73, 78, 70] ++ rest)) = true :=
    List.isPrefixOf_iff_prefix.mpr ⟨rest, rfl⟩
  have := splitLoop_pass [35, 69, 88, 84, 73, 78, 70] [69, 88, 84, 73, 78, 70] [] rest
  rw [show ([35, 69, 88, 84, 73, 78, 70] : GoString) ++ rest
    = 35 :: ([69, 88, 84, 73, 78, 70] ++ rest) from rfl, splitLoop, if_pos hp]
  exact congrArg (cur :: ·) this

/-- The fragments of the replacement of a text are the replacements of the fragments
of the text. -/
theorem splitLoop_normalize : ∀ (n : Nat) (s : GoString), s.length ≤ n →
    ∀ (cur : GoString), Clean cur s →
      splitLoop [35, 69, 88, 84, 73, 78, 70] 0 (normalizeCRLF cur) (normalizeCRLF s)
        = (splitLoop [35, 69, 88, 84, 73, 78, 70] 0 cur s).map normalizeCRLF := by
  have hM : ∀ c ∈ ([35, 69, 88, 84, 73, 78, 70] : GoString), c ≠ 10 ∧ c ≠ 13 := by decide
  intro n
  induction n with
  | zero =>
    intro s hl cur _
    have : s = [] := List.length_eq_zero.mp (Nat.le_zero.mp hl)
    subst this
    simp [splitLoop, normalizeCRLF]
  | succ n ih =>
    intro s hl cur hc
    by_cases hp : List.isPrefixOf [35, 69, 88, 84, 73, 78, 70] s = true
    · obtain ⟨rest, rfl⟩ := List.isPrefixOf_iff_prefix.mp hp
      have hN : normalizeCRLF ([35, 69, 88, 84, 73, 78, 70] ++ rest)
          = [35, 69, 88, 84, 73, 78, 70] ++ normalizeCRLF rest := by
        rw [normalizeCRLF_append _ _ (by simp [Clean]),
          normalizeCRLF_of_no_cr _ (fun c hc => (hM c hc).2)]
      rw [hN, splitLoop_marker, splitLoop_marker, List.map_cons]
      congr 1
      have := ih rest (by simp only [List.length_append, List.length_cons,
        List.length_nil] at hl; omega) [] (clean_nil_left _)
      simpa [normalizeCRLF] using this
    · rcases crlf_cases s with rfl | ⟨cs, rfl⟩ | ⟨c, cs, rfl, hcc⟩
      · simp [splitLoop, normalizeCRLF]
      · have h1 : List.isPrefixOf [35, 69, 88, 84, 73, 78, 70] (13 :: 10 :: cs) = false := by
          simp [List.isPrefixOf]
        have h2 : List.isPrefixOf [35, 69, 88, 84, 73, 78, 70] (10 :: cs) = false := by
          simp [List.isPrefixOf]
        have h3 : List.isPrefixOf [35, 69, 88, 84, 73, 78, 70] (10 :: normalizeCRLF cs)
            = false := by
          simp [List.isPrefixOf]
        have := ih cs (by simp only [List.length_cons] at hl; omega) (cur ++ [13, 10])
          (by simp [Clean])
        rw [normalizeCRLF_concat_crlf] at this
        rw [normalizeCRLF_crlf, splitLoop, splitLoop, splitLoop, h1, h2, h3]
        simp only [Bool.false_eq_true, if_false, List.append_assoc, List.singleton_append]
        exact this
      · have hp2 : List.isPrefixOf [35, 69, 88, 84, 73, 78, 70] (c :: normalizeCRLF cs)
            = false := by
          rw [← normalizeCRLF_cons c cs hcc, isPrefixOf_normalize _ hM]
          exact Bool.eq_false_iff.mpr hp
        have hc1 : Clean cur [c] := by
          rw [clean_cons] at hc ⊢
          exact hc
        have := ih cs (by simp only [List.length_cons] at hl; omega) (cur ++ [c])
          ((clean_concat cur c cs).mpr hcc)
        rw [normalizeCRLF_concat cur c hc1] at this
        rw [normalizeCRLF_cons c cs hcc, splitLoop, splitLoop, hp2]
        simp only [hp, Bool.false_eq_true, if_false]
        exact this

theorem Split_normalize (d : GoString) :
    strings.Split (normalizeCRLF d) (bytes "#EXTINF")
      = (strings.Split d (bytes "#EXTINF")).map normalizeCRLF := by
  unfold strings.Split
  rw [bytes_marker]
  have := splitLoop_normalize d.length d (Nat.le_refl _) [] (clean_nil_left d)
  simpa [normalizeCRLF] using this

/-! ## Line endings: the record of a block -/

theorem crlfSafe_patterns :
    (crlfSafe tvgIDRegex = true ∧ headNotLF tvgIDRegex = true) ∧
    (crlfSafe urlRegex = true ∧ headNotLF urlRegex = true) ∧
    (crlfSafe licenseKeyRegex = true ∧ headNotLF licenseKeyRegex = true) ∧
    (crlfSafe userAgentRegex = true ∧ headNotLF userAgentRegex = true) := by
  decide

theorem FindString_urlRegex_normalize (sec : GoString) :
    regexp.FindString urlRegex (normalizeCRLF sec) = regexp.FindString urlRegex sec := by
  have h1 : regexp.FindString urlRegex (normalizeCRLF sec)
      = normalizeCRLF (regexp.FindString urlRegex sec) := by
    unfold regexp.FindString
    rw [FindStringSubmatch_normalize urlRegex crlfSafe_patterns.2.1.1
      crlfSafe_patterns.2.1.2]
    cases regexp.FindStringSubmatch urlRegex sec with
    | nil => rfl
    | cons m rest => rfl
  rw [h1]
  by_cases hnil : regexp.FindString urlRegex sec = []
  · rw [hnil]
    rfl
  · obtain ⟨pre, scheme, body, tail, post, _, f2, f3, _, f5, _⟩ :=
      FindString_urlRegex_spec sec hnil
    apply normalizeCRLF_of_no_cr
    intro c hc
    have : notReSpace c = true := by
      rw [f2] at hc
      simp only [List.mem_append] at hc
      rcases hc with (hc | hc) | hc
      · rcases f3 with rfl | rfl
        · exact notReSpace_scheme_mpd.1 c hc
        · exact notReSpace_scheme_mpd.2.1 c hc
      · exact f5 c hc
      · exact notReSpace_scheme_mpd.2.2 c hc
    intro h13
    rw [h13] at this
    revert this
    decide

theorem get?_succ_tail {α : Type} (l : List α) (n : Nat) : l.get? (n + 1) = l.tail.get? n := by
  cases l <;> rfl

theorem map_tail_fixed (l : List GoString) (h : ∀ v ∈ l.tail, normalizeCRLF v = v) :
    (l.map normalizeCRLF).tail = l.tail := by
  cases l with
  | nil => rfl
  | cons x xs =>
    simp only [List.map_cons, List.tail_cons] at h ⊢
    conv_rhs => rw [← List.map_id xs]
    exact List.map_congr_left (fun v hv => h v hv)

theorem get?_map_fixed (l : List GoString) (h : ∀ v ∈ l.tail, normalizeCRLF v = v)
    (n : Nat) : (l.map normalizeCRLF).get? (n + 1) = l.get? (n + 1) := by
  rw [get?_succ_tail, get?_succ_tail, map_tail_fixed l h]

theorem licenseKeyLoop_map (ms : List (List GoString)) :
    (∀ m ∈ ms, ∀ v ∈ m.tail, normalizeCRLF v = v) →
    ∀ (i : Nat) (ks : KeyVars),
      licenseKeyLoop i (ms.map (List.map normalizeCRLF)) ks = licenseKeyLoop i ms ks := by
  induction ms with
  | nil => intro _ i ks; rfl
  | cons m rest ih =>
    intro h i ks
    have hm := h m (List.mem_cons_self _ _)
    have hrest := ih (fun m2 hm2 => h m2 (List.mem_cons_of_mem _ hm2))
    have e1 : index (m.map normalizeCRLF) 1 = index m 1 := by
      unfold index
      rw [get?_map_fixed m hm 0]
    have e2 : index (m.map normalizeCRLF) 2 = index m 2 := by
      unfold index
      rw [get?_map_fixed m hm 1]
    simp only [List.map_cons, licenseKeyLoop, e1, e2, hrest]

theorem blockID_normalize (sec : GoString) (h : CapturesWithoutCRLF sec) :
    blockID (normalizeCRLF sec) = blockID sec := by
  have hfix : ∀ v ∈ (regexp.FindStringSubmatch tvgIDRegex sec).tail, normalizeCRLF v = v :=
    fun v hv => normalizeCRLF_of_no_crlf v (h.1 v hv)
  have hlen : (normalizeCRLF sec).length = 0 ↔ sec.length = 0 := by
    rw [List.length_eq_zero, List.length_eq_zero]
    exact normalizeCRLF_eq_nil sec
  unfold blockID
  rw [FindString_urlRegex_normalize,
    FindStringSubmatch_normalize tvgIDRegex crlfSafe_patterns.1.1 crlfSafe_patterns.1.2,
    get?_map_fixed _ hfix 0, List.length_map]
  simp only [hlen]

theorem blockRecord_normalize (sec : GoString) (h : CapturesWithoutCRLF sec) :
    blockRecord (normalizeCRLF sec) = blockRecord sec := by
  have hfix : ∀ v ∈ (regexp.FindStringSubmatch userAgentRegex sec).tail,
      normalizeCRLF v = v :=
    fun v hv => normalizeCRLF_of_no_crlf v (h.2.1 v hv)
  have hkeys : ∀ m ∈ regexp.FindAllStringSubmatch licenseKeyRegex sec,
      ∀ v ∈ m.tail, normalizeCRLF v = v :=
    fun m hm v hv => normalizeCRLF_of_no_crlf v (h.2.2 m hm v hv)
  have hget : ((regexp.FindStringSubmatch userAgentRegex sec).map normalizeCRLF).getD 1 []
      = (regexp.FindStringSubmatch userAgentRegex sec).getD 1 [] := by
    simp only [List.getD_eq_getElem?_getD, ← List.get?_eq_getElem?]
    rw [get?_map_fixed _ hfix 0]
  simp only [blockRecord, FindString_urlRegex_normalize,
    FindStringSubmatch_normalize userAgentRegex crlfSafe_patterns.2.2.2.1
      crlfSafe_patterns.2.2.2.2,
    FindAllStringSubmatch_normalize licenseKeyRegex crlfSafe_patterns.2.2.1.1
      crlfSafe_patterns.2.2.1.2,
    licenseKeyLoop_map _ hkeys, hget, List.length_map]

/-- A block that is skipped is skipped after the replacement. -/
theorem blockID_normalize_none (sec : GoString) (h : blockID sec = none) :
    blockID (normalizeCRLF sec) = none := by
  have hlen : (normalizeCRLF sec).length = 0 ↔ sec.length = 0 := by
    rw [List.length_eq_zero, List.length_eq_zero]
    exact normalizeCRLF_eq_nil sec
  unfold blockID at h ⊢
  rw [FindString_urlRegex_normalize,
    FindStringSubmatch_normalize tvgIDRegex crlfSafe_patterns.1.1 crlfSafe_patterns.1.2,
    List.length_map]
  simp only [hlen]
  split_ifs at h ⊢ with h1 h2
  · rfl
  · rw [List.get?_eq_getElem?, List.getElem?_map, ← List.get?_eq_getElem?, h]
    rfl
  · rfl

theorem stepSection_normalize (streams : StreamMap) (sec : GoString)
    (h : ∀ id, Qualifying sec id → CapturesWithoutCRLF sec) :
    stepSection streams (normalizeCRLF sec) = stepSection streams sec := by
  cases hb : blockID sec with
  | none =>
    unfold stepSection
    rw [blockID_normalize_none sec hb, hb]
  | some id =>
    have hc := h id ((blockID_eq_some_iff sec id).mp hb)
    unfold stepSection
    rw [blockID_normalize sec hc, blockRecord_normalize sec hc]

theorem foldl_stepSection_normalize (l : List GoString)
    (h : ∀ sec ∈ l, ∀ id, Qualifying sec id → CapturesWithoutCRLF sec) :
    ∀ (streams : StreamMap),
      (l.map normalizeCRLF).foldl stepSection streams = l.foldl stepSection streams := by
  induction l with
  | nil => intro streams; rfl
  | cons sec rest ih =>
    intro streams
    simp only [List.map_cons, List.foldl_cons]
    rw [stepSection_normalize streams sec (h sec (List.mem_cons_self _ _))]
    exact ih (fun s hs => h s (List.mem_cons_of_mem _ hs)) _

/-- The caller hands the extractor the file content with every `"\r\n"` replaced by
`"\n"` (lines 156 and 159 of the source). -/
theorem mainStreams_eq (d : GoString) :
    mainStreams d = parseM3UContent (strings.ReplaceAll d (bytes "\r\n") (bytes "\n")) :=
  rfl

/-- The replacement of line 156 is one pass over the text: a `'\r'` that does not stand
right before a `'\n'` stays, and a `"\r\n"` can be left behind. -/
theorem ReplaceAll_one_pass :
    strings.ReplaceAll (bytes "a\r\r\nb\rc") (bytes "\r\n") (bytes "\n")
      = bytes "a\r\nb\rc" := by
  decide

set_option maxRecDepth 100000 in
/-- The blocks of a playlist with `"\r\n"` line endings, a key pair and a user agent:
none of the captured values holds `"\r\n"`. -/
theorem crlf_playlist_captures :
    ∀ sec ∈ strings.Split (bytes ("#EXTM3U\r\n#EXTINF:-1 tvg-id=\"a\",A\r\n"
        ++ "#KODIPROP:inputstream.adaptive.license_key="
        ++ "\x7b\"keys\":[\x7b\"k\":\"QUFB\",\"kid\":\"QkJC\"\x7d]\x7d\r\n"
        ++ "#EXTVLCOPT:http-user-agent=\"UA\"\r\nhttp://h/a.mpd\r\n"))
      (bytes "#EXTINF"), CapturesWithoutCRLF sec := by
  simp only [CapturesWithoutCRLF]
  decide

/-- C15 (amended): the extractor does not replace `"\r\n"` itself (line 156 of `main`
does), but outside the captured values the replacement makes no difference to it.  For
every document `d` in which no value captured between quotes in a block that qualifies
(the identifier, the user agent, the `k` and the `kid` of a key pair) holds `"\r\n"`,
`parseM3UContent(d)` equals `parseM3UContent(d')`, where `d'` is `d` with every
`"\r\n"` replaced by `"\n"`. -/
theorem parseM3UContent_crlf (d : GoString)
    (h : ∀ sec ∈ strings.Split d (bytes "#EXTINF"),
      ∀ id, Qualifying sec id → CapturesWithoutCRLF sec) :
    parseM3UContent d
      = parseM3UContent (strings.ReplaceAll d (bytes "\r\n") (bytes "\n")) := by
  rw [ReplaceAll_crlf, parseM3UContent_eq, parseM3UContent_eq, Split_normalize,
    foldl_stepSection_normalize _ h]

set_option maxRecDepth 100000 in
theorem parseM3UContent_crlf_witness :
    (∀ sec ∈ strings.Split (bytes ("#EXTM3U\r\n#EXTINF:-1 tvg-id=\"a\",A\r\n"
        ++ "#KODIPROP:inputstream.adaptive.license_key="
        ++ "\x7b\"keys\":[\x7b\"k\":\"QUFB\",\"kid\":\"QkJC\"\x7d]\x7d\r\n"
        ++ "#EXTVLCOPT:http-user-agent=\"UA\"\r\nhttp://h/a.mpd\r\n"))
      (bytes "#EXTINF"), ∀ id, Qualifying sec id → CapturesWithoutCRLF sec) ∧
    parseM3UContent (bytes ("#EXTM3U\r\n#EXTINF:-1 tvg-id=\"a\",A\r\n"
        ++ "#KODIPROP:inputstream.adaptive.license_key="
        ++ "\x7b\"keys\":[\x7b\"k\":\"QUFB\",\"kid\":\"QkJC\"\x7d]\x7d\r\n"
        ++ "#EXTVLCOPT:http-user-agent=\"UA\"\r\nhttp://h/a.mpd\r\n"))
      = parseM3UContent (strings.ReplaceAll
          (bytes ("#EXTM3U\r\n#EXTINF:-1 tvg-id=\"a\",A\r\n"
            ++ "#KODIPROP:inputstream.adaptive.license_key="
            ++ "\x7b\"keys\":[\x7b\"k\":\"QUFB\",\"kid\":\"QkJC\"\x7d]\x7d\r\n"
            ++ "#EXTVLCOPT:http-user-agent=\"UA\"\r\nhttp://h/a.mpd\r\n"))
          (bytes "\r\n") (bytes "\n")) ∧
    strings.ReplaceAll (bytes ("#EXTM3U\r\n#EXTINF:-1 tvg-id=\"a\",A\r\n"
        ++ "#KODIPROP:inputstream.adaptive.license_key="
        ++ "\x7b\"keys\":[\x7b\"k\":\"QUFB\",\"kid\":\"QkJC\"\x7d]\x7d\r\n"
        ++ "#EXTVLCOPT:http-user-agent=\"UA\"\r\nhttp://h/a.mpd\r\n"))
        (bytes "\r\n") (bytes "\n")
      = bytes ("#EXTM3U\n#EXTINF:-1 tvg-id=\"a\",A\n"
        ++ "#KODIPROP:inputstream.adaptive.license_key="
        ++ "\x7b\"keys\":[\x7b\"k\":\"QUFB\",\"kid\":\"QkJC\"\x7d]\x7d\n"
        ++ "#EXTVLCOPT:http-user-agent=\"UA\"\nhttp://h/a.mpd\n") ∧
    parseM3UContent (bytes ("#EXTM3U\r\n#EXTINF:-1 tvg-id=\"a\",A\r\n"
        ++ "#KODIPROP:inputstream.adaptive.license_key="
        ++ "\x7b\"keys\":[\x7b\"k\":\"QUFB\",\"kid\":\"QkJC\"\x7d]\x7d\r\n"
        ++ "#EXTVLCOPT:http-user-agent=\"UA\"\r\nhttp://h/a.mpd\r\n"))
      = .ok [(bytes "a",
          { URL := bytes "http://h/a.mpd"
            Key1 := bytes "424242:414141"
            Key2 := []
            Key3 := []
            Key4 := []
            UserAgent := bytes "UA"
            Authorization := []
            Proxy := []
            ShakaPackager := false
            Resolution := bytes "1280" })] :=
  ⟨fun sec hs _ _ => crlf_playlist_captures sec hs,
    parseM3UContent_crlf _ (fun sec hs _ _ => crlf_playlist_captures sec hs),
    by decide, by rfl⟩

/-- C15 as stated fails: `parseM3UContent` does not normalise.  For the document `d`
whose identifier holds `"\r\n"` between its quotes, `parseM3UContent(d)` has the key
`"a\r\nb"`, and `parseM3UContent(d')` has the key `"a\nb"`. -/
theorem parseM3UContent_keeps_crlf :
    strings.ReplaceAll (bytes "#EXTINF:-1 tvg-id=\"a\r\nb\"\r\nhttp://h/a.mpd\r\n")
        (bytes "\r\n") (bytes "\n")
      = bytes "#EXTINF:-1 tvg-id=\"a\nb\"\nhttp://h/a.mpd\n" ∧
    (∃ r, parseM3UContent (bytes "#EXTINF:-1 tvg-id=\"a\r\nb\"\r\nhttp://h/a.mpd\r\n")
      = .ok [(bytes "a\r\nb", r)]) ∧
    (∃ r, parseM3UContent (bytes "#EXTINF:-1 tvg-id=\"a\nb\"\nhttp://h/a.mpd\n")
      = .ok [(bytes "a\nb", r)]) ∧
    parseM3UContent (bytes "#EXTINF:-1 tvg-id=\"a\r\nb\"\r\nhttp://h/a.mpd\r\n")
      ≠ parseM3UContent (bytes "#EXTINF:-1 tvg-id=\"a\nb\"\nhttp://h/a.mpd\n") := by
  refine ⟨by decide, ⟨_, rfl⟩, ⟨_, rfl⟩, ?_⟩
  intro h
  have hk := congrArg
    (fun e : Except Panic StreamMap =>
      match e with
      | .ok m => m.map Prod.fst
      | .error _ => []) h
  revert hk
  decide

/-- The same holds of the user agent: a `"\r\n"` between its quotes is kept by
`parseM3UContent(d)` and is `"\n"` in `parseM3UContent(d')`. -/
theorem user_agent_keeps_crlf :
    (∃ r, parseM3UContent (bytes ("#EXTINF:-1 tvg-id=\"a\"\r\n"
          ++ "#EXTVLCOPT:http-user-agent=\"x\r\ny\"\r\nhttp://h/a.mpd\r\n"))
        = .ok [(bytes "a", r)] ∧ r.UserAgent = bytes "x\r\ny") ∧
    (∃ r, parseM3UContent (strings.ReplaceAll (bytes ("#EXTINF:-1 tvg-id=\"a\"\r\n"
          ++ "#EXTVLCOPT:http-user-agent=\"x\r\ny\"\r\nhttp://h/a.mpd\r\n"))
          (bytes "\r\n") (bytes "\n"))
        = .ok [(bytes "a", r)] ∧ r.UserAgent = bytes "x\ny") :=
  ⟨⟨_, rfl, by decide⟩, ⟨_, rfl, by decide⟩⟩

/-- The same holds of the values of a key pair: the padding that `base64ToHex` adds
goes by the length of the value, `"\r\n"` included.  The value `"QUFB\r\n\r\nQUFB"` (12
bytes) is decoded as it is, the value `"QUFB\n\nQUFB"` (10 bytes) gets `"=="` added and
is rejected, so the key of `d` is missing in `parseM3UContent(d')`. -/
theorem key_value_crlf_changes_padding :
    (∃ r, parseM3UContent (bytes ("#EXTINF:-1 tvg-id=\"a\"\r\n"
          ++ "\"k\":\"QUFB\r\n\r\nQUFB\",\"kid\":\"QkJC\"\r\nhttp://h/a.mpd\r\n"))
        = .ok [(bytes "a", r)] ∧ r.Key1 = bytes "424242:414141414141") ∧
    (∃ r, parseM3UContent (strings.ReplaceAll (bytes ("#EXTINF:-1 tvg-id=\"a\"\r\n"
          ++ "\"k\":\"QUFB\r\n\r\nQUFB\",\"kid\":\"QkJC\"\r\nhttp://h/a.mpd\r\n"))
          (bytes "\r\n") (bytes "\n"))
        = .ok [(bytes "a", r)] ∧ r.Key1 = []) :=
  ⟨⟨_, rfl, by decide⟩, ⟨_, rfl, by decide⟩⟩

/-! ## Documents put together -/

/-- No occurrence of the marker starts inside a text and ends inside a marker that
follows the text: the marker is a prefix of `c :: cs ++ "#EXTINF" ++ d` only when it
is a prefix of `c :: cs`. -/
theorem isPrefixOf_marker_append (c : Nat) (cs d : GoString) :
    List.isPrefixOf [35, 69, 88, 84, 73, 78, 70] (c :: cs ++ ([35, 69, 88, 84, 73, 78, 70] ++ d))
      = List.isPrefixOf [35, 69, 88, 84, 73, 78, 70] (c :: cs) := by
  rcases cs with _ | ⟨c1, _ | ⟨c2, _ | ⟨c3, _ | ⟨c4, _ | ⟨c5, _ | ⟨c6, cs⟩⟩⟩⟩⟩⟩ <;>
    simp [List.isPrefixOf]

theorem length_of_isPrefixOf_marker (s : GoString)
    (h : List.isPrefixOf [35, 69, 88, 84, 73, 78, 70] s = true) : 7 ≤ s.length := by
  have := (List.isPrefixOf_iff_prefix.mp h).length_le
  simpa using this

/-- The fragments of a text followed by the marker and a second text are the
fragments of the first text, then those of the second. -/
theorem splitLoop_append_marker (d : GoString) (s : GoString) :
    ∀ (skip : Nat) (cur : GoString), skip ≤ s.length →
      splitLoop [35, 69, 88, 84, 73, 78, 70] skip cur (s ++ ([35, 69, 88, 84, 73, 78, 70] ++ d))
        = splitLoop [35, 69, 88, 84, 73, 78, 70] skip cur s
          ++ splitLoop [35, 69, 88, 84, 73, 78, 70] 0 [] d := by
  induction s with
  | nil =>
    intro skip cur h
    have h0 : skip = 0 := by simpa using h
    subst h0
    simp [splitLoop, List.isPrefixOf]
  | cons c cs ih =>
    intro skip cur h
    cases skip with
    | succ k =>
      simp only [List.cons_append, splitLoop]
      exact ih k cur (by simp only [List.length_cons] at h; omega)
    | zero =>
      rw [List.cons_append, splitLoop, splitLoop]
      have hp := isPrefixOf_marker_append c cs d
      rw [List.cons_append] at hp
      rw [hp]
      by_cases hb : List.isPrefixOf [35, 69, 88, 84, 73, 78, 70] (c :: cs) = true
      · have hl := length_of_isPrefixOf_marker _ hb
        simp only [hb, if_true, List.cons_append]
        congr 1
        exact ih _ [] (by simp only [List.length_cons, List.length_nil] at hl ⊢; omega)
      · simp only [hb, Bool.false_eq_true, if_false]
        exact ih 0 _ (Nat.zero_le _)

theorem split_append_marker (d1 d : GoString) :
    strings.Split (d1 ++ (bytes "#EXTINF" ++ d)) (bytes "#EXTINF")
      = strings.Split d1 (bytes "#EXTINF") ++ strings.Split d (bytes "#EXTINF") := by
  unfold strings.Split
  rw [bytes_marker]
  exact splitLoop_append_marker d d1 0 [] (Nat.zero_le _)

theorem split_marker_append (d : GoString) :
    strings.Split (bytes "#EXTINF" ++ d) (bytes "#EXTINF")
      = [] :: strings.Split d (bytes "#EXTINF") := by
  have := split_append_marker [] d
  simp only [List.nil_append] at this
  rw [this]
  rfl

theorem mapGet_stepSection (m : StreamMap) (sec id : GoString) :
    mapGet (stepSection m sec) id =
      match mapGet (stepSection [] sec) id with
      | some r => some r
      | none => mapGet m id := by
  unfold stepSection
  cases blockID sec with
  | none => simp [mapGet]
  | some k =>
    simp only [mapGet_mapSet]
    by_cases hk : k = id
    · simp [hk]
    · simp [hk, mapGet]

/-- The loop started on a map `m` gives the entries of the loop started on the empty
map, and the entries of `m` under the other identifiers. -/
theorem mapGet_foldl_stepSection (secs : List GoString) (id : GoString) :
    ∀ (m : StreamMap), mapGet (secs.foldl stepSection m) id =
      match mapGet (secs.foldl stepSection []) id with
      | some r => some r
      | none => mapGet m id := by
  induction secs with
  | nil => intro m; simp [mapGet]
  | cons sec rest ih =>
    intro m
    rw [List.foldl_cons, List.foldl_cons, ih (stepSection m sec), ih (stepSection [] sec),
      mapGet_stepSection m sec id]
    cases mapGet (rest.foldl stepSection []) id with
    | some r => rfl
    | none => rfl

/-- C16: compositionality over blocks.  For all documents `d1` and `d2` where `d2`
begins with `"#EXTINF"`, the map of `d1 ++ d2` is the right-biased union of the maps
of `d1` and of `d2`: under every identifier it holds the entry of the map of `d2`
when there is one, and otherwise what the map of `d1` holds (its keys are
distinct). -/
theorem parseM3UContent_append (d1 d2 : GoString) (h : bytes "#EXTINF" <+: d2) :
    ∃ m1 m2 m12, parseM3UContent d1 = .ok m1 ∧ parseM3UContent d2 = .ok m2 ∧
      parseM3UContent (d1 ++ d2) = .ok m12 ∧
      (m12.map Prod.fst).Nodup ∧
      ∀ id, mapGet m12 id =
        match mapGet m2 id with
        | some r => some r
        | none => mapGet m1 id := by
  obtain ⟨d, rfl⟩ := h
  refine ⟨_, _, _, parseM3UContent_eq d1, parseM3UContent_eq _, parseM3UContent_eq _,
    nodup_foldl_stepSection _ [] (by simp), ?_⟩
  intro id
  rw [split_append_marker, split_marker_append, List.foldl_append, List.foldl_cons]
  have h0 : stepSection [] [] = [] := by
    unfold stepSection; rw [blockID_nil]
  rw [h0]
  exact mapGet_foldl_stepSection _ id _

theorem parseM3UContent_append_witness :
    ∃ m1 m2 m12,
      parseM3UContent (bytes "#EXTINF:-1 tvg-id=\"a\"\nhttp://h/a.mpd\n") = .ok m1 ∧
      parseM3UContent (bytes "#EXTINF:-1 tvg-id=\"a\"\nhttp://h/b.mpd\n") = .ok m2 ∧
      parseM3UContent (bytes "#EXTINF:-1 tvg-id=\"a\"\nhttp://h/a.mpd\n"
        ++ bytes "#EXTINF:-1 tvg-id=\"a\"\nhttp://h/b.mpd\n") = .ok m12 ∧
      (m12.map Prod.fst).Nodup ∧
      ∀ id, mapGet m12 id =
        match mapGet m2 id with
        | some r => some r
        | none => mapGet m1 id :=
  parseM3UContent_append (bytes "#EXTINF:-1 tvg-id=\"a\"\nhttp://h/a.mpd\n")
    (bytes "#EXTINF:-1 tvg-id=\"a\"\nhttp://h/b.mpd\n") (by decide)

/-! ## The format of the key slots -/

theorem findAll_licenseKey_length (sec : GoString) :
    ∀ m ∈ regexp.FindAllStringSubmatch licenseKeyRegex sec, m.length = 3 := by
  intro m hm
  have := findAllLoop_length licenseKeyRegex sec 0 m hm
  rw [numSubexp_licenseKeyRegex] at this
  exact this

/-- Slot `n` of the record of a block is the formatted pair of the key-pair match
of index `n`, when there is one and it decodes, and is empty otherwise. -/
theorem blockRecord_keySlot (sec : GoString) (n : Nat) (hn : n < 4) :
    (blockRecord sec).keySlot n =
      match (regexp.FindAllStringSubmatch licenseKeyRegex sec).get? n with
      | none => []
      | some m => (formatPair m).getD [] := by
  obtain ⟨ks, hks, hslot⟩ :=
    licenseKeyLoop_spec _ (findAll_licenseKey_length sec) 0 ⟨[], [], [], []⟩
  have hr : (blockRecord sec).keySlot n = ks.slot n := by
    unfold blockRecord
    simp only [hks]
    interval_cases n <;> rfl
  have h0 : (⟨[], [], [], []⟩ : KeyVars).slot n = [] := by
    interval_cases n <;> rfl
  have hs := hslot n hn
  rw [if_neg (by omega), Nat.sub_zero, h0] at hs
  rw [hr, hs]

/-- A successful `base64ToHex` returns an even number of lowercase hexadecimal
digits. -/
theorem base64ToHex_ok_hex (input : GoString) (h : (base64ToHex input).2 = none) :
    (base64ToHex input).1.length % 2 = 0 ∧
      ∀ c ∈ (base64ToHex input).1, isLowerHex c = true := by
  unfold base64ToHex at h ⊢
  cases hd : base64.DecodeString (padInput input) with
  | error e => rw [hd] at h; cases h
  | ok decoded =>
    have hlt : ∀ b ∈ decoded, b < 256 := decodeLoop_lt _ 0 [] decoded hd
    obtain ⟨h1, h2⟩ := hex_EncodeToString_spec decoded hlt
    refine ⟨?_, h2⟩
    simp only []
    omega

theorem count_colon_of_hex (a : GoString) (h : ∀ c ∈ a, isLowerHex c = true) :
    a.count 58 = 0 := by
  rw [List.count_eq_zero]
  intro hm
  have := h 58 hm
  revert this
  decide

/-- C18: key slot format.  For every document and every record of the returned
map, each of `key1..key4` is empty or of the form `a ++ ":" ++ b` with `a` and `b` of
even length over `0-9a-f`, and then holds exactly one `':'`; a slot is not empty if
and only if the block has a key-pair match of that index and both of its (trimmed)
values decode. -/
theorem parseM3UContent_key_format (content : GoString) :
    ∃ m, parseM3UContent content = .ok m ∧
      ∀ id r, (id, r) ∈ m →
        ∃ sec ∈ strings.Split content (bytes "#EXTINF"), Qualifying sec id ∧
          ∀ n, n < 4 →
            (r.keySlot n = [] ∨
              ∃ a b, r.keySlot n = a ++ bytes ":" ++ b ∧
                a.length % 2 = 0 ∧ b.length % 2 = 0 ∧
                (∀ c ∈ a, isLowerHex c = true) ∧ (∀ c ∈ b, isLowerHex c = true) ∧
                (r.keySlot n).count 58 = 1) ∧
            (r.keySlot n ≠ [] ↔
              ∃ whole k kid,
                (regexp.FindAllStringSubmatch licenseKeyRegex sec).get? n
                  = some [whole, k, kid] ∧
                (base64ToHex (strings.TrimSpace kid)).2 = none ∧
                (base64ToHex (strings.TrimSpace k)).2 = none) := by
  obtain ⟨m, hm, h⟩ := parseM3UContent_entries content
  refine ⟨m, hm, ?_⟩
  intro id r hr
  obtain ⟨sec, hsec, hq, rfl⟩ := h id r hr
  refine ⟨sec, hsec, hq, ?_⟩
  intro n hn
  have hc : bytes ":" = [58] := by decide
  rw [blockRecord_keySlot sec n hn]
  cases hg : (regexp.FindAllStringSubmatch licenseKeyRegex sec).get? n with
  | none =>
    simp only
    refine ⟨Or.inl (by trivial), ?_⟩
    constructor
    · intro hne; exact absurd (by trivial) hne
    · rintro ⟨_, _, _, h1, _⟩; cases h1
  | some mtch =>
    have hlen : mtch.length = 3 := findAll_licenseKey_length sec mtch (List.get?_mem hg)
    match mtch, hlen with
    | [whole, k, kid], _ =>
      simp only [formatPair, List.getD_cons_succ, List.getD_cons_zero]
      by_cases hd : (base64ToHex (strings.TrimSpace kid)).2 = none ∧
          (base64ToHex (strings.TrimSpace k)).2 = none
      · rw [if_pos hd]
        obtain ⟨a1, a2⟩ := base64ToHex_ok_hex _ hd.1
        obtain ⟨b1, b2⟩ := base64ToHex_ok_hex _ hd.2
        simp only [Option.getD_some]
        constructor
        · right
          refine ⟨_, _, rfl, a1, b1, a2, b2, ?_⟩
          rw [hc, List.count_append, List.count_append, count_colon_of_hex _ a2,
            count_colon_of_hex _ b2]
          rfl
        · constructor
          · intro _
            exact ⟨whole, k, kid, rfl, hd.1, hd.2⟩
          · intro _
            rw [hc]
            simp
      · rw [if_neg hd]
        simp only [Option.getD_none]
        refine ⟨Or.inl (by trivial), ?_⟩
        constructor
        · intro hne; exact absurd (by trivial) hne
        · rintro ⟨w2, k2, kid2, h1, h2, h3⟩
          simp only [Option.some.injEq, List.cons.injEq, and_true] at h1
          obtain ⟨_, rfl, rfl⟩ := h1
          exact absurd ⟨h2, h3⟩ hd

/-! ## The identifier attribute -/

/-- A greedy repetition over a run of the class that ends before a byte outside the
class stops there, when the rest of the pattern matches there. -/
theorem starLoop_run {α : Type} (p : Nat → Bool) (k : Nat → GoString → Option α)
    (c : Nat) (rest : GoString) (r : α) (hc : p c = false) :
    ∀ (xs : GoString) (pos : Nat), (∀ x ∈ xs, p x = true) →
      k (pos + xs.length) (c :: rest) = some r →
      starLoop p k pos (xs ++ c :: rest) = some r := by
  intro xs
  induction xs with
  | nil =>
    intro pos _ hk
    simp only [List.nil_append, starLoop, hc, Bool.false_eq_true, if_false]
    simpa using hk
  | cons x xs ih =>
    intro pos hp hk
    have hx : p x = true := hp x (List.mem_cons_self _ _)
    have := ih (pos + 1) (fun y hy => hp y (List.mem_cons_of_mem _ hy))
      (by rw [← hk, List.length_cons]; congr 1; omega)
    rw [List.cons_append, starLoop, if_pos hx, this]

/-- The match of the identifier pattern at a text `tvg-id="X"` with a non-empty `X`
free of quotes: the whole attribute, with the capture `X`. -/
theorem tvgIDRegex_match_exact (X post : GoString) (hX : X ≠ []) (hq : ∀ c ∈ X, c ≠ 34) :
    ∃ e caps,
      matchAtoms tvgIDRegex 0 [] [] (bytes "tvg-id=\"" ++ X ++ bytes "\"" ++ post)
        = some (e, caps) ∧
      submatches (bytes "tvg-id=\"" ++ X ++ bytes "\"" ++ post) e caps
        = [bytes "tvg-id=\"" ++ X ++ bytes "\"", X] := by
  have e1 : bytes "tvg-id=\"" = [116, 118, 103, 45, 105, 100, 61, 34] := by decide
  have e2 : bytes "\"" = [34] := by decide
  have e3 : tvgIDRegex = [.lit 116, .lit 118, .lit 103, .lit 45, .lit 105, .lit 100,
      .star isReSpace, .lit 61, .star isReSpace, .lit 34, .groupOpen, .plus notQuote,
      .groupClose, .lit 34] := by
    simp only [tvgIDRegex, lits]
    rfl
  cases X with
  | nil => exact absurd rfl hX
  | cons x xs =>
    have hx : notQuote x = true := by
      have := hq x (List.mem_cons_self _ _)
      simp [notQuote, this]
    have hxs : ∀ c ∈ xs, notQuote c = true := by
      intro c hc
      have := hq c (List.mem_cons_of_mem _ hc)
      simp [notQuote, this]
    refine ⟨9 + xs.length + 1, [(8, 9 + xs.length)], ?_, ?_⟩
    · rw [e1, e2, e3]
      simp only [List.cons_append, List.nil_append, List.append_assoc, matchAtoms, starLoop,
        if_true, isReSpace, hx]
      simp only [Nat.reduceBEq, Bool.or_self, Bool.false_eq_true, ↓reduceIte]
      apply starLoop_run notQuote _ 34 post _ (by decide) xs _ hxs
      simp only [matchAtoms, List.nil_append, if_true, Option.some.injEq, Prod.mk.injEq,
        List.cons.injEq, and_true]
    · rw [e1, e2]
      simp only [submatches, List.map_cons, List.map_nil, List.cons_append, List.nil_append,
        List.append_assoc]
      have t1 : List.take (9 + xs.length + 1)
          (116 :: 118 :: 103 :: 45 :: 105 :: 100 :: 61 :: 34 :: x :: (xs ++ 34 :: post))
          = 116 :: 118 :: 103 :: 45 :: 105 :: 100 :: 61 :: 34 :: x :: (xs ++ [34]) := by
        have : 9 + xs.length + 1 = (xs.length + 1) + 9 := by omega
        rw [this]
        simp only [List.take_succ_cons, List.cons.injEq, true_and]
        have h2 : xs ++ 34 :: post = (xs ++ [34]) ++ post := by simp
        rw [h2]
        apply List.take_left'
        simp
      have t2 : List.take (9 + xs.length - 8) (List.drop 8
          (116 :: 118 :: 103 :: 45 :: 105 :: 100 :: 61 :: 34 :: x :: (xs ++ 34 :: post)))
          = x :: xs := by
        have : 9 + xs.length - 8 = xs.length + 1 := by omega
        rw [this]
        simp only [List.drop_succ_cons, List.drop_zero, List.take_succ_cons, List.cons.injEq,
          true_and]
        apply List.take_left'
        rfl
      rw [t1, t2]

theorem FindStringSubmatch_of_match (re : Regexp) (t : GoString) (e : Nat)
    (caps : List (Nat × Nat)) (h : matchAtoms re 0 [] [] t = some (e, caps)) :
    regexp.FindStringSubmatch re t = submatches t e caps := by
  cases t with
  | nil => rw [regexp.FindStringSubmatch, h]
  | cons c cs => rw [regexp.FindStringSubmatch, h]

theorem tvgIDRegex_eq : tvgIDRegex = (bytes "tvg-id").map Atom.lit ++
    (.star isReSpace :: ((bytes "=").map Atom.lit ++ (.star isReSpace ::
      ((bytes "\"").map Atom.lit ++ (.groupOpen :: .plus notQuote :: .groupClose ::
        ((bytes "\"").map Atom.lit ++ [])))))) := by
  simp only [tvgIDRegex, lits, List.append_assoc, List.cons_append, List.nil_append,
    List.append_nil]

/-- A match of the identifier pattern starts with the text `tvg-id`. -/
theorem tvgIDRegex_match_head (t : GoString) (r : Nat × List (Nat × Nat))
    (h : matchAtoms tvgIDRegex 0 [] [] t = some r) : bytes "tvg-id" <+: t := by
  rw [tvgIDRegex_eq] at h
  obtain ⟨t2, e1, _⟩ := matchAtoms_lits _ _ _ _ _ _ _ h
  exact ⟨t2, e1.symm⟩

/-- The first `tvg-id` attribute of a text is what `FindStringSubmatch` returns: when
the text `tvg-id` occurs nowhere before the attribute `tvg-id="X"`, the match is the
attribute and the capture is `X`. -/
theorem FindStringSubmatch_tvgID_first (X post1 : GoString) (hX : X ≠ [])
    (hq : ∀ c ∈ X, c ≠ 34) :
    ∀ (pre1 : GoString), ¬ bytes "tvg-id" <:+: pre1 ++ bytes "tvg-i" →
      regexp.FindStringSubmatch tvgIDRegex
          (pre1 ++ (bytes "tvg-id=\"" ++ X ++ bytes "\"" ++ post1))
        = [bytes "tvg-id=\"" ++ X ++ bytes "\"", X] := by
  intro pre1
  induction pre1 with
  | nil =>
    intro _
    obtain ⟨e, caps, h1, h2⟩ := tvgIDRegex_match_exact X post1 hX hq
    rw [List.nil_append, FindStringSubmatch_of_match _ _ _ _ h1, h2]
  | cons c pre ih =>
    intro hfirst
    have hpre : ¬ bytes "tvg-id" <:+: pre ++ bytes "tvg-i" := by
      intro hi
      apply hfirst
      rw [List.cons_append]
      exact hi.trans (List.suffix_cons c _).isInfix
    have hnone : matchAtoms tvgIDRegex 0 [] []
        (c :: (pre ++ (bytes "tvg-id=\"" ++ X ++ bytes "\"" ++ post1))) = none := by
      cases hm : matchAtoms tvgIDRegex 0 [] []
          (c :: (pre ++ (bytes "tvg-id=\"" ++ X ++ bytes "\"" ++ post1))) with
      | none => rfl
      | some r =>
        exfalso
        apply hfirst
        have hp := tvgIDRegex_match_head _ r hm
        have e5 : bytes "tvg-id=\"" = bytes "tvg-i" ++ bytes "d=\"" := by decide
        have hwhole : (c :: pre ++ bytes "tvg-i") <+:
            c :: (pre ++ (bytes "tvg-id=\"" ++ X ++ bytes "\"" ++ post1)) := by
          refine ⟨bytes "d=\"" ++ X ++ bytes "\"" ++ post1, ?_⟩
          rw [e5]
          simp only [List.cons_append, List.append_assoc]
        have hlen : (bytes "tvg-id").length ≤ (c :: pre ++ bytes "tvg-i").length := by
          have l1 : (bytes "tvg-id").length = 6 := by decide
          have l2 : (bytes "tvg-i").length = 5 := by decide
          simp only [List.cons_append, List.length_cons, List.length_append, l1, l2]
          omega
        exact (List.prefix_of_prefix_length_le hp hwhole hlen).isInfix
    rw [List.cons_append, regexp.FindStringSubmatch, hnone]
    exact ih hpre

/-! ## The text before the first marker -/

theorem split_of_no_marker (lead : GoString) (h : ¬ bytes "#EXTINF" <:+: lead) :
    strings.Split lead (bytes "#EXTINF") = [lead] := by
  unfold strings.Split
  rw [splitLoop_of_no_sep _ _ [] h, List.nil_append]

/-- The first fragment of a document is its text before the first marker. -/
theorem split_leading (lead tail : GoString) (hlead : ¬ bytes "#EXTINF" <:+: lead)
    (htail : tail = [] ∨ bytes "#EXTINF" <+: tail) :
    ∃ later, strings.Split (lead ++ tail) (bytes "#EXTINF") = lead :: later := by
  rcases htail with rfl | ⟨d, rfl⟩
  · exact ⟨[], by rw [List.append_nil, split_of_no_marker lead hlead]⟩
  · exact ⟨strings.Split d (bytes "#EXTINF"), by
      rw [split_append_marker, split_of_no_marker lead hlead]; rfl⟩

/-- The match that `FindStringSubmatch` returns is the one at the first position of the
text at which the pattern matches. -/
theorem FindStringSubmatch_at (re : Regexp) (t : GoString) (e : Nat)
    (caps : List (Nat × Nat)) (hm : matchAtoms re 0 [] [] t = some (e, caps)) :
    ∀ (pre : GoString),
      (∀ pre2 t2, pre ++ t = pre2 ++ t2 → pre2.length < pre.length →
        matchAtoms re 0 [] [] t2 = none) →
      regexp.FindStringSubmatch re (pre ++ t) = submatches t e caps := by
  intro pre
  induction pre with
  | nil =>
    intro _
    rw [List.nil_append]
    exact FindStringSubmatch_of_match re t e caps hm
  | cons c pre ih =>
    intro h
    have hnone : matchAtoms re 0 [] [] (c :: (pre ++ t)) = none :=
      h [] (c :: (pre ++ t)) rfl (by simp)
    rw [List.cons_append, regexp.FindStringSubmatch, hnone]
    apply ih
    intro pre2 t2 e2 hl
    exact h (c :: pre2) t2 (by rw [List.cons_append, e2, List.cons_append])
      (by simpa using hl)

/-- C19 (amended): text before the first entry marker is processed as a block.  Let
`lead` be the text of a document before its first `"#EXTINF"` (the whole text when the
marker does not occur).  When `lead` holds an attribute `tvg-id="X"` (`X` not empty,
without a quote) and a URL `http://u.mpd` or `https://u.mpd` (`u` not empty, without a
byte of the class `\s`), `lead` is the first block; the returned map has a record
under the capture `id` of the first `tvg-id` match of `lead`, which is `X` when the
pattern matches nowhere before the attribute; and when no later block qualifies under
`id`, it is the record built from `lead`. -/
theorem parseM3UContent_leading_fragment
    (content lead tail pre1 X post1 pre2 scheme u post2 : GoString)
    (hcontent : content = lead ++ tail)
    (hlead : ¬ bytes "#EXTINF" <:+: lead)
    (htail : tail = [] ∨ bytes "#EXTINF" <+: tail)
    (hid : lead = pre1 ++ (bytes "tvg-id=\"" ++ X ++ bytes "\"" ++ post1))
    (hX : X ≠ []) (hXq : ∀ c ∈ X, c ≠ 34)
    (hurl : lead = pre2 ++ (scheme ++ u ++ bytes ".mpd" ++ post2))
    (hscheme : scheme = bytes "http://" ∨ scheme = bytes "https://")
    (hu : u ≠ []) (huw : ∀ c ∈ u, isReSpace c = false) :
    ∃ later whole id m, strings.Split content (bytes "#EXTINF") = lead :: later ∧
      regexp.FindStringSubmatch tvgIDRegex lead = [whole, id] ∧
      ((∀ p t, lead = p ++ t → p.length < pre1.length →
          matchAtoms tvgIDRegex 0 [] [] t = none) → id = X) ∧
      parseM3UContent content = .ok m ∧
      (∃ r, mapGet m id = some r) ∧
      ((∀ sec ∈ later, ¬ Qualifying sec id) →
        ∃ r, processSection [] lead = .ok [(id, r)] ∧ mapGet m id = some r) := by
  obtain ⟨later, hsplit⟩ := split_leading lead tail hlead htail
  obtain ⟨id, hq⟩ := qualifying_of_text lead pre1 X post1 pre2 scheme u post2
    hid hX hXq hurl hscheme hu (fun c hc => by simp [notReSpace, huw c hc])
  obtain ⟨whole, hw⟩ := hq.2.1
  have hb : blockID lead = some id := (blockID_eq_some_iff lead id).mpr hq
  have hstep : stepSection [] lead = [(id, blockRecord lead)] := by
    simp only [stepSection, hb, mapSet]
  refine ⟨later, whole, id, _, by rw [hcontent]; exact hsplit, hw, ?_,
    parseM3UContent_eq content, ?_, ?_⟩
  · intro hfirst
    obtain ⟨e, caps, h1, h2⟩ := tvgIDRegex_match_exact X post1 hX hXq
    have := FindStringSubmatch_at tvgIDRegex _ e caps h1 pre1
      (fun p t e2 hl => hfirst p t (by rw [hid, e2]) hl)
    rw [← hid, hw, h2] at this
    simp only [List.cons.injEq, and_true] at this
    exact this.2
  · rw [hcontent, hsplit, List.foldl_cons, hstep, mapGet_foldl_stepSection]
    cases mapGet (later.foldl stepSection []) id with
    | some r => exact ⟨r, rfl⟩
    | none => exact ⟨blockRecord lead, by simp [mapGet]⟩
  · intro hlater
    refine ⟨blockRecord lead, ?_, ?_⟩
    · rw [processSection_eq, hstep]
    · rw [hcontent, hsplit]
      have := mapGet_foldl_last [] later lead id [] hb
        (fun sec hs h => hlater sec hs ((blockID_eq_some_iff sec id).mp h))
      simpa using this

theorem parseM3UContent_leading_fragment_witness :
    (∃ later whole id m,
      strings.Split (bytes "#EXTM3U tvg-id-x tvg-id=\"x\" http://h/a.mpd\n#EXTINF:-1,B\n")
          (bytes "#EXTINF")
        = bytes "#EXTM3U tvg-id-x tvg-id=\"x\" http://h/a.mpd\n" :: later ∧
      regexp.FindStringSubmatch tvgIDRegex
          (bytes "#EXTM3U tvg-id-x tvg-id=\"x\" http://h/a.mpd\n") = [whole, id] ∧
      ((∀ p t, bytes "#EXTM3U tvg-id-x tvg-id=\"x\" http://h/a.mpd\n" = p ++ t →
          p.length < (bytes "#EXTM3U tvg-id-x ").length →
          matchAtoms tvgIDRegex 0 [] [] t = none) → id = bytes "x") ∧
      parseM3UContent (bytes "#EXTM3U tvg-id-x tvg-id=\"x\" http://h/a.mpd\n#EXTINF:-1,B\n")
        = .ok m ∧
      (∃ r, mapGet m id = some r) ∧
      ((∀ sec ∈ later, ¬ Qualifying sec id) →
        ∃ r, processSection [] (bytes "#EXTM3U tvg-id-x tvg-id=\"x\" http://h/a.mpd\n")
            = .ok [(id, r)] ∧
          mapGet m id = some r)) ∧
    regexp.FindStringSubmatch tvgIDRegex
        (bytes "#EXTM3U tvg-id-x tvg-id=\"x\" http://h/a.mpd\n")
      = [bytes "tvg-id=\"x\"", bytes "x"] ∧
    ∃ r, parseM3UContent (bytes "#EXTM3U tvg-id-x tvg-id=\"x\" http://h/a.mpd\n#EXTINF:-1,B\n")
        = .ok [(bytes "x", r)] ∧ r.URL = bytes "http://h/a.mpd" :=
  ⟨parseM3UContent_leading_fragment
    (bytes "#EXTM3U tvg-id-x tvg-id=\"x\" http://h/a.mpd\n#EXTINF:-1,B\n")
    (bytes "#EXTM3U tvg-id-x tvg-id=\"x\" http://h/a.mpd\n") (bytes "#EXTINF:-1,B\n")
    (bytes "#EXTM3U tvg-id-x ") (bytes "x") (bytes " http://h/a.mpd\n")
    (bytes "#EXTM3U tvg-id-x tvg-id=\"x\" ") (bytes "http://") (bytes "h/a") (bytes "\n")
    (by decide) (by decide) (Or.inr (by decide)) (by decide) (by decide) (by decide)
    (by decide) (Or.inl rfl) (by decide) (by decide),
   by decide, _, rfl, by decide⟩

/-- C19 as stated fails: the record is not always one for `X`.  The text below holds no
marker, so it is the leading fragment; it holds the attribute `tvg-id="X"` and a URL,
but the first `tvg-id` match is `tvg-id="A"`: the only record is under `A`, and the map
has none under `X`. -/
theorem leading_fragment_recorded_under_first_match :
    ¬ bytes "#EXTINF" <:+: bytes "#EXTM3U tvg-id=\"A\" tvg-id=\"X\" http://h/a.mpd" ∧
    bytes "#EXTM3U tvg-id=\"A\" tvg-id=\"X\" http://h/a.mpd"
      = bytes "#EXTM3U tvg-id=\"A\" " ++ bytes "tvg-id=\"X\"" ++ bytes " "
          ++ bytes "http://h/a.mpd" ∧
    ∃ r, parseM3UContent (bytes "#EXTM3U tvg-id=\"A\" tvg-id=\"X\" http://h/a.mpd")
        = .ok [(bytes "A", r)] ∧
      r.URL = bytes "http://h/a.mpd" ∧
      mapGet [(bytes "A", r)] (bytes "X") = none :=
  ⟨by decide, by decide, _, rfl, by decide, by decide⟩

end M3U
